import Mathlib

/-!
# SunSpec address-range planner, typed points and Modbus framing

A shallow embedding of the address-range planner of `sunspec-go`
(`index.go`, `device.go`, `group.go`, `client.go`), of its typed points and
model definitions (`types.go`, `point.go`, `model.go`, `conv.go`) and of the
package `modules/modbus`, together with theorems about them.

Registers, addresses and quantities are `uint16` in the source.  They are
embedded as natural numbers; every `uint16` addition or subtraction of the
source is reduced modulo `2 ^ 16` explicitly.
-/

namespace SunSpec

/-! ## index.go -/

/-- Number of values of a `uint16`. -/
def u16 : Nat := 65536

/-- The `Index` interface: `Address()` and `Quantity()`, both `uint16`. -/
structure Index where
  address : Nat
  quantity : Nat
deriving DecidableEq, Repr

/-- `uint16` subtraction `a - b` (wraps around). -/
def sub16 (a b : Nat) : Nat := (a + u16 - b % u16) % u16

/-- `ceil(idx) = idx.Address() + idx.Quantity()` in `uint16` arithmetic. -/
def ceil (idx : Index) : Nat := (idx.address + idx.quantity) % u16

/-- `intersect(a, b) = !(ceil(a) <= b.Address() || ceil(b) <= a.Address())`. -/
def intersect (a b : Index) : Bool :=
  !(decide (ceil a ≤ b.address) || decide (ceil b ≤ a.address))

/-- `sort.Slice(idx, func(i, j) bool { return idx[i].Address() < idx[j].Address() })`.
On short slices (at most 12 elements since Go 1.19, at most 6 before)
`sort.Slice` is an insertion sort, which keeps ranges of equal address in
their order; the embedding is that insertion sort.  On longer slices the
library may order ranges of equal address differently: there the embedding
tells of the result only that it is a permutation of the input sorted by
address, and the theorems on lists of any length use nothing else of it; the
evaluations are on lists of at most four ranges. -/
def sortByAddress (idx : List Index) : List Index :=
  List.insertionSort (fun a b => a.address ≤ b.address) idx

/-- The `for _, idx := range idx[1:]` loop of `merge`, with its two loop
variables `merged` and `curr`, followed by the final `append(merged, curr)`. -/
def mergeLoop (merged : List Index) (curr : Index) : List Index → List Index
  | [] => merged ++ [curr]
  | idx :: rest =>
    if intersect curr idx then
      mergeLoop merged ⟨curr.address, sub16 (ceil idx) curr.address⟩ rest
    else
      mergeLoop (merged ++ [curr]) ⟨idx.address, idx.quantity⟩ rest

/-- `merge(idx)`.  The source reads `idx[0]` without a length check, so the
empty slice makes it panic (index out of range): that is `none`. -/
def merge (idx : List Index) : Option (List Index) :=
  match sortByAddress idx with
  | [] => none
  | first :: rest => some (mergeLoop [] ⟨first.address, first.quantity⟩ rest)

/-- Register `n` lies in the range `r`. -/
def Index.covers (r : Index) (n : Nat) : Prop :=
  r.address ≤ n ∧ n < r.address + r.quantity

instance (r : Index) (n : Nat) : Decidable (r.covers n) := by
  unfold Index.covers; infer_instance

/-- Register `n` lies in one of the ranges of `l`. -/
def coveredBy (l : List Index) (n : Nat) : Prop := ∃ r ∈ l, r.covers n

instance (l : List Index) (n : Nat) : Decidable (coveredBy l n) := by
  unfold coveredBy; infer_instance

/-! ## point.go, group.go, model.go -/

/-- The attributes of a `Point` the planner reads: `Name()`, `Address()`,
`Quantity()` and `Writable()`. -/
structure Point where
  name : String
  address : Nat
  quantity : Nat
  writable : Bool
deriving DecidableEq, Repr

/-- A point is an `Index` (interface embedding). -/
def Point.index (p : Point) : Index := ⟨p.address, p.quantity⟩

/-- `Points.Quantity()`: the `uint16` sum of the quantities (the sum modulo
`2 ^ 16`, in whatever order it is accumulated). -/
def Points.quantity : List Point → Nat
  | [] => 0
  | p :: ps => (p.quantity + Points.quantity ps) % u16

/-- `Points.address()`: `pts[0].Address()`, a panic (`none`) on the empty
collection. -/
def Points.address : List Point → Option Nat
  | [] => none
  | p :: _ => some p.address

/-- `Points.index()`: `index{address: pts.address(), quantity: pts.Quantity()}`. -/
def Points.index (pts : List Point) : Option Index :=
  match Points.address pts with
  | none => none
  | some a => some ⟨a, Points.quantity pts⟩

/-- The struct `group`: name, atomic flag, immediate points and immediate
sub-groups (the `origin` back-reference is not read by the planner).  A model
is its root group. -/
inductive Group where
  | mk (name : String) (atomic : Bool) (points : List Point) (groups : List Group)

/-- `g.Name()`. -/
def Group.name : Group → String
  | .mk n _ _ _ => n

/-- `g.Atomic()`. -/
def Group.atomic : Group → Bool
  | .mk _ a _ _ => a

/-- `g.Points()`. -/
def Group.points : Group → List Point
  | .mk _ _ ps _ => ps

/-- `g.Groups()`. -/
def Group.groups : Group → List Group
  | .mk _ _ _ gs => gs

/-- `g.Address()`: `g.points.address()`. -/
def Group.address (g : Group) : Option Nat := Points.address g.points

mutual
/-- `g.Quantity()`: `g.points.Quantity() + g.groups.Quantity()` as `uint16`. -/
def Group.quantity : Group → Nat
  | .mk _ _ ps gs => (Points.quantity ps + Groups.quantity gs) % u16
/-- `Groups.Quantity()`: the `uint16` sum over the collection. -/
def Groups.quantity : List Group → Nat
  | [] => 0
  | g :: gs => (Group.quantity g + Groups.quantity gs) % u16
end

/-- A group seen as an `Index` (`Address()`, `Quantity()`); `none` where
`Address()` panics. -/
def Group.index (g : Group) : Option Index :=
  match g.address with
  | none => none
  | some a => some ⟨a, g.quantity⟩

/-- The result of a callback or of a loop that threads a state: it returned
`nil` (`ok`), it returned an error (`err`, the state as the callback left
it), or it panicked. -/
inductive Flow (σ ε : Type) where
  | ok (s : σ)
  | err (s : σ) (e : ε)
  | panic
deriving DecidableEq, Repr

mutual
/-- `iterate(g, callback)`: the callback on `g`; an error of it is returned.
Then `iterate` on every sub-group, whose returned error is discarded by the
source (`iterate(g, callback)` is a statement there). -/
def iterate {σ ε : Type} (callback : Group → σ → Flow σ ε) : Group → σ → Flow σ ε
  | .mk n a ps gs, s =>
    match callback (.mk n a ps gs) s with
    | .panic => .panic
    | .err s1 e => .err s1 e
    | .ok s1 => iterateGroups callback gs s1
/-- The loop `for _, g := range g.Groups() { iterate(g, callback) }`. -/
def iterateGroups {σ ε : Type} (callback : Group → σ → Flow σ ε) :
    List Group → σ → Flow σ ε
  | [], s => .ok s
  | g :: gs, s =>
    match iterate callback g s with
    | .panic => .panic
    | .err s1 _ => iterateGroups callback gs s1
    | .ok s1 => iterateGroups callback gs s1
end

/-! ## device.go -/

/-- The errors of the planner and of the client. -/
inductive Err where
  | atomicGroup
  | pointNotContained
  | noPoints
  | noWritablePoints
  | command (code : Nat)
deriving DecidableEq, Repr

/-- The `default:` branch of the callback in `collect`: the loop over the
immediate points. -/
def collectPoints (idx : Index) : List Point → List Point → Flow (List Point) Err
  | [], pts => .ok pts
  | p :: ps, pts =>
    if intersect idx p.index then
      if decide (idx.address > p.address) || decide (ceil idx < ceil p.index) then
        .err pts .pointNotContained
      else collectPoints idx ps (pts ++ [p])
    else collectPoints idx ps pts

/-- The callback `func(g Group) error` of `collect`, on the captured `pts`. -/
def collectGroup (idx : Index) (g : Group) (pts : List Point) : Flow (List Point) Err :=
  match Points.index g.points, g.address with
  | some gi, some ga =>
    if idx.address > ceil gi then .ok pts
    else if decide (idx.address ≤ ga) && decide (ceil idx ≥ ceil gi) then .ok (pts ++ g.points)
    else if g.atomic then .err pts .atomicGroup
    else collectPoints idx g.points pts
  | _, _ => .panic

/-- The loop `for _, m := range d.Models()` of `collect` for one merged range. -/
def collectModels (idx : Index) : List Group → List Point → Flow (List Point) Err
  | [], pts => .ok pts
  | m :: ms, pts =>
    match m.index with
    | none => .panic
    | some mi =>
      if !intersect idx mi then collectModels idx ms pts
      else
        match iterate (collectGroup idx) m pts with
        | .panic => .panic
        | .err s e => .err s e
        | .ok pts1 => collectModels idx ms pts1

/-- The loop `for _, idx := range merge(idx)` of `collect`. -/
def collectRanges (d : List Group) : List Index → List Point → Flow (List Point) Err
  | [], pts => .ok pts
  | idx :: rest, pts =>
    match collectModels idx d pts with
    | .panic => .panic
    | .err s e => .err s e
    | .ok pts1 => collectRanges d rest pts1

/-- What a function of the source with result `(Points, error)` does: it returns
points and a `nil` error, it returns an error, or it panics. -/
inductive Outcome (α : Type) where
  | ok (a : α)
  | error (e : Err)
  | panic
deriving DecidableEq, Repr

/-- `collect(d, idx...)`; `d` is the list `d.Models()`. -/
def collect (d : List Group) (idx : List Index) : Outcome (List Point) :=
  match merge idx with
  | none => .panic
  | some merged =>
    match collectRanges d merged [] with
    | .panic => .panic
    | .err _ e => .error e
    | .ok pts => if pts.length = 0 then .error .noPoints else .ok pts

/-! ## client.go -/

/-- How a run of `execute` ends: the fuel of the embedding ran out while the
loop of the source was still running, the function returned `(pts, err)`, or
it panicked. -/
inductive ExecResult (ε : Type) where
  | running
  | returned (pts : List Point) (err : Option ε)
  | panic
deriving DecidableEq, Repr

/-- What `execute` did: the calls of `cmd` in order, each with the run it was
given and the error it returned (a record only, never read by the loop), the
state `cmd` left, and how the function ended. -/
structure ExecOut (σ ε : Type) where
  calls : List (List Point × Option ε)
  state : σ
  result : ExecResult ε

/-- The inner loop `for _, p := range pts[i:]` of `execute`: `rest` is what is
left of `pts[i:]`, the result is the final `i`.  An index out of range is a
panic (`none`). -/
def advance (limit : Nat) (pts : List Point) (j : Nat) : Nat → List Point → Option Nat
  | i, [] => some i
  | i, p :: rest =>
    match pts[i - 1]?, pts[j]? with
    | some prev, some first =>
      if decide (ceil prev.index ≠ p.address) ||
          decide (sub16 (ceil p.index) first.address > limit) then some i
      else advance limit pts j (i + 1) rest
    | _, _ => none

/-- The outer loop `for i, j, l := 1, 0, len(pts); j < l; j = i` of `execute`,
at most `fuel` iterations of it.  `cmd` is a function of the state it acts on. -/
def executeLoop {σ ε : Type} (limit : Nat) (pts : List Point)
    (cmd : σ → List Point → σ × Option ε) :
    Nat → Nat → Nat → List (List Point × Option ε) → σ → ExecOut σ ε
  | 0, _, _, calls, s => ⟨calls, s, .running⟩
  | fuel + 1, i, j, calls, s =>
    if j < pts.length then
      if pts.length < i then ⟨calls, s, .panic⟩
      else
        match advance limit pts j i (pts.drop i) with
        | none => ⟨calls, s, .panic⟩
        | some i1 =>
          if i1 < j then ⟨calls, s, .panic⟩
          else
            match cmd s ((pts.take i1).drop j) with
            | (s1, some e) =>
              ⟨calls ++ [((pts.take i1).drop j, some e)], s1, .returned (pts.take j) (some e)⟩
            | (s1, none) =>
              executeLoop limit pts cmd fuel i1 i1 (calls ++ [((pts.take i1).drop j, none)]) s1
    else ⟨calls, s, .returned pts none⟩

/-- `c.execute(limit, pts, cmd)`. -/
def execute {σ ε : Type} (fuel limit : Nat) (pts : List Point)
    (cmd : σ → List Point → σ × Option ε) (s : σ) : ExecOut σ ε :=
  executeLoop limit pts cmd fuel 1 0 [] s

/-- `mbClient.read`: `execute` with the limit 125; `cmd` stands for the
closure that reads the holding registers and decodes them. -/
def mbClient.read {σ ε : Type} (fuel : Nat) (pts : List Point)
    (cmd : σ → List Point → σ × Option ε) (s : σ) : ExecOut σ ε :=
  execute fuel 125 pts cmd s

/-- `mbClient.write`: `execute` with the limit 123; `cmd` stands for the
closure that encodes the points and writes the registers. -/
def mbClient.write {σ : Type} (fuel : Nat) (pts : List Point)
    (cmd : σ → List Point → σ × Option Err) (s : σ) : ExecOut σ Err :=
  execute fuel 123 pts cmd s

/-- `Client.Read`: `collect`, then `read` of the collected points. -/
def Client.Read {σ : Type} (fuel : Nat) (d : List Group) (idx : List Index)
    (cmd : σ → List Point → σ × Option Err) (s : σ) : ExecOut σ Err :=
  match collect d idx with
  | .panic => ⟨[], s, .panic⟩
  | .error e => ⟨[], s, .returned [] (some e)⟩
  | .ok pts => mbClient.read fuel pts cmd s

/-- `Client.Write`: `collect`, the writable points moved to the front of `pts`
(`pts[:i]` is then the writable points in order), the test `len(pts) == 0`
on the collected slice, and `write` of `pts[:i]`. -/
def Client.Write {σ : Type} (fuel : Nat) (d : List Group) (idx : List Index)
    (cmd : σ → List Point → σ × Option Err) (s : σ) : ExecOut σ Err :=
  match collect d idx with
  | .panic => ⟨[], s, .panic⟩
  | .error e => ⟨[], s, .returned [] (some e)⟩
  | .ok pts =>
    if pts.length = 0 then ⟨[], s, .returned [] (some .noWritablePoints)⟩
    else mbClient.write fuel (pts.filter fun p => p.writable) cmd s

/-! ## types.go: encoding of the integer-backed points

A buffer `[]byte` is a list of bytes (natural numbers below 256).  A value of
a signed Go type is an integer, converted to and from its unsigned bit
pattern (two's complement) as the conversions `uint16(v)`, `int16(u)`, ... do. -/

/-- The conversion `uintN(v)` of a signed value: the bit pattern of `v` on
`bits` bits. -/
def toUnsigned (bits : Nat) (v : Int) : Nat := (v % (2 : Int) ^ bits).toNat

/-- The conversion `intN(u)` of an unsigned value of `bits` bits. -/
def toSigned (bits : Nat) (u : Nat) : Int :=
  if u % 2 ^ bits < 2 ^ (bits - 1) then ((u % 2 ^ bits : Nat) : Int)
  else ((u % 2 ^ bits : Nat) : Int) - (2 : Int) ^ bits

/-- The `n` bytes of `v` in big-endian order: `byte(v >> 8 (n - 1))`, ...,
`byte(v >> 8)`, `byte(v)`. -/
def beBytes : Nat → Nat → List Nat
  | 0, _ => []
  | n + 1, v => (v / 256 ^ n) % 256 :: beBytes n v

/-- The value of bytes in big-endian order: `b[n-1] | b[n-2]<<8 | ...`. -/
def beValue (bs : List Nat) : Nat := bs.foldl (fun acc b => acc * 256 + b) 0

/-- The functions `binary.BigEndian.PutUint16`, `PutUint32`, `PutUint64`
(`n` = 2, 4, 8): they write `n` bytes at the start of `b` and panic (`none`)
when `b` is shorter. -/
def putUint (n : Nat) (b : List Nat) (v : Nat) : Option (List Nat) :=
  if b.length < n then none else some (beBytes n v ++ b.drop n)

/-- The functions `binary.BigEndian.Uint16`, `Uint32`, `Uint64` (`n` = 2, 4, 8):
they read `n` bytes at the start of `b` and panic (`none`) when `b` is
shorter. -/
def getUint (n : Nat) (b : List Nat) : Option Nat :=
  if b.length < n then none else some (beValue (b.take n))

/-- The integer-backed point variants. -/
inductive IntKind where
  | int16 | int32 | int64
  | uint16 | uint32 | uint64
  | acc16 | acc32 | acc64
  | count
  | bitfield16 | bitfield32 | bitfield64
  | enum16 | enum32
deriving DecidableEq, Repr

/-- `Quantity()` of the integer-backed variants. -/
def IntKind.quantity : IntKind → Nat
  | .int16 | .uint16 | .acc16 | .count | .bitfield16 | .enum16 => 1
  | .int32 | .uint32 | .acc32 | .bitfield32 | .enum32 => 2
  | .int64 | .uint64 | .acc64 | .bitfield64 => 4

/-- Whether `data` is of a signed type (`int16`, `int32`, `int64`). -/
def IntKind.signed : IntKind → Bool
  | .int16 | .int32 | .int64 => true
  | _ => false

/-- The values of the type of `data`. -/
def IntKind.InRange (k : IntKind) (v : Int) : Prop :=
  if k.signed then -(2 : Int) ^ (16 * k.quantity - 1) ≤ v ∧ v < (2 : Int) ^ (16 * k.quantity - 1)
  else 0 ≤ v ∧ v < (2 : Int) ^ (16 * k.quantity)

/-- The method `encode(buf)` of an integer-backed point that holds `data`:
`binary.BigEndian.PutUintN(buf, uintN(t.Get()))`; the result is the buffer
after the call, `none` for a panic.  The returned error is always `nil`. -/
def IntKind.encode (k : IntKind) (data : Int) (buf : List Nat) : Option (List Nat) :=
  putUint (2 * k.quantity) buf (toUnsigned (16 * k.quantity) data)

/-- The method `decode(buf)` of an integer-backed point:
`t.Set(intN(binary.BigEndian.UintN(buf)))`; the result is `data` after the
call (`Set` stores its argument and returns `nil`), `none` for a panic. -/
def IntKind.decode (k : IntKind) (buf : List Nat) : Option Int :=
  match getUint (2 * k.quantity) buf with
  | none => none
  | some u => some (if k.signed then toSigned (16 * k.quantity) u else (u : Int))

/-! ## types.go: sunssf -/

/-- The method `tSunssf.set(v)` on a point that holds `data`: the stored value
after the call and whether an error is returned. -/
def Sunssf.set (data v : Int) : Int × Bool :=
  if v < -10 ∨ v > 10 then (data, true) else (v, false)

/-- The method `tSunssf.decode(buf)`:
`t.set(int16(binary.BigEndian.Uint16(buf)))`; `none` for a panic. -/
def Sunssf.decode (data : Int) (buf : List Nat) : Option (Int × Bool) :=
  match getUint 2 buf with
  | none => none
  | some u => some (Sunssf.set data (toSigned 16 u))

/-- The method `tSunssf.encode(buf)`: `PutUint16(buf, uint16(t.Get()))`. -/
def Sunssf.encode (data : Int) (buf : List Nat) : Option (List Nat) :=
  putUint 2 buf (toUnsigned 16 data)

/-! ## types.go: string -/

/-- The field `data []byte` of a `tString`: the backing array (its length is
the capacity) and the length of the slice. -/
structure TString where
  array : List Nat
  len : Nat
deriving DecidableEq, Repr

/-- The expression `append(make([]byte, 0, def.Size*2), toByteS(def.Value)...)`
of `PointDef.Instance`: `value` is `toByteS(def.Value)`, `def.Size*2` is a
`uint16` product.  When the value does not fit the capacity the runtime
allocates a new array, of the capacity `grow` (at least the length). -/
def TString.ofDef (grow size : Nat) (value : List Nat) : TString :=
  if value.length ≤ (size * 2) % u16 then
    ⟨value ++ List.replicate ((size * 2) % u16 - value.length) 0, value.length⟩
  else ⟨value ++ List.replicate (grow - value.length) 0, value.length⟩

/-- The builtin `copy(dst, src)`: the first `min(len(dst), len(src))` bytes
of `dst` are replaced by those of `src`. -/
def copyBytes (dst src : List Nat) : List Nat :=
  src.take (min dst.length src.length) ++ dst.drop (min dst.length src.length)

/-- The method `tString.Set(v)`: `copy(t.data[:cap(t.data)], v)`; the length
of `t.data` is not changed. -/
def TString.Set (t : TString) (v : List Nat) : TString :=
  ⟨copyBytes t.array v, t.len⟩

/-- The method `tString.Get()`: `string(t.data)`, the first `len(t.data)` bytes
of the array. -/
def TString.Get (t : TString) : List Nat := t.array.take t.len

/-- The method `tString.Quantity()`: `uint16(cap(t.data) / 2)`. -/
def TString.Quantity (t : TString) : Nat := (t.array.length / 2) % u16

/-! ## point.go, conv.go: typed points and their definitions -/

/-- A value of the type `interface{}` of a definition (`Value`, `Count`,
`ScaleFactor`): `nil`, a Go `int`, a `float64` that holds an integer (what
JSON decoding delivers for an integer literal), a `string`, a value of a
fixed-width integer type (`int16` is `fixed true 16`), or a `[]byte`. -/
inductive Dyn where
  | null
  | int (v : Int)
  | float64 (v : Int)
  | str (s : String)
  | fixed (signed : Bool) (bits : Nat) (v : Int)
  | bytes (b : List Nat)
deriving DecidableEq, Repr

/-- The point variants, by the type tag of `PointDef.Instance`. -/
inductive Variant where
  | int16 | int32 | int64 | pad | sunssf
  | uint16 | uint32 | uint64
  | acc16 | acc32 | acc64 | count
  | bitfield16 | bitfield32 | bitfield64
  | enum16 | enum32
  | string | float32 | float64
  | ipaddr | ipv6addr | eui48
deriving DecidableEq, Repr

/-- The `switch def.Type` of `PointDef.Instance`: the variant of a type tag,
`none` for a tag that is not recognised. -/
def Variant.ofTag (tag : String) : Option Variant :=
  if tag = "int16" then some .int16
  else if tag = "int32" then some .int32
  else if tag = "int64" then some .int64
  else if tag = "pad" then some .pad
  else if tag = "sunssf" then some .sunssf
  else if tag = "uint16" then some .uint16
  else if tag = "uint32" then some .uint32
  else if tag = "uint64" then some .uint64
  else if tag = "acc16" then some .acc16
  else if tag = "acc32" then some .acc32
  else if tag = "acc64" then some .acc64
  else if tag = "count" then some .count
  else if tag = "bitfield16" then some .bitfield16
  else if tag = "bitfield32" then some .bitfield32
  else if tag = "bitfield64" then some .bitfield64
  else if tag = "enum16" then some .enum16
  else if tag = "enum32" then some .enum32
  else if tag = "string" then some .string
  else if tag = "float32" then some .float32
  else if tag = "float64" then some .float64
  else if tag = "ipaddr" then some .ipaddr
  else if tag = "ipv6addr" then some .ipv6addr
  else if tag = "eui48" then some .eui48
  else none

/-- A pointer `*group`: `none` is the nil pointer, `some path` is the group
reached from the root group of the model through the sub-groups with the
indices `path`. -/
abbrev GroupPtr := Option (List Nat)

/-- A value of the interface type `Group`: `none` is the nil interface,
`some ptr` is an interface that holds the pointer `ptr`, which may be the nil
pointer. -/
abbrev GroupIface := Option GroupPtr

/-- The field `f interface{}` of `scale`: a value of the definition, or the
`Sunssf` point that `factor` stored there, the point of index `idx` of the
group at `path`. -/
inductive ScaleF where
  | dyn (d : Dyn)
  | sunssf (path : List Nat) (idx : Nat)
deriving DecidableEq, Repr

/-- The field `data` of a typed point: an integer, the bytes of a string, or
a value that is not embedded (floating point, addresses, none for `pad`). -/
inductive Payload where
  | int (v : Int)
  | str (t : TString)
  | other
deriving DecidableEq, Repr

/-- A typed point: the struct `point` (name, static, writable, address,
origin) with the variant, the data, the scale (of a scalable variant) and the
symbols (of a bitfield or enum variant, by value). -/
structure TPoint where
  name : String
  static : Bool
  writable : Bool
  address : Nat
  origin : GroupIface
  variant : Variant
  data : Payload
  scale : ScaleF
  symbols : List (Nat × String)
deriving DecidableEq, Repr

/-- The method `Quantity()` of the typed points. -/
def TPoint.quantity (t : TPoint) : Nat :=
  match t.variant with
  | .int16 | .pad | .sunssf | .uint16 | .acc16 | .count | .bitfield16 | .enum16 => 1
  | .int32 | .uint32 | .acc32 | .bitfield32 | .enum32 | .float32 | .ipaddr => 2
  | .int64 | .uint64 | .acc64 | .bitfield64 | .float64 | .eui48 => 4
  | .ipv6addr => 8
  | .string =>
    match t.data with
    | .str d => d.Quantity
    | _ => 0

/-- The integer `Get()` returns for a point with integer data. -/
def TPoint.int (t : TPoint) : Int :=
  match t.data with
  | .int v => v
  | _ => 0

/-- The typed point as the planner sees it. -/
def TPoint.toPoint (t : TPoint) : Point := ⟨t.name, t.address, t.quantity, t.writable⟩

/-- The conversion `int32(x)` of a `float64` that holds the integer `v`, as the
compiler translates it for amd64 (the instruction CVTTSD2SL): the value itself
within the range of `int32`, and `-2 ^ 31` outside of it.  The language leaves
the result outside the range to the implementation. -/
def float64ToInt32 (v : Int) : Int :=
  if -2147483648 ≤ v ∧ v < 2147483648 then v else -2147483648

/-- The conversion `int64(x)` of a `float64` that holds the integer `v`
(CVTTSD2SQ on amd64): the value itself within the range of `int64`, and
`-2 ^ 63` outside of it. -/
def float64ToInt64 (v : Int) : Int :=
  if -9223372036854775808 ≤ v ∧ v < 9223372036854775808 then v
  else -9223372036854775808

/-- The conversion `uint64(x)` of a `float64` that holds the integer `v`, as
the compiler expands it for amd64: the bits of `int64(x)` for `x < 2 ^ 63`,
and the bits of `int64(x - 2 ^ 63)` with the highest bit set otherwise. -/
def float64ToUint64 (v : Int) : Nat :=
  if v < 9223372036854775808 then toUnsigned 64 (float64ToInt64 v)
  else toUnsigned 64 (float64ToInt64 (v - 9223372036854775808)) ||| 9223372036854775808

/-- The functions `toInt16`, `toInt32`, `toInt64` (`bits` = 16, 32, 64): the
conversion of an `int` wraps around; a `float64` is converted to `int64`
directly, and to `int16` and `int32` through `int32`, of which `int16` keeps
the low 16 bits. -/
def toIntN (bits : Nat) : Dyn → Int
  | .int v => toSigned bits (toUnsigned bits v)
  | .float64 v =>
    if bits = 64 then float64ToInt64 v
    else toSigned bits (toUnsigned bits (float64ToInt32 v))
  | .fixed true b v => if b = bits then v else 0
  | _ => 0

/-- The functions `toUint16`, `toUint32`, `toUint64`: the conversion of an
`int` wraps around; a `float64` is converted to `uint16` through `int32` and to
`uint32` through `int64`, of which the low bits are kept. -/
def toUintN (bits : Nat) : Dyn → Int
  | .int v => (toUnsigned bits v : Nat)
  | .float64 v =>
    if bits = 64 then (float64ToUint64 v : Nat)
    else if bits = 32 then (toUnsigned 32 (float64ToInt64 v) : Nat)
    else (toUnsigned bits (float64ToInt32 v) : Nat)
  | .fixed false b v => if b = bits then v else 0
  | _ => 0

/-- The function `toByteS`. -/
def toByteS : Dyn → List Nat
  | .str s => s.toUTF8.toList.map fun b => b.toNat
  | .bytes b => b
  | _ => []

/-- The struct `SymbolDef`: name and value. -/
structure SymbolDef where
  name : String
  value : Nat
deriving DecidableEq, Repr

/-- The struct `PointDef` (the fields `PointDef.Instance` and `model.count`
read). -/
structure PointDef where
  name : String
  type : String
  value : Dyn
  count : Dyn
  size : Nat
  sf : Dyn
  writable : Bool
  static : Bool
  symbols : List SymbolDef
deriving DecidableEq, Repr

/-- The map `Symbols` that `PointDef.Instance` fills: `s[sym.Value] = sym` for
every symbol in order, a later symbol replacing an earlier one of the same
value. -/
def symbolTable (defs : List SymbolDef) : List (Nat × String) :=
  defs.foldl (fun m d => (d.value, d.name) :: m.filter fun e => e.1 ≠ d.value) []

/-- The data `PointDef.Instance` gives a point of the variant `v`. -/
def PointDef.data (grow : Nat → Nat) (d : PointDef) : Variant → Payload
  | .int16 | .sunssf => .int (toIntN 16 d.value)
  | .int32 => .int (toIntN 32 d.value)
  | .int64 => .int (toIntN 64 d.value)
  | .uint16 | .acc16 | .count | .bitfield16 | .enum16 => .int (toUintN 16 d.value)
  | .uint32 | .acc32 | .bitfield32 | .enum32 => .int (toUintN 32 d.value)
  | .uint64 | .acc64 | .bitfield64 => .int (toUintN 64 d.value)
  | .string =>
    .str (TString.ofDef (grow (toByteS d.value).length) d.size (toByteS d.value))
  | _ => .other

/-- Whether a variant embeds `scale` (the `int`, `uint` and `acc` variants). -/
def Variant.scalable : Variant → Bool
  | .int16 | .int32 | .int64 | .uint16 | .uint32 | .uint64 | .acc16 | .acc32 | .acc64 => true
  | _ => false

/-- Whether a variant has symbols (the `bitfield` and `enum` variants). -/
def Variant.symbolic : Variant → Bool
  | .bitfield16 | .bitfield32 | .bitfield64 | .enum16 | .enum32 => true
  | _ => false

/-- `def.Instance(adr, o)`: the typed point of the definition at the address
`adr` with the origin `o`; `none` is the `nil` the source returns for a type
tag that is not recognised.  `grow` is the capacity the runtime gives the
array of a string whose initial value does not fit `2 * size` bytes. -/
def PointDef.Instance (grow : Nat → Nat) (d : PointDef) (adr : Nat) (o : GroupIface) :
    Option TPoint :=
  match Variant.ofTag d.type with
  | none => none
  | some v =>
    some
      ⟨d.name, d.static, d.writable, adr, o, v, d.data grow v,
        if v.scalable then .dyn d.sf else .dyn .null,
        if v.symbolic then symbolTable d.symbols else []⟩

/-! ## model.go: instantiation -/

/-- The struct `GroupDef`: name, atomic flag, count, point definitions and
group definitions. -/
inductive GroupDef where
  | mk (name : String) (atomic : Bool) (count : Dyn) (points : List PointDef)
      (groups : List GroupDef)

/-- `def.Name`. -/
def GroupDef.name : GroupDef → String
  | .mk n _ _ _ _ => n

/-- `def.Count`. -/
def GroupDef.count : GroupDef → Dyn
  | .mk _ _ c _ _ => c

/-- `def.Points`. -/
def GroupDef.points : GroupDef → List PointDef
  | .mk _ _ _ ps _ => ps

/-- `def.Groups`. -/
def GroupDef.groups : GroupDef → List GroupDef
  | .mk _ _ _ _ gs => gs

/-- The struct `ModelDef`: the identifier and the root group definition. -/
structure ModelDef where
  id : Nat
  group : GroupDef

/-- The struct `group` with typed points: name, atomic flag, the pointer
`origin`, the immediate points and the immediate sub-groups. -/
inductive TGroup where
  | mk (name : String) (atomic : Bool) (origin : GroupPtr) (points : List TPoint)
      (groups : List TGroup)

/-- `g.Name()`. -/
def TGroup.name : TGroup → String
  | .mk n _ _ _ _ => n

/-- The field `g.origin`. -/
def TGroup.origin : TGroup → GroupPtr
  | .mk _ _ o _ _ => o

/-- `g.Points()`. -/
def TGroup.points : TGroup → List TPoint
  | .mk _ _ _ ps _ => ps

/-- `g.Groups()`. -/
def TGroup.groups : TGroup → List TGroup
  | .mk _ _ _ _ gs => gs

mutual
/-- The group as the planner sees it. -/
def TGroup.toGroup : TGroup → Group
  | .mk n a _ ps gs => .mk n a (ps.map TPoint.toPoint) (TGroups.toGroups gs)
/-- The groups as the planner sees them. -/
def TGroups.toGroups : List TGroup → List Group
  | [] => []
  | g :: gs => TGroup.toGroup g :: TGroups.toGroups gs
end

mutual
/-- The typed points of the group and of its descendants, in pre-order. -/
def TGroup.flat : TGroup → List TPoint
  | .mk _ _ _ ps gs => ps ++ TGroups.flat gs
/-- The typed points of the groups of the list and of their descendants. -/
def TGroups.flat : List TGroup → List TPoint
  | [] => []
  | g :: gs => TGroup.flat g ++ TGroups.flat gs
end

/-- The group a pointer into the model `root` refers to. -/
def TGroup.deref : TGroup → List Nat → Option TGroup
  | g, [] => some g
  | .mk _ _ _ _ gs, i :: rest =>
    match gs[i]? with
    | none => none
    | some c => TGroup.deref c rest

/-- The point of index `idx` of the group at `path`. -/
def TGroup.pointAt (root : TGroup) (path : List Nat) (idx : Nat) : Option TPoint :=
  match root.deref path with
  | none => none
  | some g => g.points[idx]?

/-- What a function of the source does that returns a value and an error: it
returns a value with a `nil` error, it returns an error, or it panics. -/
inductive Result (ε α : Type) where
  | ok (a : α)
  | error (e : ε)
  | panic
deriving DecidableEq

/-- The type switch `switch p := p.(type)` of `model.count`: `uint16(p.Get())`
for a point whose type implements one of the interfaces `Int16`, `Int32`,
`Int64`, `Uint16`, `Uint32`, `Uint64`, `Acc16`, `Acc32`, `Acc64`, `Count`
(the last one is implemented by `count`, `bitfield16` and `enum16` points
too), `none` for the other points. -/
def countOf (p : TPoint) : Option Nat :=
  match p.variant with
  | .int16 | .int32 | .int64 | .uint16 | .uint32 | .uint64
  | .acc16 | .acc32 | .acc64 | .count | .bitfield16 | .enum16 => some (toUnsigned 16 p.int)
  | _ => none

/-- The loop `for _, p := range m.Points()` of `model.count` for the name `v`,
followed by the final `return 1`. -/
def countByName (v : String) : List TPoint → Nat
  | [] => 1
  | p :: ps =>
    if p.name = v then
      match countOf p with
      | some n => n
      | none => countByName v ps
    else countByName v ps

/-- `m.count(c)`, where `pts` is `m.Points()`, the points of the root group of
the model.  The conversion `uint16(v)` of an `int` wraps around; that of a
`float64` goes through `int32` and keeps the low 16 bits. -/
def count (pts : List TPoint) : Dyn → Nat
  | .int v => toUnsigned 16 v
  | .float64 v => toUnsigned 16 (float64ToInt32 v)
  | .str v => countByName v pts
  | _ => 1

/-- The loop `for c := m.count(def.Count); c != 0; c--` over one point
definition: `c` points are appended to `pts`, each at the address `adr`, which
then becomes its ceiling; `none` is the panic of `ceil` on the `nil` point of
a type tag that is not recognised. -/
def instPoint (grow : Nat → Nat) (d : PointDef) (o : GroupIface) :
    Nat → List TPoint → Nat → Option (List TPoint × Nat)
  | 0, pts, adr => some (pts, adr)
  | c + 1, pts, adr =>
    match d.Instance grow adr o with
    | none => none
    | some p => instPoint grow d o c (pts ++ [p]) ((p.address + p.quantity) % u16)

/-- The loop `for _, def := range def.Points` of the closure `iterate` of
`ModelDef.Instance`.  `root` is `m.Points()` when the root group is complete,
`none` while the root group itself is instantiated: `m.Points()` is then the
points `pts` instantiated so far. -/
def instPoints (grow : Nat → Nat) (root : Option (List TPoint)) (o : GroupIface) :
    List PointDef → List TPoint → Nat → Option (List TPoint × Nat)
  | [], pts, adr => some (pts, adr)
  | d :: ds, pts, adr =>
    match instPoint grow d o (count (root.getD pts) d.count) pts adr with
    | none => none
    | some (pts1, adr1) => instPoints grow root o ds pts1 adr1

/-- The loop `for c := m.count(def.Count); c != 0; c--` over one group
definition: `step` is `iterate(def)` at a path and an address, the new group
is appended to `gs`. -/
def instRepeat {ε : Type} (step : List Nat → Nat → Result ε (TGroup × Nat))
    (path : List Nat) : Nat → List TGroup → Nat → Result ε (List TGroup × Nat)
  | 0, gs, adr => .ok (gs, adr)
  | c + 1, gs, adr =>
    match step (path ++ [gs.length]) adr with
    | .panic => .panic
    | .error e => .error e
    | .ok (x, adr1) => instRepeat step path c (gs ++ [x]) adr1

/-- The argument `callback` of `ModelDef.Instance`: `none` is `nil`; a
callback is given the points of a group and returns them as it left them, or
an error. -/
abbrev Callback (ε : Type) := Option (List TPoint → Result ε (List TPoint))

/-- The statement `if callback != nil { if err := callback(g.points) ... }`. -/
def runCallback {ε : Type} (cb : Callback ε) (pts : List TPoint) : Result ε (List TPoint) :=
  match cb with
  | none => .ok pts
  | some f => f pts

mutual
/-- The closure `iterate(def)` of `ModelDef.Instance` for the group at `path`,
with the address cursor `adr`: the group and the cursor after it.  The field
`origin` of the group is left `nil`, as in the source. -/
def instGroup {ε : Type} (grow : Nat → Nat) (cb : Callback ε) :
    GroupDef → List Nat → Option (List TPoint) → Nat → Result ε (TGroup × Nat)
  | .mk name atomic _ pdefs gdefs, path, root, adr =>
    match instPoints grow root (some (some path)) pdefs [] adr with
    | none => .panic
    | some (pts, adr1) =>
      match runCallback cb pts with
      | .panic => .panic
      | .error e => .error e
      | .ok pts1 =>
        match instGroups grow cb gdefs path (root.getD pts1) [] adr1 with
        | .panic => .panic
        | .error e => .error e
        | .ok (gs, adr2) => .ok (.mk name atomic none pts1 gs, adr2)
/-- The loop `for _, def := range def.Groups` of the closure `iterate`. -/
def instGroups {ε : Type} (grow : Nat → Nat) (cb : Callback ε) :
    List GroupDef → List Nat → List TPoint → List TGroup → Nat →
      Result ε (List TGroup × Nat)
  | [], _, _, gs, adr => .ok (gs, adr)
  | d :: ds, path, root, gs, adr =>
    match instRepeat (fun p a => instGroup grow cb d p (some root) a) path
        (count root d.count) gs adr with
    | .panic => .panic
    | .error e => .error e
    | .ok (gs1, adr1) => instGroups grow cb ds path root gs1 adr1
end

/-- The calls `m.ID().Set(v)` and `m.Length().Set(v)` of `ModelDef.Instance`
on the points `pts` of the root group: the first point of the name is looked
up; `none` is the panic when there is none (`Set` on a `nil` interface) or
when it is not a `uint16` point (the type assertion `.(Uint16)`). -/
def setUint16 (name : String) (v : Nat) : List TPoint → Option (List TPoint)
  | [] => none
  | p :: ps =>
    if p.name = name then
      if p.variant = .uint16 then some ({ p with data := .int (v : Int) } :: ps) else none
    else
      match setUint16 name v ps with
      | none => none
      | some ps1 => some (p :: ps1)

/-- `m.Quantity()` of a model with typed points. -/
def TGroup.quantity (m : TGroup) : Nat := m.toGroup.quantity

/-- `def.Instance(adr, callback)`. -/
def ModelDef.Instance {ε : Type} (grow : Nat → Nat) (d : ModelDef) (adr : Nat)
    (cb : Callback ε) : Result ε TGroup :=
  match instGroup grow cb d.group [] none adr with
  | .panic => .panic
  | .error e => .error e
  | .ok (.mk name atomic origin pts gs, _) =>
    match setUint16 "ID" d.id pts with
    | none => .panic
    | some pts1 =>
      match setUint16 "L" (sub16 (TGroup.mk name atomic origin pts1 gs).quantity 2) pts1 with
      | none => .panic
      | some pts2 => .ok (.mk name atomic origin pts2 gs)

/-! ## model.go: Verify -/

/-- The errors of `Verify`. -/
inductive VerifyErr where
  | lengthMismatch
  | notContinuous
  | invalidName
  | missingPoints
deriving DecidableEq, Repr

/-- Whether the regular expression `^([[:alnum:]]|_)+$` matches the name: one
or more characters, each an ASCII letter, an ASCII digit or the underscore. -/
def validName (name : String) : Bool :=
  !name.toList.isEmpty && name.toList.all fun c => c.isAlphanum || c == '_'

/-- The loop `for _, p := range g.Points()` of the callback of `Verify`, on the
captured `adr`. -/
def verifyPoints : List Point → Nat → Flow Nat VerifyErr
  | [], adr => .ok adr
  | p :: ps, adr =>
    if p.address ≠ adr then .err adr .notContinuous
    else if !validName p.name then .err adr .invalidName
    else verifyPoints ps ((adr + p.quantity) % u16)

/-- The callback `func(g Group) error` of `Verify`, on the captured `adr`.
`g.Address()` is evaluated first and panics on a group without points. -/
def verifyGroup (g : Group) (adr : Nat) : Flow Nat VerifyErr :=
  match g.address with
  | none => .panic
  | some ga =>
    if ga ≠ adr then .err adr .notContinuous
    else if !validName g.name then .err adr .invalidName
    else if g.points.isEmpty then .err adr .missingPoints
    else verifyPoints g.points adr

/-- `m.Length().Get()`: the value of the first point of the root group named
`L`; `none` is the panic when there is none (`Get` on a `nil` interface) or
when it is not a `uint16` point (the type assertion `.(Uint16)`). -/
def TGroup.length (m : TGroup) : Option Nat :=
  match m.points.find? (fun p => p.name = "L") with
  | none => none
  | some p => if p.variant = .uint16 then some (toUnsigned 16 p.int) else none

/-- `m.ID().Get()`, as `TGroup.length` for the name `ID`. -/
def TGroup.id (m : TGroup) : Option Nat :=
  match m.points.find? (fun p => p.name = "ID") with
  | none => none
  | some p => if p.variant = .uint16 then some (toUnsigned 16 p.int) else none

/-- What `Verify` does: it returns `nil`, it returns an error, or it panics. -/
inductive Verdict where
  | valid
  | error (e : VerifyErr)
  | panic
deriving DecidableEq, Repr

/-- `Verify(m)`. -/
def Verify (m : TGroup) : Verdict :=
  match m.length with
  | none => .panic
  | some l =>
    if (l + 2) % u16 ≠ m.quantity then .error .lengthMismatch
    else
      match m.toGroup.address with
      | none => .panic
      | some adr =>
        match iterate verifyGroup m.toGroup adr with
        | .panic => .panic
        | .err _ e => .error e
        | .ok _ => .valid

/-! ## types.go: scale -/

/-- Whether the type of the point implements the interface `Sunssf` (the
methods of `Point` and `Get() int16`): the `sunssf` and the `int16` points. -/
def TPoint.isSunssf (p : TPoint) : Bool :=
  p.variant = .sunssf || p.variant = .int16

/-- The loop `for _, p := range g.Points()` of `scale.factor`: the index and
the value of the first point named `sf` whose type implements `Sunssf`;
`i` is the index of the head of the list. -/
def findSunssf (sf : String) : List TPoint → Nat → Option (Nat × Int)
  | [], _ => none
  | q :: qs, i =>
    if q.name = sf && q.isSunssf then some (i, q.int) else findSunssf sf qs (i + 1)

/-- How a call of `factor` ends: the fuel of the embedding ran out in the loop
over the origins, it returned a value (and left `s.f` as given), or it
panicked. -/
inductive FactorOut where
  | running
  | returned (v : Int) (f : ScaleF)
  | panic
deriving DecidableEq, Repr

/-- The loop `for g := p.Origin(); g != nil; g = g.Origin()` of `scale.factor`
in the model `root`, at most `fuel` iterations of it.  `g.Points()` on an
interface that holds the nil pointer is a panic; `g.Origin()` returns the
field `origin` as an interface, which is never the nil interface. -/
def factorWalk (root : TGroup) (sf : String) : Nat → GroupIface → FactorOut
  | 0, _ => .running
  | _ + 1, none => .returned 0 (.dyn (.str sf))
  | _ + 1, some none => .panic
  | fuel + 1, some (some path) =>
    match root.deref path with
    | none => .panic
    | some g =>
      match findSunssf sf g.points 0 with
      | some (i, v) => .returned v (.sunssf path i)
      | none => factorWalk root sf fuel (some g.origin)

/-- `s.factor(p)` in the model `root`, where `f` is the field `s.f`: the value
returned and the field after the call.  A stored `Sunssf` point is read where
it lies in the model (a pointer always refers to its point: the case that
there is none does not arise). -/
def factor (root : TGroup) (fuel : Nat) (f : ScaleF) (p : TPoint) : FactorOut :=
  match f with
  | .dyn (.fixed true 16 k) => .returned k f
  | .sunssf path idx =>
    match root.pointAt path idx with
    | some q => .returned q.int f
    | none => .panic
  | .dyn (.str sf) => factorWalk root sf fuel p.origin
  | _ => .returned 0 f

/-- `t.Factor()` of a scalable point of the model `root`: `t.factor(t)`. -/
def TPoint.Factor (root : TGroup) (fuel : Nat) (p : TPoint) : FactorOut :=
  factor root fuel p.scale p

/-! ## types.go: Value, with the `float64` arithmetic of the language and
`math.Pow10` of the standard library -/

/-- A value of the type `float64` (IEEE 754 binary64).  A finite value is
`(-1) ^ sign * mant * 2 ^ exp` in the form the format stores: `mant < 2 ^ 53`,
`-1074 ≤ exp ≤ 971`, and `2 ^ 52 ≤ mant` unless `exp = -1074` (the subnormal
numbers and the two zeros).  The other values are the two infinities and NaN. -/
inductive Float64 where
  | finite (sign : Bool) (mant : Nat) (exp : Int)
  | inf (sign : Bool)
  | nan
deriving DecidableEq, Repr

/-- The loop of `log2`: at most `fuel` halvings. -/
def log2Loop : Nat → Nat → Nat
  | 0, _ => 0
  | fuel + 1, n => if n < 2 then 0 else log2Loop fuel (n / 2) + 1

/-- The position of the highest bit of `n` (0 for `n = 0`). -/
def log2 (n : Nat) : Nat := log2Loop n n

/-- The exponent of the last bit that a `float64` keeps of the number `n / d`
(`n > 0`, `d > 0`): the `e` for which `n / d / 2 ^ e` has 53 bits before the
point, or -1074 when that is lower (the number is in the subnormal range). -/
def Float64.exponent (n d : Nat) : Int :=
  let e1 : Int := (log2 n : Int) - (log2 d : Int) - 52
  let e2 : Int :=
    if n * 2 ^ (-e1).toNat / (d * 2 ^ e1.toNat) < 2 ^ 52 then e1 - 1 else e1
  max e2 (-1074)

/-- The natural number nearest to `num / den`, the even one of two that are
equally near. -/
def Float64.nearest (num den : Nat) : Nat :=
  let q := num / den
  let r := num % den
  if 2 * r < den then q
  else if den < 2 * r then q + 1
  else if q % 2 = 0 then q else q + 1

/-- The `float64` nearest to the number `(-1) ^ sign * n / d` (`d > 0`), the
one with the even mantissa when two are equally near: the rounding of
IEEE 754 that the conversions, the constants and the arithmetic of `float64`
apply to the exact result.  A mantissa that rounds up to `2 ^ 53` moves to the
next exponent; a result of `2 ^ 1024` or more is an infinity. -/
def Float64.round (sign : Bool) (n d : Nat) : Float64 :=
  if n = 0 then .finite sign 0 (-1074)
  else
    let e : Int := Float64.exponent n d
    let m := Float64.nearest (n * 2 ^ (-e).toNat) (d * 2 ^ e.toNat)
    if m = 2 ^ 53 then (if 971 < e + 1 then .inf sign else .finite sign (2 ^ 52) (e + 1))
    else if 971 < e then .inf sign
    else .finite sign m e

/-- The conversion `float64(v)` of an integer. -/
def Float64.ofInt (v : Int) : Float64 := Float64.round (decide (v < 0)) v.natAbs 1

/-- The constant `n * 10 ^ k` as a `float64` (`1e-32` is `lit 1 (-32)`, `12.34`
is `lit 1234 (-2)`): the compiler rounds the exact value. -/
def Float64.lit (n : Nat) (k : Int) : Float64 :=
  Float64.round false (n * 10 ^ k.toNat) (10 ^ (-k).toNat)

/-- The product `x * y` of two `float64`. -/
def Float64.mul : Float64 → Float64 → Float64
  | .nan, _ => .nan
  | _, .nan => .nan
  | .inf s, .inf t => .inf (s != t)
  | .inf s, .finite t m _ => if m = 0 then .nan else .inf (s != t)
  | .finite s m _, .inf t => if m = 0 then .nan else .inf (s != t)
  | .finite s m e, .finite t k f =>
    Float64.round (s != t) (m * k * 2 ^ (e + f).toNat) (2 ^ (-(e + f)).toNat)

/-- The quotient `x / y` of two `float64`. -/
def Float64.div : Float64 → Float64 → Float64
  | .nan, _ => .nan
  | _, .nan => .nan
  | .inf _, .inf _ => .nan
  | .inf s, .finite t _ _ => .inf (s != t)
  | .finite s _ _, .inf t => .finite (s != t) 0 (-1074)
  | .finite s m e, .finite t k f =>
    if k = 0 then (if m = 0 then .nan else .inf (s != t))
    else Float64.round (s != t) (m * 2 ^ (e - f).toNat) (k * 2 ^ (f - e).toNat)

/-- The bits of a `float64`, as `math.Float64bits` returns them: the sign, 11
bits of exponent and 52 bits of mantissa; `none` for NaN, whose bits the
embedding does not tell. -/
def Float64.bits : Float64 → Option Nat
  | .finite s m e =>
    some ((if s then 2 ^ 63 else 0) +
      (if m < 2 ^ 52 then m else (e + 1075).toNat * 2 ^ 52 + (m - 2 ^ 52)))
  | .inf s => some ((if s then 2 ^ 63 else 0) + 2047 * 2 ^ 52)
  | .nan => none

/-- The number a finite `float64` stands for; `none` for an infinity and for
NaN. -/
def Float64.toRat : Float64 → Option ℚ
  | .finite s m e => some ((if s then -1 else 1) * (m : ℚ) * (2 : ℚ) ^ e)
  | _ => none

/-- The table `pow10tab` of package `math`: `1e00`, ..., `1e31`. -/
def math.pow10tab (i : Nat) : Float64 := Float64.lit 1 i

/-- The table `pow10postab32` of package `math`: `1e00`, `1e32`, ..., `1e288`. -/
def math.pow10postab32 (i : Nat) : Float64 := Float64.lit 1 (32 * i : Nat)

/-- The table `pow10negtab32` of package `math`: `1e-00`, `1e-32`, ...,
`1e-320`. -/
def math.pow10negtab32 (i : Nat) : Float64 := Float64.lit 1 (-(32 * i : Nat))

/-- The function `math.Pow10(n)` of the standard library:
`pow10postab32[n/32] * pow10tab[n%32]` for `0 <= n <= 308`,
`pow10negtab32[-n/32] / pow10tab[-n%32]` for `-323 <= n <= 0`, `+Inf` above
and 0 below. -/
def math.Pow10 (n : Int) : Float64 :=
  if 0 ≤ n ∧ n ≤ 308 then
    (math.pow10postab32 (n.toNat / 32)).mul (math.pow10tab (n.toNat % 32))
  else if -323 ≤ n ∧ n ≤ 0 then
    (math.pow10negtab32 ((-n).toNat / 32)).div (math.pow10tab ((-n).toNat % 32))
  else if 0 < n then .inf false
  else .finite false 0 (-1074)

/-- How a call of `Value()` ends: as the call of `Factor()` in it does, with
the `float64` it returns. -/
inductive ValueOut where
  | running
  | returned (v : Float64) (f : ScaleF)
  | panic
deriving DecidableEq, Repr

/-- `t.Value()` of a scalable point of the model `root`:
`float64(t.Get()) * math.Pow10(int(t.Factor()))`. -/
def TPoint.Value (root : TGroup) (fuel : Nat) (p : TPoint) : ValueOut :=
  match p.Factor root fuel with
  | .running => .running
  | .panic => .panic
  | .returned k f => .returned ((Float64.ofInt p.int).mul (math.Pow10 k)) f

/-! ## modules/modbus: exceptions.go, error.go

A value of the type `byte` or `uint16` is a natural number; a `[]byte` is a
list of bytes.  An `Exception` is its code, a byte. -/

/-- The exception `IllegalFunction`. -/
def modbus.IllegalFunction : Nat := 0x01

/-- The exception `IllegalDataAddress`. -/
def modbus.IllegalDataAddress : Nat := 0x02

/-- The exception `IllegalDataValue`. -/
def modbus.IllegalDataValue : Nat := 0x03

/-- The exception `SlaveDeviceFailure`. -/
def modbus.SlaveDeviceFailure : Nat := 0x04

/-- The errors the package returns: an `Exception` as an error, the error
values of error.go, the error `modbus: invalid request` of `decode`,
`context.Canceled`, and an error of the connection. -/
inductive modbus.Error where
  | exception (code : Nat)
  | ErrMissmatchedTransactionId
  | ErrMissmatchedProtocolId
  | ErrMissmatchedUnitId
  | ErrDataSizeExceeded
  | invalidRequest
  | canceled
  | connection (e : Nat)
deriving DecidableEq, Repr

/-! ## modules/modbus: helper.go -/

/-- `boundCheck(address, quantity, limit)`; the sum `address+quantity-1` is
`uint16` arithmetic. -/
def boundCheck (address quantity limit : Nat) : Nat :=
  if quantity < 1 ∨ quantity > limit then modbus.IllegalDataValue
  else if address > sub16 ((address + quantity) % u16) 1 then modbus.IllegalDataAddress
  else 0

/-- `byteCount(bitCount)`: `int((bitCount + 7) / 8)` in `uint16` arithmetic. -/
def byteCount (bitCount : Nat) : Nat := ((bitCount + 7) % u16) / 8

/-- The loop `for j := 0; j < 8; j++` of `bytesToBools` for the byte `x` of
index `i`, `n` iterations from `j` on: the buffer, and whether the function
returned (`len(buf) == k`).  The shift `x<<uint(j)` is a shift of bytes. -/
def bytesToBoolsBits (x i : Nat) : Nat → Nat → List Bool → List Bool × Bool
  | 0, _, buf => (buf, false)
  | n + 1, j, buf =>
    if buf.length = 8 * i + j then (buf, true)
    else
      bytesToBoolsBits x i n (j + 1)
        (buf.set (8 * i + j) (decide (((x <<< j) % 256) &&& 0x80 = 0x80)))

/-- The loop `for i, x := range bytes` of `bytesToBools`. -/
def bytesToBoolsLoop : List Nat → Nat → List Bool → List Bool
  | [], _, buf => buf
  | x :: xs, i, buf =>
    match bytesToBoolsBits x i 8 0 buf with
    | (b, true) => b
    | (b, false) => bytesToBoolsLoop xs (i + 1) b

/-- `bytesToBools(quantity, bytes)`. -/
def bytesToBools (quantity : Nat) (bytes : List Nat) : List Bool :=
  bytesToBoolsLoop bytes 0 (List.replicate quantity false)

/-- An argument of `put`, by the cases of its type switch (an argument of
another type is skipped and not embedded). -/
inductive modbus.Arg where
  | bool (v : Bool)
  | boolS (v : List Bool)
  | byte (v : Nat)
  | byteS (v : List Nat)
  | uint16 (v : Nat)
  | uint16S (v : List Nat)
deriving DecidableEq, Repr

/-- `putUint16(buf, arg)`: the two bytes written and the rest `buf[2:]` of the
buffer; `none` is the panic on a buffer of less than two bytes. -/
def putUint16 (buf : List Nat) (arg : Nat) : Option (List Nat × List Nat) :=
  match putUint 2 buf arg with
  | none => none
  | some b => some (b.take 2, b.drop 2)

/-- `putBool(buf, arg)`. -/
def putBool (buf : List Nat) (arg : Bool) : Option (List Nat × List Nat) :=
  if arg then putUint16 buf 0xFF00 else putUint16 buf 0x0000

/-- The loop `for c, x = range args` of `putBoolS`, from the index `c` on:
the buffer after the loop, `none` for an index out of range. -/
def putBoolSLoop : List Bool → Nat → List Nat → Option (List Nat)
  | [], _, buf => some buf
  | x :: xs, c, buf =>
    if x then
      match buf[c / 8]? with
      | none => none
      | some b => putBoolSLoop xs (c + 1) (buf.set (c / 8) (b ||| (0x80 >>> (c % 8))))
    else putBoolSLoop xs (c + 1) buf

/-- `putBoolS(buf, args)`: the bytes before `buf[c/8+1:]` and that rest, where
`c` is the last index of `args` (0 when `args` is empty). -/
def putBoolS (buf : List Nat) (args : List Bool) : Option (List Nat × List Nat) :=
  match putBoolSLoop args 0 buf with
  | none => none
  | some b =>
    if b.length < (args.length - 1) / 8 + 1 then none
    else some (b.take ((args.length - 1) / 8 + 1), b.drop ((args.length - 1) / 8 + 1))

/-- `putByte(buf, arg)`. -/
def putByte (buf : List Nat) (arg : Nat) : Option (List Nat × List Nat) :=
  match buf with
  | [] => none
  | _ :: rest => some ([arg], rest)

/-- `putByteS(buf, args)`: `buf[copy(buf, args):]`. -/
def putByteS (buf : List Nat) (args : List Nat) : Option (List Nat × List Nat) :=
  some ((copyBytes buf args).take (min buf.length args.length),
    (copyBytes buf args).drop (min buf.length args.length))

/-- `putUint16S(buf, args)`. -/
def putUint16S : List Nat → List Nat → Option (List Nat × List Nat)
  | buf, [] => some ([], buf)
  | buf, arg :: args =>
    match putUint16 buf arg with
    | none => none
    | some (w, rest) =>
      match putUint16S rest args with
      | none => none
      | some (w1, rest1) => some (w ++ w1, rest1)

/-- One step of the type switch of `put`. -/
def modbus.Arg.put (buf : List Nat) : modbus.Arg → Option (List Nat × List Nat)
  | .bool v => putBool buf v
  | .boolS v => putBoolS buf v
  | .byte v => putByte buf v
  | .byteS v => putByteS buf v
  | .uint16 v => putUint16 buf v
  | .uint16S v => putUint16S buf v

/-- The loop `for _, arg := range args` of `put`: `done` is the part of `new`
before `buf`; the result is `new`. -/
def putLoop : List modbus.Arg → List Nat → List Nat → Option (List Nat)
  | [], done, buf => some (done ++ buf)
  | a :: args, done, buf =>
    match a.put buf with
    | none => none
    | some (w, rest) => putLoop args (done ++ w) rest

/-- `put(length, args...)`; `none` for a panic. -/
def put (length : Nat) (args : List modbus.Arg) : Option (List Nat) :=
  putLoop args [] (List.replicate length 0)

/-! ## modules/modbus: framer.go -/

/-- The struct `tcp`: the transaction counter, a `uint32`. -/
structure tcp where
  transid : Nat
deriving DecidableEq, Repr

/-- `s.buffer()`: 260 zero bytes. -/
def tcp.buffer : List Nat := List.replicate 260 0

/-- `binary.BigEndian.PutUint16(b[off:], v)`: the buffer after the call,
`none` for a panic. -/
def putUint16At (b : List Nat) (off v : Nat) : Option (List Nat) :=
  if b.length < off then none
  else
    match putUint 2 (b.drop off) v with
    | none => none
    | some w => some (b.take off ++ w)

/-- `s.encode(code, data)`: the framer after the call and the result.
`atomic.AddUint32` wraps around at `2 ^ 32`, `2+uint16(len(data))` is `uint16`
arithmetic, the buffer has 260 bytes so `adu[7]` is in range. -/
def tcp.encode (s : tcp) (code : Nat) (data : List Nat) :
    tcp × Result modbus.Error (List Nat) :=
  if data.length > 252 then (s, .error .ErrDataSizeExceeded)
  else
    match putUint16At tcp.buffer 0 (((s.transid + 1) % 2 ^ 32) % u16) with
    | none => (⟨(s.transid + 1) % 2 ^ 32⟩, .panic)
    | some adu1 =>
      match putUint16At adu1 4 ((2 + data.length % u16) % u16) with
      | none => (⟨(s.transid + 1) % 2 ^ 32⟩, .panic)
      | some adu2 =>
        (⟨(s.transid + 1) % 2 ^ 32⟩,
          .ok (((adu2.set 7 code).take 8 ++ copyBytes ((adu2.set 7 code).drop 8) data).take
            (8 + min ((adu2.set 7 code).drop 8).length data.length)))

/-- `s.decode(adu)`: the code and the data, an error, or the panic of
`adu[8]` on an ADU of 8 bytes. -/
def tcp.decode (adu : List Nat) : Result modbus.Error (Nat × List Nat) :=
  if adu.length < 8 then .error .invalidRequest
  else
    match adu[7]? with
    | none => .panic
    | some c =>
      if c ≥ 0x80 then
        match adu[8]? with
        | none => .panic
        | some e => .error (.exception e)
      else .ok (c, adu.drop 8)

/-- The comparison `req[i] != res[i]`; `none` for an index out of range. -/
def tcp.differ (req res : List Nat) (i : Nat) : Option Bool :=
  match req[i]?, res[i]? with
  | some a, some b => some (decide (a ≠ b))
  | _, _ => none

/-- The operator `||` on two comparisons: the second one is evaluated only
when the first one is false. -/
def tcp.either (x y : Option Bool) : Option Bool :=
  match x with
  | none => none
  | some true => some true
  | some false => y

/-- `s.verify(req, res)`: `.ok ()` is the result `nil`. -/
def tcp.verify (req res : List Nat) : Result modbus.Error Unit :=
  match tcp.either (tcp.differ req res 0) (tcp.differ req res 1) with
  | none => .panic
  | some true => .error .ErrMissmatchedTransactionId
  | some false =>
    match tcp.either (tcp.differ req res 2) (tcp.differ req res 3) with
    | none => .panic
    | some true => .error .ErrMissmatchedProtocolId
    | some false =>
      match tcp.differ req res 6 with
      | none => .panic
      | some true => .error .ErrMissmatchedUnitId
      | some false => .ok ()

/-- `s.reply(code, data, req)`: `encode`, then the transaction id of the
request is copied into the response. -/
def tcp.reply (s : tcp) (code : Nat) (data req : List Nat) :
    tcp × Result modbus.Error (List Nat) :=
  match s.encode code data with
  | (t, .error e) => (t, .error e)
  | (t, .panic) => (t, .panic)
  | (t, .ok res) =>
    match req[0]?, req[1]? with
    | some a, some b => (t, .ok ((res.set 0 a).set 1 b))
    | _, _ => (t, .panic)

/-! ## modules/modbus: handler.go

A callback of the `Mux` is a function of its arguments (`nil` is `none`); a
handler function returns the pair `(res, ex)`, a `nil` slice being the empty
list, and `none` when it panics. -/

/-- The struct `Mux`. -/
structure modbus.Mux where
  Fallback : Option (Nat → List Nat → List Nat × Nat)
  ReadCoils : Option (Nat → Nat → List Bool × Nat)
  ReadDiscreteInputs : Option (Nat → Nat → List Bool × Nat)
  ReadHoldingRegisters : Option (Nat → Nat → List Nat × Nat)
  ReadInputRegisters : Option (Nat → Nat → List Nat × Nat)
  WriteSingleCoil : Option (Nat → Bool → Nat)
  WriteSingleRegister : Option (Nat → Nat → Nat)
  WriteMultipleCoils : Option (Nat → List Bool → Nat)
  WriteMultipleRegisters : Option (Nat → List Nat → Nat)
  ReadWriteMultipleRegisters : Option (Nat → Nat → Nat → List Nat → List Nat × Nat)

/-- `h.fallback(ctx, code, req)`. -/
def modbus.Mux.fallback (h : modbus.Mux) (code : Nat) (req : List Nat) :
    Option (List Nat × Nat) :=
  match h.Fallback with
  | none => some ([], modbus.IllegalFunction)
  | some f => some (f code req)

/-- The body shared by `h.readCoils` and `h.readDiscreteInputs`, which differ
in the callback `cb` only. -/
def modbus.Mux.readStatus (cb : Option (Nat → Nat → List Bool × Nat)) (req : List Nat) :
    Option (List Nat × Nat) :=
  match cb with
  | none => some ([], modbus.IllegalFunction)
  | some f =>
    if req.length ≠ 4 then some ([], modbus.IllegalDataAddress)
    else
      match getUint 2 req, getUint 2 (req.drop 2) with
      | some address, some quantity =>
        if boundCheck address quantity 2000 ≠ 0 then some ([], boundCheck address quantity 2000)
        else if (f address quantity).2 ≠ 0 then some ([], (f address quantity).2)
        else if (f address quantity).1.length ≠ quantity then
          some ([], modbus.SlaveDeviceFailure)
        else
          match put (1 + byteCount quantity)
              [.byte (byteCount quantity % 256), .boolS (f address quantity).1] with
          | none => none
          | some res => some (res, 0)
      | _, _ => none

/-- `h.readCoils(ctx, req)`. -/
def modbus.Mux.readCoils (h : modbus.Mux) (req : List Nat) : Option (List Nat × Nat) :=
  modbus.Mux.readStatus h.ReadCoils req

/-- `h.readDiscreteInputs(ctx, req)`. -/
def modbus.Mux.readDiscreteInputs (h : modbus.Mux) (req : List Nat) : Option (List Nat × Nat) :=
  modbus.Mux.readStatus h.ReadDiscreteInputs req

/-- The body shared by `h.readHoldingRegisters` and `h.readInputRegisters`;
`byte(quantity*2)` is a `uint16` product cut to a byte. -/
def modbus.Mux.readRegisters (cb : Option (Nat → Nat → List Nat × Nat)) (req : List Nat) :
    Option (List Nat × Nat) :=
  match cb with
  | none => some ([], modbus.IllegalFunction)
  | some f =>
    if req.length ≠ 4 then some ([], modbus.IllegalDataAddress)
    else
      match getUint 2 req, getUint 2 (req.drop 2) with
      | some address, some quantity =>
        if boundCheck address quantity 125 ≠ 0 then some ([], boundCheck address quantity 125)
        else if (f address quantity).2 ≠ 0 then some ([], (f address quantity).2)
        else if (f address quantity).1.length ≠ 2 * quantity then
          some ([], modbus.SlaveDeviceFailure)
        else
          match put (1 + quantity * 2)
              [.byte ((quantity * 2) % u16 % 256), .byteS (f address quantity).1] with
          | none => none
          | some res => some (res, 0)
      | _, _ => none

/-- `h.readHoldingRegisters(ctx, req)`. -/
def modbus.Mux.readHoldingRegisters (h : modbus.Mux) (req : List Nat) :
    Option (List Nat × Nat) :=
  modbus.Mux.readRegisters h.ReadHoldingRegisters req

/-- `h.readInputRegisters(ctx, req)`. -/
def modbus.Mux.readInputRegisters (h : modbus.Mux) (req : List Nat) : Option (List Nat × Nat) :=
  modbus.Mux.readRegisters h.ReadInputRegisters req

/-- `h.writeSingleCoil(ctx, req)`. -/
def modbus.Mux.writeSingleCoil (h : modbus.Mux) (req : List Nat) : Option (List Nat × Nat) :=
  match h.WriteSingleCoil with
  | none => some ([], modbus.IllegalFunction)
  | some f =>
    if req.length ≠ 4 then some ([], modbus.IllegalDataAddress)
    else
      match getUint 2 req, getUint 2 (req.drop 2) with
      | some address, some v =>
        if v = 0x0000 then
          if f address false ≠ 0 then some ([], f address false) else some (req, 0)
        else if v = 0xFF00 then
          if f address true ≠ 0 then some ([], f address true) else some (req, 0)
        else some ([], modbus.IllegalDataValue)
      | _, _ => none

/-- `h.writeSingleRegister(ctx, req)`. -/
def modbus.Mux.writeSingleRegister (h : modbus.Mux) (req : List Nat) :
    Option (List Nat × Nat) :=
  match h.WriteSingleRegister with
  | none => some ([], modbus.IllegalFunction)
  | some f =>
    if req.length ≠ 4 then some ([], modbus.IllegalDataAddress)
    else
      match getUint 2 req, getUint 2 (req.drop 2) with
      | some address, some value =>
        if f address value ≠ 0 then some ([], f address value) else some (req, 0)
      | _, _ => none

/-- `h.writeMultipleCoils(ctx, req)`. -/
def modbus.Mux.writeMultipleCoils (h : modbus.Mux) (req : List Nat) :
    Option (List Nat × Nat) :=
  match h.WriteMultipleCoils with
  | none => some ([], modbus.IllegalFunction)
  | some f =>
    if req.length < 6 then some ([], modbus.IllegalDataAddress)
    else
      match getUint 2 req, getUint 2 (req.drop 2), req[4]? with
      | some address, some quantity, some n =>
        if (req.drop 5).length ≠ n then some ([], modbus.IllegalDataValue)
        else if boundCheck address quantity 1968 ≠ 0 then
          some ([], boundCheck address quantity 1968)
        else if f address (bytesToBools quantity (req.drop 5)) ≠ 0 then
          some ([], f address (bytesToBools quantity (req.drop 5)))
        else some (req.take 4, 0)
      | _, _, _ => none

/-- `h.writeMultipleRegisters(ctx, req)`; `2*quantity` is a `uint16` product. -/
def modbus.Mux.writeMultipleRegisters (h : modbus.Mux) (req : List Nat) :
    Option (List Nat × Nat) :=
  match h.WriteMultipleRegisters with
  | none => some ([], modbus.IllegalFunction)
  | some f =>
    if req.length < 6 then some ([], modbus.IllegalDataAddress)
    else
      match getUint 2 req, getUint 2 (req.drop 2), req[4]? with
      | some address, some quantity, some n =>
        if (2 * quantity) % u16 ≠ n ∨ n ≠ (req.drop 5).length then
          some ([], modbus.IllegalDataValue)
        else if boundCheck address quantity 123 ≠ 0 then
          some ([], boundCheck address quantity 123)
        else if f address (req.drop 5) ≠ 0 then some ([], f address (req.drop 5))
        else some (req.take 4, 0)
      | _, _, _ => none

/-- `h.readWriteMultipleRegisters(ctx, req)`; `rQuantity*2` is a `uint16`
product, `int(rQuantity)*2` is not. -/
def modbus.Mux.readWriteMultipleRegisters (h : modbus.Mux) (req : List Nat) :
    Option (List Nat × Nat) :=
  match h.ReadWriteMultipleRegisters with
  | none => some ([], modbus.IllegalFunction)
  | some f =>
    if req.length < 11 then some ([], modbus.IllegalDataAddress)
    else
      match getUint 2 req, getUint 2 (req.drop 2), getUint 2 (req.drop 4),
          getUint 2 (req.drop 6), req[8]? with
      | some rAddress, some rQuantity, some wAddress, some wQuantity, some n =>
        if (rQuantity * 2) % u16 ≠ n ∨ n ≠ (req.drop 9).length then
          some ([], modbus.IllegalDataValue)
        else if boundCheck rAddress rQuantity 125 ≠ 0 then
          some ([], boundCheck rAddress rQuantity 125)
        else if boundCheck wAddress wQuantity 121 ≠ 0 then
          some ([], boundCheck wAddress wQuantity 121)
        else if (f rAddress rQuantity wAddress (req.drop 9)).2 ≠ 0 then
          some ([], (f rAddress rQuantity wAddress (req.drop 9)).2)
        else if (f rAddress rQuantity wAddress (req.drop 9)).1.length ≠ rQuantity * 2 then
          some ([], modbus.SlaveDeviceFailure)
        else
          match put (1 + (f rAddress rQuantity wAddress (req.drop 9)).1.length)
              [.byte ((f rAddress rQuantity wAddress (req.drop 9)).1.length % 256),
                .byteS (f rAddress rQuantity wAddress (req.drop 9)).1] with
          | none => none
          | some res => some (res, 0)
      | _, _, _, _, _ => none

/-- `h.Handle(ctx, code, req)`. -/
def modbus.Mux.Handle (h : modbus.Mux) (code : Nat) (req : List Nat) :
    Option (List Nat × Nat) :=
  if code = 0x01 then h.readCoils req
  else if code = 0x02 then h.readDiscreteInputs req
  else if code = 0x03 then h.readHoldingRegisters req
  else if code = 0x04 then h.readInputRegisters req
  else if code = 0x05 then h.writeSingleCoil req
  else if code = 0x06 then h.writeSingleRegister req
  else if code = 0x0F then h.writeMultipleCoils req
  else if code = 0x10 then h.writeMultipleRegisters req
  else if code = 0x17 then h.readWriteMultipleRegisters req
  else h.fallback code req

/-! ## modules/modbus: server.go -/

/-- The goroutine `Server.handle` starts for one ADU it hears: the framer of
the server after it and the ADU written to the connection; `.error ()` when
it returns without writing, `.panic` when it panics.  `h` is `h.Handle`.  The
error of `s.reply` is dropped, the `nil` response is then written. -/
def modbus.Server.answer (s : tcp) (h : Nat → List Nat → Option (List Nat × Nat))
    (adu : List Nat) : tcp × Result Unit (List Nat) :=
  match tcp.decode ((copyBytes tcp.buffer adu).take (min tcp.buffer.length adu.length)) with
  | .panic => (s, .panic)
  | .error _ => (s, .error ())
  | .ok (code, req) =>
    match (if code < 0x80 then h code req else some ([], modbus.IllegalFunction)) with
    | none => (s, .panic)
    | some (res, ex) =>
      match s.reply (if ex ≠ 0 ∨ res.length > 252 then code ||| 0x80 else code)
          (if ex ≠ 0 then [ex]
            else if res.length > 252 then [modbus.SlaveDeviceFailure] else res)
          ((copyBytes tcp.buffer adu).take (min tcp.buffer.length adu.length)) with
      | (t, .ok out) => (t, .ok out)
      | (t, .error _) => (t, .ok [])
      | (t, .panic) => (t, .panic)

/-! ## modules/modbus: client.go -/

/-- What the connection does with the ADU of one request: the error `c.write`
returns (`none` is `nil`) and what `broadcast` hands to the listener of the
request, in order, up to the cancellation of the context. -/
structure modbus.Exchange where
  werr : Option modbus.Error
  heard : List (List Nat × Option modbus.Error)

/-- The callback `Client.Request` attaches to the connection, for the encoded
request `req` (a slice of a buffer of 260 bytes): `none` when it returns
`quit = false`, else the `res, err` it has set, or its panic. -/
def modbus.Client.listener (req adu : List Nat) (er : Option modbus.Error) :
    Option (Result modbus.Error (List Nat)) :=
  match er with
  | some e => some (.error e)
  | none =>
    match tcp.verify req adu with
    | .panic => some .panic
    | .error .ErrMissmatchedTransactionId => none
    | .error e => some (.error e)
    | .ok _ =>
      match tcp.decode ((copyBytes (req ++ List.replicate (260 - req.length) 0) adu).take
          (min (req ++ List.replicate (260 - req.length) 0).length adu.length)) with
      | .panic => some .panic
      | .error e => some (.error e)
      | .ok (_, res) => some (.ok res)

/-- The wait `<-wait` of `Client.Request` and the final `select`: the
listener is called on what the connection broadcasts until it quits; when the
context is cancelled first the result is `context.Canceled`. -/
def modbus.Client.wait (req : List Nat) :
    List (List Nat × Option modbus.Error) → Result modbus.Error (List Nat)
  | [] => .error .canceled
  | (adu, er) :: rest =>
    match modbus.Client.listener req adu er with
    | none => modbus.Client.wait req rest
    | some r => r

/-- `c.Request(ctx, code, req)` on the framer `s` and the connection `conn`:
the framer after the call and the result. -/
def modbus.Client.Request (s : tcp) (conn : List Nat → modbus.Exchange) (code : Nat)
    (req : List Nat) : tcp × Result modbus.Error (List Nat) :=
  if code = 0 ∨ code ≥ 0x80 then (s, .error (.exception modbus.IllegalFunction))
  else
    match s.encode code req with
    | (t, .error e) => (t, .error e)
    | (t, .panic) => (t, .panic)
    | (t, .ok adu) =>
      match (conn adu).werr with
      | some e => (t, .error e)
      | none => (t, modbus.Client.wait adu (conn adu).heard)

/-- The body shared by `c.ReadCoils` (`code` 0x01) and `c.ReadDiscreteInputs`
(`code` 0x02); `request` is `c.Request(ctx, ·, ·)`. -/
def modbus.Client.readStatus (code : Nat)
    (request : Nat → List Nat → Result modbus.Error (List Nat)) (address quantity : Nat) :
    Result modbus.Error (List Bool) :=
  if boundCheck address quantity 2000 ≠ 0 then
    .error (.exception (boundCheck address quantity 2000))
  else
    match put 4 [.uint16 address, .uint16 quantity] with
    | none => .panic
    | some req =>
      match request code req with
      | .panic => .panic
      | .error e => .error e
      | .ok res =>
        if res.length ≠ 1 + byteCount quantity then
          .error (.exception modbus.SlaveDeviceFailure)
        else
          match res[0]? with
          | none => .panic
          | some n =>
            if n ≠ res.length - 1 then .error (.exception modbus.SlaveDeviceFailure)
            else .ok (bytesToBools quantity (res.drop 1))

/-- `c.ReadCoils(ctx, address, quantity)`. -/
def modbus.Client.ReadCoils (request : Nat → List Nat → Result modbus.Error (List Nat))
    (address quantity : Nat) : Result modbus.Error (List Bool) :=
  modbus.Client.readStatus 0x01 request address quantity

/-- `c.ReadDiscreteInputs(ctx, address, quantity)`. -/
def modbus.Client.ReadDiscreteInputs (request : Nat → List Nat → Result modbus.Error (List Nat))
    (address quantity : Nat) : Result modbus.Error (List Bool) :=
  modbus.Client.readStatus 0x02 request address quantity

/-- The body shared by `c.ReadHoldingRegisters` (`code` 0x03) and
`c.ReadInputRegisters` (`code` 0x04). -/
def modbus.Client.readRegisters (code : Nat)
    (request : Nat → List Nat → Result modbus.Error (List Nat)) (address quantity : Nat) :
    Result modbus.Error (List Nat) :=
  if boundCheck address quantity 125 ≠ 0 then
    .error (.exception (boundCheck address quantity 125))
  else
    match put 4 [.uint16 address, .uint16 quantity] with
    | none => .panic
    | some req =>
      match request code req with
      | .panic => .panic
      | .error e => .error e
      | .ok res =>
        if res.length ≠ 1 + quantity * 2 then .error (.exception modbus.SlaveDeviceFailure)
        else
          match res[0]? with
          | none => .panic
          | some n =>
            if n ≠ res.length - 1 then .error (.exception modbus.SlaveDeviceFailure)
            else .ok (res.drop 1)

/-- `c.ReadHoldingRegisters(ctx, address, quantity)`. -/
def modbus.Client.ReadHoldingRegisters
    (request : Nat → List Nat → Result modbus.Error (List Nat)) (address quantity : Nat) :
    Result modbus.Error (List Nat) :=
  modbus.Client.readRegisters 0x03 request address quantity

/-- `c.ReadInputRegisters(ctx, address, quantity)`. -/
def modbus.Client.ReadInputRegisters
    (request : Nat → List Nat → Result modbus.Error (List Nat)) (address quantity : Nat) :
    Result modbus.Error (List Nat) :=
  modbus.Client.readRegisters 0x04 request address quantity

/-- The response check shared by `c.WriteMultipleCoils` and
`c.WriteMultipleRegisters`:
`binary.BigEndian.Uint16(res) != address || binary.BigEndian.Uint16(res[2:]) != quantity`. -/
def modbus.Client.echoed (res : List Nat) (address quantity : Nat) : Result modbus.Error Unit :=
  match getUint 2 res with
  | none => .panic
  | some a =>
    if a ≠ address then .error (.exception modbus.SlaveDeviceFailure)
    else
      match getUint 2 (res.drop 2) with
      | none => .panic
      | some q =>
        if q ≠ quantity then .error (.exception modbus.SlaveDeviceFailure) else .ok ()

/-- `c.WriteMultipleCoils(ctx, address, status...)`; `quantity` is
`uint16(len(status))`. -/
def modbus.Client.WriteMultipleCoils
    (request : Nat → List Nat → Result modbus.Error (List Nat)) (address : Nat)
    (status : List Bool) : Result modbus.Error Unit :=
  if boundCheck address (status.length % u16) 1968 ≠ 0 then
    .error (.exception (boundCheck address (status.length % u16) 1968))
  else
    match put (5 + byteCount (status.length % u16))
        [.uint16 address, .uint16 (status.length % u16),
          .byte (byteCount (status.length % u16) % 256), .boolS status] with
    | none => .panic
    | some req =>
      match request 0x0F req with
      | .panic => .panic
      | .error e => .error e
      | .ok res => modbus.Client.echoed res address (status.length % u16)

/-- `c.WriteMultipleRegisters(ctx, address, values)`; `quantity` is
`uint16(l) / 2`. -/
def modbus.Client.WriteMultipleRegisters
    (request : Nat → List Nat → Result modbus.Error (List Nat)) (address : Nat)
    (values : List Nat) : Result modbus.Error Unit :=
  if values.length % 2 ≠ 0 then .error (.exception modbus.IllegalDataValue)
  else if boundCheck address (values.length % u16 / 2) 246 ≠ 0 then
    .error (.exception (boundCheck address (values.length % u16 / 2) 246))
  else
    match put (5 + values.length)
        [.uint16 address, .uint16 (values.length % u16 / 2), .byte (values.length % 256),
          .byteS values] with
    | none => .panic
    | some req =>
      match request 0x10 req with
      | .panic => .panic
      | .error e => .error e
      | .ok res => modbus.Client.echoed res address (values.length % u16 / 2)

/-- `c.ReadWriteMultipleRegisters(ctx, rAddress, rQuantity, wAddress, values)`;
`2*rQuantity` is a `uint16` product. -/
def modbus.Client.ReadWriteMultipleRegisters
    (request : Nat → List Nat → Result modbus.Error (List Nat))
    (rAddress rQuantity wAddress : Nat) (values : List Nat) :
    Result modbus.Error (List Nat) :=
  if values.length % 2 ≠ 0 then .error (.exception modbus.IllegalDataValue)
  else if boundCheck rAddress rQuantity 125 ≠ 0 then
    .error (.exception (boundCheck rAddress rQuantity 125))
  else if boundCheck wAddress (values.length % u16 / 2) 121 ≠ 0 then
    .error (.exception (boundCheck wAddress (values.length % u16 / 2) 121))
  else
    match put (9 + values.length)
        [.uint16 rAddress, .uint16 rQuantity, .uint16 wAddress,
          .uint16 (values.length % u16 / 2), .byte (values.length % 256), .byteS values] with
    | none => .panic
    | some req =>
      match request 0x17 req with
      | .panic => .panic
      | .error e => .error e
      | .ok res =>
        match res[0]? with
        | none => .panic
        | some n =>
          if (2 * rQuantity) % u16 ≠ n then .error (.exception modbus.SlaveDeviceFailure)
          else .ok (res.drop 1)

/-! ## client.go, sunspec.go: the marker -/

/-- `tString.decode(buf)`: `t.Set(string(buf[:2*t.Quantity()]))`, the product
being `uint16` arithmetic; `none` is the panic of the slice expression on a
shorter buffer (the capacity of `buf` is taken to be its length). -/
def TString.decode (t : TString) (buf : List Nat) : Option TString :=
  if buf.length < (2 * t.Quantity) % u16 then none
  else some (t.Set (buf.take ((2 * t.Quantity) % u16)))

/-- The string point of `marker(adr)`: the data `[]byte("SunS")`, a slice of
length and capacity 4, at the address `adr`. -/
def markerPoint (adr : Nat) : TPoint :=
  ⟨"SunS", true, false, adr, none, .string, .str ⟨[0x53, 0x75, 0x6E, 0x53], 4⟩, .dyn .null, []⟩

/-- `marker(adr)`. -/
def marker (adr : Nat) : TGroup := .mk "marker" false none [markerPoint adr] []

/-- The data of a string point. -/
def TPoint.string (p : TPoint) : TString :=
  match p.data with
  | .str t => t
  | _ => ⟨[], 0⟩

/-- How the closure of `mbClient.read` ends when it does not return `nil`:
it returns an error or it panics. -/
inductive Fault where
  | error (e : modbus.Error)
  | panic
deriving DecidableEq, Repr

/-- The closure `cmd` of `mbClient.read` for a run `pts` that is one string
point with the data `t`: `c.mb.ReadHoldingRegisters(ctx, pts.address(),
pts.Quantity())`, then `pts.decode(res)`.  `request` is the method `Request` of
the Modbus client. -/
def mbClient.readString (request : Nat → List Nat → Result modbus.Error (List Nat))
    (t : TString) (pts : List Point) : TString × Option Fault :=
  match Points.address pts with
  | none => (t, some .panic)
  | some a =>
    match modbus.Client.ReadHoldingRegisters request a (Points.quantity pts) with
    | .panic => (t, some .panic)
    | .error e => (t, some (.error e))
    | .ok res =>
      match t.decode res with
      | none => (t, some .panic)
      | some t1 => (t1, none)

/-- The error `sunspec: could not identify the starting marker`. -/
inductive ScanErr where
  | noMarker
deriving DecidableEq, Repr

/-- The loop `for _, adr := range [...]uint16{0, 40000, 50000}` of
`mbClient.marker` over the candidates that are left; `none` when the fuel of
`execute` runs out. -/
def mbClient.markerLoop (fuel : Nat)
    (request : Nat → List Nat → Result modbus.Error (List Nat)) :
    List Nat → Option (Result ScanErr Nat)
  | [] => some (.error .noMarker)
  | adr :: rest =>
    match (mbClient.read fuel ((marker adr).points.map TPoint.toPoint)
        (mbClient.readString request) (markerPoint adr).string).result with
    | .running => none
    | .panic => some .panic
    | .returned _ none => some (.ok adr)
    | .returned _ (some .panic) => some .panic
    | .returned _ (some (.error _)) => mbClient.markerLoop fuel request rest

/-- `c.marker(ctx)`. -/
def mbClient.marker (fuel : Nat) (request : Nat → List Nat → Result modbus.Error (List Nat)) :
    Option (Result ScanErr Nat) :=
  mbClient.markerLoop fuel request [0, 40000, 50000]

/-! ## modules/modbus: connection.go

The list `c.l` of the struct `network` is the list of its receivers, the front
element first.  It is read and changed under the mutex `c.mu` only. -/

/-- The struct `receiver`: the callback; `id` names the receiver in the
statements (in the source the channel `done` tells receivers apart). -/
structure receiver where
  id : Nat
  callback : List Nat → Option modbus.Error → Bool

/-- `c.listen(ctx, callback)` until it returns: `c.l.PushFront(r)`. -/
def network.listen (l : List receiver) (r : receiver) : List receiver := r :: l

/-- `c.broadcast(ctx, adu, err)`: the loop `for e := c.l.Front(); e != nil; e = n`
calls the callback of every element, from the front on, and removes the
element when the callback returns true.  The result is the ids of the
receivers in the order of the calls, and the list after the loop. -/
def network.broadcast (adu : List Nat) (err : Option modbus.Error) :
    List receiver → List Nat × List receiver
  | [] => ([], [])
  | r :: rest =>
    if r.callback adu err then
      (r.id :: (network.broadcast adu err rest).1, (network.broadcast adu err rest).2)
    else (r.id :: (network.broadcast adu err rest).1, r :: (network.broadcast adu err rest).2)

/-! ## types.go: bitfields -/

/-- The number of bits of the data of a bitfield variant. -/
def Variant.bits : Variant → Nat
  | .bitfield16 => 16
  | .bitfield32 => 32
  | .bitfield64 => 64
  | _ => 0

/-- `t.Valid()` of a bitfield point of `bits` bits that holds `v`:
`t.Get() != 0xFFFF` (`0xFFFFFFFF`, `0xFFFFFFFFFFFFFFFF`). -/
def bitfieldValid (bits v : Nat) : Bool := decide (v ≠ 2 ^ bits - 1)

/-- `t.Field()`: `f[b] = v&(1<<b) != 0` for every `b` below the number of bits. -/
def bitfieldField (bits v : Nat) : List Bool :=
  (List.range bits).map fun b => decide (v &&& (1 <<< b) ≠ 0)

/-- The map index `t.symbols[uint32(i)]` followed by `.Name()`: the name of
the symbol of the key `i`; `none` is the panic of `.Name()` on the `nil`
interface the map gives for a key it does not hold. -/
def symbolName (symbols : List (Nat × String)) (i : Nat) : Option String :=
  match symbols.find? fun e => e.1 = i with
  | none => none
  | some e => some e.2

/-- The loop `for i, v := range t.Field()` of `States`, from the index `i`
on; `none` for a panic. -/
def statesLoop (symbols : List (Nat × String)) : Nat → List Bool → List String →
    Option (List String)
  | _, [], s => some s
  | i, v :: rest, s =>
    if v then
      match symbolName symbols i with
      | none => none
      | some name => statesLoop symbols (i + 1) rest (s ++ [name])
    else statesLoop symbols (i + 1) rest s

/-- `t.States()` of a bitfield point (`tBitfield16`, `tBitfield32`,
`tBitfield64` have the same body); `none` for a panic. -/
def TPoint.States (t : TPoint) : Option (List String) :=
  if !bitfieldValid t.variant.bits t.int.toNat then some []
  else statesLoop t.symbols 0 (bitfieldField t.variant.bits t.int.toNat) []

/-! ## server.go -/

/-- The callback `WriteMultipleRegisters` of the `Mux` that `mbServer.serve`
builds, for the device `d`: the exception it returns, `none` for a panic.
`valid` is `p.Valid()`; `handler` tells whether the handler of the server
returns an error for the request with the given points, the flag `writing`
and the buffer.  The quantity `uint16(len(values) * 2)` is as in the source. -/
def mbServer.writeMultipleRegisters (d : List Group) (valid : Point → Bool)
    (handler : List Point → Bool → List Nat → Bool) (address : Nat) (values : List Nat) :
    Option Nat :=
  match collect d [⟨address, (values.length * 2) % u16⟩] with
  | .panic => none
  | .error _ => some modbus.IllegalDataAddress
  | .ok pts =>
    if pts.any fun p => !valid p || !p.writable then some modbus.IllegalDataAddress
    else if handler pts true values then some modbus.SlaveDeviceFailure
    else some 0

/-! ## Predicates used in the statements -/

/-- A range of at least one register whose ceiling does not overflow. -/
def Index.Proper (r : Index) : Prop := 1 ≤ r.quantity ∧ r.address + r.quantity < u16

/-- Each range of the list ends before the later ones start. -/
def Apart (l : List Index) : Prop :=
  l.Pairwise (fun a b => a.address + a.quantity ≤ b.address)

/-- What `merge` promises: it returns a list with non-decreasing addresses no
two of whose elements intersect. -/
def MergeSortedDisjoint (idx : List Index) : Prop :=
  ∃ out, merge idx = some out ∧
    out.Pairwise (fun a b => a.address ≤ b.address) ∧
    out.Pairwise (fun a b => intersect a b = false ∧ intersect b a = false)

/-- The point `p` lies inside the range `r`. -/
def Point.Within (r : Index) (p : Point) : Prop :=
  r.address ≤ p.address ∧ p.address + p.quantity ≤ r.address + r.quantity

/-- Each point of the list starts where the previous one ends. -/
def Points.Contiguous (ps : List Point) : Prop :=
  List.Chain' (fun p q => p.address + p.quantity = q.address) ps

/-- No point of the list has a ceiling that overflows 16 bits. -/
def Points.NoOverflow (ps : List Point) : Prop :=
  ∀ p ∈ ps, p.address + p.quantity < u16

mutual
/-- The group and all its descendants, in pre-order. -/
def Group.subtree : Group → List Group
  | .mk n a ps gs => .mk n a ps gs :: Groups.subtree gs
/-- The groups of the list with all their descendants, in pre-order. -/
def Groups.subtree : List Group → List Group
  | [] => []
  | g :: gs => Group.subtree g ++ Groups.subtree gs
end

mutual
/-- The points of the group and of its descendants, in pre-order. -/
def Group.flat : Group → List Point
  | .mk _ _ ps gs => ps ++ Groups.flat gs
/-- The points of the groups of the list and of their descendants. -/
def Groups.flat : List Group → List Point
  | [] => []
  | g :: gs => Group.flat g ++ Groups.flat gs
end

/-- A property of the state a callback or loop leaves, whether it returned
`nil` or an error; nothing is asked of a panic. -/
def Flow.Holds {σ ε : Type} (Q : σ → Prop) : Flow σ ε → Prop
  | .ok s => Q s
  | .err s _ => Q s
  | .panic => True

/-- A property of the state a loop leaves when it runs to its end; nothing is
asked of an error (the caller drops the state then) or of a panic. -/
def Flow.OkHolds {σ ε : Type} (Q : σ → Prop) : Flow σ ε → Prop
  | .ok s => Q s
  | .err _ _ => True
  | .panic => True

/-- The points `added` to `pts`: a sublist of `src`, all inside the range `r`. -/
def AddedFrom (r : Index) (src pts : List Point) (s : List Point) : Prop :=
  ∃ added, s = pts ++ added ∧ added.Sublist src ∧ ∀ p ∈ added, p.Within r

/-- What the loop over the merged ranges adds: one piece per range, each a
sublist of the points of the device, inside its range. -/
def Pieces (d : List Group) (ranges : List Index) (pts s : List Point) : Prop :=
  ∃ pieces : List (List Point), s = pts ++ pieces.flatten ∧
    List.Forall₂ (fun r piece => piece.Sublist (Groups.flat d) ∧ ∀ p ∈ piece, p.Within r)
      ranges pieces

/-- Decision procedure for `List.Chain`, by recursion on the list. -/
def decideChain {α : Type} (R : α → α → Prop) [DecidableRel R] :
    ∀ (a : α) (l : List α), Decidable (List.Chain R a l)
  | _, [] => isTrue List.Chain.nil
  | a, b :: l =>
    if h1 : R a b then
      match decideChain R b l with
      | isTrue h2 => isTrue (List.Chain.cons h1 h2)
      | isFalse h2 => isFalse (fun hc => h2 (List.chain_cons.1 hc).2)
    else isFalse (fun hc => h1 (List.chain_cons.1 hc).1)

/-- Decision procedure for `List.Chain'`. -/
def decideChain' {α : Type} (R : α → α → Prop) [DecidableRel R] :
    ∀ (l : List α), Decidable (List.Chain' R l)
  | [] => isTrue trivial
  | a :: l => decideChain R a l

instance (ps : List Point) : Decidable (Points.Contiguous ps) :=
  decideChain' _ ps

instance (ps : List Point) : Decidable (Points.NoOverflow ps) := by
  unfold Points.NoOverflow; infer_instance

/-- Each point of the list ends before the next one starts. -/
def Points.Ascending (ps : List Point) : Prop :=
  List.Chain' (fun p q => p.address + p.quantity ≤ q.address) ps

instance (ps : List Point) : Decidable (Points.Ascending ps) :=
  decideChain' _ ps

/-- A model at address 0: the root group holds `ID` and `L`, its atomic
(sync) sub-group holds the writable points `A` and `B`. -/
def sampleModel : Group :=
  .mk "model" false [⟨"ID", 0, 1, false⟩, ⟨"L", 1, 1, false⟩]
    [.mk "sub" true [⟨"A", 2, 1, true⟩, ⟨"B", 3, 1, true⟩] []]

/-- A model at address 0 whose root group holds `ID` and `L` and whose
sub-group holds the single point `X` in the last register, 65535: the ceiling
of the sub-group is `65535 + 1` as `uint16`, that is 0. -/
def wrapModel : Group :=
  .mk "model" false [⟨"ID", 0, 1, false⟩, ⟨"L", 1, 1, false⟩]
    [.mk "sub" false [⟨"X", 65535, 1, false⟩] []]

/-- The number of registers a run of points takes: the sum of the quantities. -/
def span (ps : List Point) : Nat := (ps.map Point.quantity).sum

/-- The run `r` cannot take the first point of the run `next` within the limit. -/
def Maximal (limit : Nat) (r next : List Point) : Prop :=
  ∀ p, next.head? = some p → limit < span (r ++ [p])

/-- A command that never fails and has no state. -/
def okCmd : Unit → List Point → Unit × Option Err := fun s _ => (s, none)

/-- Two single-register points at the addresses 0 and 5: a gap lies between them. -/
def gapPoints : List Point := [⟨"P0", 0, 1, false⟩, ⟨"P5", 5, 1, false⟩]

/-- A single-register point at address 0 followed, contiguously, by a point of
126 registers (a string of size 126). -/
def widePoints : List Point := [⟨"P0", 0, 1, false⟩, ⟨"S", 1, 126, false⟩]

/-- The single-register points at the addresses `0 .. n - 1`. -/
def unitPoints (n : Nat) : List Point :=
  (List.range n).map fun k => ⟨"P", k, 1, false⟩

/-- What `execute` does from the position `j` on, on a contiguous list: the
calls `entries` it makes and the result `res` it returns.  Every run is not
empty, spans at most `limit` registers and is recorded with what `cmd`
returned on it; every run is maximal with respect to the next one; the runs
are consecutive from position `j`.  Either no call failed, the runs make up
the rest of the list and the whole list is returned without error; or the
last call failed, and its error is returned with the points before its run. -/
def ExecSpec {σ ε : Type} (limit : Nat) (pts : List Point)
    (cmd : σ → List Point → σ × Option ε) (j : Nat)
    (entries : List (List Point × Option ε)) (res : ExecResult ε) : Prop :=
  (∀ c ∈ entries, c.1 ≠ [] ∧ span c.1 ≤ limit ∧ ∃ s1, (cmd s1 c.1).2 = c.2) ∧
  List.Chain' (Maximal limit) (entries.map Prod.fst) ∧
  (∃ tail, (entries.map Prod.fst).flatten ++ tail = pts.drop j) ∧
  (((∀ c ∈ entries, c.2 = none) ∧ (entries.map Prod.fst).flatten = pts.drop j ∧
      res = .returned pts none) ∨
    (∃ pre r e, entries = pre ++ [(r, some e)] ∧ (∀ c ∈ pre, c.2 = none) ∧
      res = .returned (pts.take j ++ (pre.map Prod.fst).flatten) (some e)))

/-- A command without state that fails, with the error `command 1`, on the
runs that start at the address `a`, and on no other run. -/
def failAt (a : Nat) : Unit → List Point → Unit × Option Err :=
  fun s r => (s, if r.head?.map Point.address = some a then some (.command 1) else none)

instance : IsTotal Index (fun a b => a.address ≤ b.address) :=
  ⟨fun a b => Nat.le_total a.address b.address⟩

instance : IsTrans Index (fun a b => a.address ≤ b.address) :=
  ⟨fun _ _ _ h1 h2 => Nat.le_trans h1 h2⟩

instance : IsTrans Point (fun p q => p.address + p.quantity ≤ q.address) :=
  ⟨fun a b c h1 h2 => by omega⟩

/-- The points are laid out one after the other from the address `a` on, each
at the ceiling of the previous one (modulo `2 ^ 16`); `b` is the ceiling of
the last one (`a` when there is none). -/
def Laid : Nat → List Point → Nat → Prop
  | a, [], b => a = b
  | a, p :: ps, b => p.address = a ∧ Laid ((a + p.quantity) % u16) ps b

mutual
/-- Every point definition of the group definition and of its descendants has
a type tag that `PointDef.Instance` recognises. -/
def GroupDef.recognised : GroupDef → Bool
  | .mk _ _ _ ps gs =>
    ps.all (fun pd => (Variant.ofTag pd.type).isSome) && GroupDefs.recognised gs
/-- `GroupDef.recognised` for every group definition of the list. -/
def GroupDefs.recognised : List GroupDef → Bool
  | [] => true
  | d :: ds => GroupDef.recognised d && GroupDefs.recognised ds
end

/-- The number of repetitions of a definition whose count is a literal (not
a string): `m.count(c)`, which then does not read the model. -/
def literalCount : Dyn → Option Nat
  | .str _ => none
  | c => some (count [] c)

mutual
/-- Every count of the group definition and of its descendants (of the point
definitions and of the group definitions) is a literal. -/
def GroupDef.literalCounts : GroupDef → Bool
  | .mk _ _ c ps gs =>
    (literalCount c).isSome && ps.all (fun pd => (literalCount pd.count).isSome) &&
      GroupDefs.literalCounts gs
/-- `GroupDef.literalCounts` for every group definition of the list. -/
def GroupDefs.literalCounts : List GroupDef → Bool
  | [] => true
  | d :: ds => GroupDef.literalCounts d && GroupDefs.literalCounts ds
end

/-- The root group definition has a point definition of the name `name` that
is instantiated at least once (its count is a literal other than 0), and all
its point definitions of that name are of the type `uint16`. -/
def HasUint16 (name : String) (g : GroupDef) : Prop :=
  (∃ pd ∈ g.points, pd.name = name ∧ ∃ n, literalCount pd.count = some (n + 1)) ∧
    ∀ pd ∈ g.points, pd.name = name → pd.type = "uint16"

/-- The name consists only of ASCII letters, ASCII digits and underscores (it
may be empty). -/
def nameChars (name : String) : Bool :=
  name.toList.all fun c => c.isAlphanum || c == '_'

/-- The model of a result, the empty group when there is none. -/
def Result.model {ε : Type} : Result ε TGroup → TGroup
  | .ok m => m
  | _ => .mk "" false none [] []

/-- A point definition without count, size and symbols, read-only. -/
def pointDef (name type : String) (value sf : Dyn) : PointDef :=
  ⟨name, type, value, .null, 0, sf, false, false, []⟩

/-- A model definition: the root group holds `ID`, `L`, the scale factor
`A_SF` (value -2), the point `A` (value 1234, scaled by `A_SF`) and the point
`D` (scaled by the literal -2, as JSON decoding delivers it); its sub-group
holds the point `B`, scaled by `A_SF`, and the point `C`, scaled by `X_SF`,
which no group defines. -/
def scaleDef : ModelDef :=
  ⟨7, .mk "model" false .null
    [pointDef "ID" "uint16" .null .null, pointDef "L" "uint16" .null .null,
      pointDef "A_SF" "sunssf" (.float64 (-2)) .null,
      pointDef "A" "int16" (.float64 1234) (.str "A_SF"),
      pointDef "D" "int16" (.float64 5) (.float64 (-2))]
    [.mk "sub" false .null
      [pointDef "B" "int16" (.float64 1234) (.str "A_SF"),
        pointDef "C" "int16" (.float64 1) (.str "X_SF")] []]⟩

/-- The model `scaleDef.Instance(40002, nil)`. -/
def scaleModel : TGroup := (scaleDef.Instance (ε := Unit) id 40002 none).model

/-- A model definition whose root group holds `ID`, `L`, the scale factor
`A_SF` (value -1) and the point `A` (value 3, scaled by `A_SF`). -/
def tenthsDef : ModelDef :=
  ⟨7, .mk "model" false .null
    [pointDef "ID" "uint16" .null .null, pointDef "L" "uint16" .null .null,
      pointDef "A_SF" "sunssf" (.float64 (-1)) .null,
      pointDef "A" "int16" (.float64 3) (.str "A_SF")] []⟩

/-- The model `tenthsDef.Instance(40002, nil)`. -/
def tenthsModel : TGroup := (tenthsDef.Instance (ε := Unit) id 40002 none).model

/-- A model definition whose root group holds `ID`, `L`, the scale factor
`A_SF` (value 2) and the point `A` (value 1234, scaled by `A_SF`). -/
def hundredsDef : ModelDef :=
  ⟨7, .mk "model" false .null
    [pointDef "ID" "uint16" .null .null, pointDef "L" "uint16" .null .null,
      pointDef "A_SF" "sunssf" (.float64 2) .null,
      pointDef "A" "int16" (.float64 1234) (.str "A_SF")] []⟩

/-- The model `hundredsDef.Instance(40002, nil)`. -/
def hundredsModel : TGroup := (hundredsDef.Instance (ε := Unit) id 40002 none).model

/-- A `uint16` point without origin, scale and symbols. -/
def uint16Point (name : String) (adr : Nat) (v : Int) : TPoint :=
  ⟨name, true, false, adr, none, .uint16, .int v, .dyn .null, []⟩

/-- A model whose root group holds `ID` and `L` (value 1, the model has 3
registers); its sub-group has a name with a blank and a point `X` at the
address 7, where the address 2 is expected. -/
def brokenSubgroupModel : TGroup :=
  .mk "model" false none [uint16Point "ID" 0 1, uint16Point "L" 1 1]
    [.mk "bad name" false none [uint16Point "X" 7 0] []]

/-- A model whose root group holds `ID` and `L` (value 0, the model has 2
registers) and whose sub-group has no points. -/
def emptySubgroupModel : TGroup :=
  .mk "model" false none [uint16Point "ID" 0 1, uint16Point "L" 1 0]
    [.mk "sub" false none [] []]

/-- A model whose root group has no points. -/
def emptyRootModel : TGroup := .mk "model" false none [] []

/-- A model definition with recognised types and literal counts whose root
group has no point `ID`. -/
def headlessDef : ModelDef :=
  ⟨7, .mk "model" false .null [pointDef "A" "int16" .null .null] []⟩

/-- A model definition whose root group, with the points `ID` and `L`, has the
empty name. -/
def namelessDef : ModelDef :=
  ⟨7, .mk "" false .null
    [pointDef "ID" "uint16" .null .null, pointDef "L" "uint16" .null .null] []⟩

/-- A model definition whose sub-group `rep` holds the point `N` (value 3)
and the point `V`, repeated by the count `"N"`; the root group holds `ID` and
`L` only. -/
def nestedCountDef : ModelDef :=
  ⟨7, .mk "model" false .null
    [pointDef "ID" "uint16" .null .null, pointDef "L" "uint16" .null .null]
    [.mk "rep" false .null
      [pointDef "N" "uint16" (.float64 3) .null,
        { pointDef "V" "uint16" .null .null with count := .str "N" }] []]⟩

/-- The definition `nestedCountDef` with the points `N` and `V` moved to the
root group. -/
def flatCountDef : ModelDef :=
  ⟨7, .mk "model" false .null
    [pointDef "ID" "uint16" .null .null, pointDef "L" "uint16" .null .null,
      pointDef "N" "uint16" (.float64 3) .null,
      { pointDef "V" "uint16" .null .null with count := .str "N" }] []⟩

/-- The names of the points of a list, in order. -/
def names (pts : List TPoint) : List String := pts.map fun p => p.name

/-- The status of the coil `k` as the code packs it: the bit `7 - k % 8`,
counted from the least significant bit, of the byte `k / 8`. -/
def coilAt (bytes : List Nat) (k : Nat) : Bool := (bytes.getD (k / 8) 0).testBit (7 - k % 8)

/-- The status of the coil `k` as the Modbus application protocol packs it:
the bit `k % 8`, counted from the least significant bit, of the byte `k / 8`. -/
def modbusCoil (bytes : List Nat) (k : Nat) : Bool := (bytes.getD (k / 8) 0).testBit (k % 8)

/-- The connection of a client to a server that runs the handler `h` on the
framer `srv`: the write succeeds and the listener of the request hears the ADU
the server writes for it, if it writes one. -/
def modbus.linked (srv : tcp) (h : Nat → List Nat → Option (List Nat × Nat))
    (adu : List Nat) : modbus.Exchange :=
  match (modbus.Server.answer srv h adu).2 with
  | .ok out => ⟨none, [(out, none)]⟩
  | _ => ⟨none, []⟩

/-- The method `c.Request` of a client with the framer `cl` whose connection
leads to a server with the framer `srv` and the handler `h`. -/
def modbus.served (cl srv : tcp) (h : modbus.Mux) :
    Nat → List Nat → Result modbus.Error (List Nat) :=
  fun code req => (modbus.Client.Request cl (modbus.linked srv h.Handle) code req).2

/-- A `Mux` without callbacks. -/
def modbus.Mux.none : modbus.Mux :=
  ⟨Option.none, Option.none, Option.none, Option.none, Option.none, Option.none, Option.none,
    Option.none, Option.none, Option.none⟩

/-- The first address of the list at which a read of two holding registers
succeeds, whatever the registers hold. -/
def firstReadable (request : Nat → List Nat → Result modbus.Error (List Nat)) :
    List Nat → Result ScanErr Nat
  | [] => .error .noMarker
  | adr :: rest =>
    match modbus.Client.ReadHoldingRegisters request adr 2 with
    | .ok _ => .ok adr
    | .error _ => firstReadable request rest
    | .panic => .panic

/-- A server whose holding registers hold the bytes `A`, `B`, `C`, `D`
everywhere: the response to a request of function 0x03 for two registers. -/
def abcdServer : Nat → List Nat → Result modbus.Error (List Nat) :=
  fun _ _ => .ok [4, 0x41, 0x42, 0x43, 0x44]

/-- Successive calls of `encode` on one framer, for the given function codes
and payloads: the results in order. -/
def tcp.encodeAll (s : tcp) : List (Nat × List Nat) → List (Result modbus.Error (List Nat))
  | [] => []
  | (c, d) :: rest => (s.encode c d).2 :: tcp.encodeAll (s.encode c d).1 rest

/-- The transaction ids (bytes 0-1 in big-endian order) of the ADUs among the
results of calls of `encode`, in order. -/
def transIds : List (Result modbus.Error (List Nat)) → List Nat
  | [] => []
  | .ok adu :: rest => (getUint 2 adu).getD 0 :: transIds rest
  | _ :: rest => transIds rest

/-- A callback for `iterate` that records the name of every group it is
called on and returns what `cb` decides: `none` is `nil`, `some e` an error. -/
def traced {ε : Type} (cb : Group → Option ε) (g : Group) (s : List String) :
    Flow (List String) ε :=
  match cb g with
  | none => .ok (s ++ [g.name])
  | some e => .err (s ++ [g.name]) e

/-- A group `a` with the sub-groups `b` (which has the sub-group `c`) and `d`. -/
def sampleTree : Group :=
  .mk "a" false [] [.mk "b" false [] [.mk "c" false [] []], .mk "d" false [] []]

/-- A model at address 0 whose root group is atomic and holds `ID` and `L`; its
sub-group holds the points `X` and `Y`. -/
def atomicRootModel : Group :=
  .mk "model" true [⟨"ID", 0, 1, false⟩, ⟨"L", 1, 1, false⟩]
    [.mk "sub" false [⟨"X", 2, 1, true⟩, ⟨"Y", 3, 1, true⟩] []]

mutual
/-- The names of the groups `iterate` calls the callback on, in order, when
the callback returns what `cb` decides: the group, and its sub-groups in order
when the callback returned `nil` for it. -/
def Group.reached {ε : Type} (cb : Group → Option ε) : Group → List String
  | .mk n a ps gs =>
    n :: (match cb (.mk n a ps gs) with
      | none => Groups.reached cb gs
      | some _ => [])
/-- The names of the groups reached from the groups of a list. -/
def Groups.reached {ε : Type} (cb : Group → Option ε) : List Group → List String
  | [] => []
  | g :: gs => Group.reached cb g ++ Groups.reached cb gs
end

/-- A callback that returns an error for the group `b` only. -/
def failOnB (g : Group) : Option Unit := if g.name = "b" then some () else none

/-- A model definition whose root group holds `ID`, `L` and a point of the
type `uint8`, which `PointDef.Instance` does not know. -/
def unknownTypeDef : ModelDef :=
  ⟨7, .mk "model" false .null
    [pointDef "ID" "uint16" .null .null, pointDef "L" "uint16" .null .null,
      pointDef "A" "uint8" .null .null] []⟩

/-- The list `c.l` after the receivers of `rs` were attached by `listen`, in
the order of `rs`, to a connection without receivers. -/
def registered (rs : List receiver) : List receiver := rs.foldl network.listen []

/-- The ids of receivers, in order. -/
def ids (rs : List receiver) : List Nat := rs.map fun r => r.id

/-- A receiver whose callback returns `quit`. -/
def constReceiver (id : Nat) (quit : Bool) : receiver := ⟨id, fun _ _ => quit⟩

/-- The models of a server: the marker at 0, a model at 2 with the read-only
points `ID` and `L`, the writable point `W` and the read-only point `R`, and
the end header at 6. -/
def servedDevice : List Group :=
  [.mk "marker" false [⟨"SunS", 0, 2, false⟩] [],
    .mk "model" false
      [⟨"ID", 2, 1, false⟩, ⟨"L", 3, 1, false⟩, ⟨"W", 4, 1, true⟩, ⟨"R", 5, 1, false⟩] [],
    .mk "header" false [⟨"ID", 6, 1, false⟩, ⟨"L", 7, 1, false⟩] []]

/-- A `bitfield16` point definition with the value `v` and the symbols `syms`. -/
def bitfieldDef (v : Int) (syms : List SymbolDef) : PointDef :=
  { pointDef "St" "bitfield16" (.float64 v) .null with symbols := syms }

/-! ## Theorems: merge -/

theorem sub16_of_le {a b : Nat} (h : b ≤ a) (ha : a < u16) : sub16 a b = a - b := by
  unfold sub16 u16 at *
  omega

theorem ceil_of_lt {r : Index} (h : r.address + r.quantity < u16) :
    ceil r = r.address + r.quantity := by
  unfold ceil
  exact Nat.mod_eq_of_lt h

theorem mergeLoop_apart : ∀ (rest merged : List Index) (curr : Index),
    Apart merged → (∀ a ∈ merged, a.address + a.quantity ≤ curr.address) →
    (∀ a ∈ merged, a.Proper) → curr.Proper →
    (∀ r ∈ rest, curr.address ≤ r.address ∧ r.Proper) →
    rest.Pairwise (fun a b => a.address ≤ b.address) →
    Apart (mergeLoop merged curr rest) ∧ ∀ a ∈ mergeLoop merged curr rest, a.Proper := by
  intro rest
  induction rest with
  | nil =>
    intro merged curr hap hle hpm hc _ _
    simp only [mergeLoop]
    refine ⟨?_, ?_⟩
    · unfold Apart at *
      rw [List.pairwise_append]
      refine ⟨hap, List.pairwise_singleton _ _, ?_⟩
      intro a ha b hb
      rw [List.mem_singleton] at hb
      subst hb
      exact hle a ha
    · intro a ha
      rcases List.mem_append.1 ha with h | h
      · exact hpm a h
      · rw [List.mem_singleton] at h
        subst h
        exact hc
  | cons idx rest ih =>
    intro merged curr hap hle hpm hc hrest hsorted
    have hidx := hrest idx (List.mem_cons_self _ _)
    obtain ⟨hci, hiq, hio⟩ := hidx
    obtain ⟨hcq, hco⟩ := hc
    have hs := List.pairwise_cons.1 hsorted
    simp only [mergeLoop]
    by_cases hint : intersect curr idx = true
    · rw [if_pos hint]
      have hlt : curr.address < idx.address + idx.quantity := by
        simp only [intersect, Bool.not_eq_true', Bool.or_eq_false_iff,
          decide_eq_false_iff_not, ceil_of_lt hio, ceil_of_lt hco] at hint
        omega
      have hq : sub16 (ceil idx) curr.address = idx.address + idx.quantity - curr.address := by
        rw [ceil_of_lt hio]
        exact sub16_of_le (Nat.le_of_lt hlt) hio
      apply ih merged ⟨curr.address, sub16 (ceil idx) curr.address⟩ hap hle hpm
      · constructor
        · show 1 ≤ sub16 (ceil idx) curr.address
          rw [hq]; omega
        · show curr.address + sub16 (ceil idx) curr.address < u16
          rw [hq]; omega
      · intro r hr
        exact hrest r (List.mem_cons_of_mem _ hr)
      · exact hs.2
    · rw [if_neg hint]
      have hle2 : curr.address + curr.quantity ≤ idx.address := by
        simp only [intersect, Bool.not_eq_true, Bool.not_eq_false', Bool.or_eq_true,
          decide_eq_true_eq, ceil_of_lt hio, ceil_of_lt hco] at hint
        omega
      apply ih (merged ++ [curr]) ⟨idx.address, idx.quantity⟩
      · unfold Apart at *
        rw [List.pairwise_append]
        refine ⟨hap, List.pairwise_singleton _ _, ?_⟩
        intro a ha b hb
        rw [List.mem_singleton] at hb
        subst hb
        exact hle a ha
      · intro a ha
        rcases List.mem_append.1 ha with h | h
        · have := hle a h
          show a.address + a.quantity ≤ idx.address
          omega
        · rw [List.mem_singleton] at h
          subst h
          exact hle2
      · intro a ha
        rcases List.mem_append.1 ha with h | h
        · exact hpm a h
        · rw [List.mem_singleton] at h
          subst h
          exact ⟨hcq, hco⟩
      · exact ⟨hiq, hio⟩
      · intro r hr
        exact ⟨hs.1 r hr, (hrest r (List.mem_cons_of_mem _ hr)).2⟩
      · exact hs.2

theorem sortByAddress_sorted (idx : List Index) :
    (sortByAddress idx).Pairwise (fun a b => a.address ≤ b.address) :=
  List.sorted_insertionSort (fun a b : Index => a.address ≤ b.address) idx

theorem sortByAddress_perm (idx : List Index) : (sortByAddress idx).Perm idx :=
  List.perm_insertionSort (fun a b : Index => a.address ≤ b.address) idx

/-- On ranges of at least one register without overflow `merge` returns
ranges that are apart, each of at least one register without overflow. -/
theorem merge_apart (idx : List Index) (hne : idx ≠ [])
    (hp : ∀ r ∈ idx, r.Proper) :
    ∃ out, merge idx = some out ∧ Apart out ∧ ∀ a ∈ out, a.Proper := by
  have hperm := sortByAddress_perm idx
  have hsorted := sortByAddress_sorted idx
  unfold merge
  cases hs : sortByAddress idx with
  | nil =>
    rw [hs] at hperm
    exact absurd (List.Perm.nil_eq hperm).symm hne
  | cons first rest =>
    rw [hs] at hperm hsorted
    have hs2 := List.pairwise_cons.1 hsorted
    have hmem : ∀ r ∈ first :: rest, r.Proper := fun r hr => hp r (hperm.subset hr)
    refine ⟨_, rfl, ?_⟩
    apply mergeLoop_apart rest [] ⟨first.address, first.quantity⟩
    · exact List.Pairwise.nil
    · intro a ha; cases ha
    · intro a ha; cases ha
    · exact hmem first (List.mem_cons_self _ _)
    · intro r hr
      exact ⟨hs2.1 r hr, hmem r (List.mem_cons_of_mem _ hr)⟩
    · exact hs2.2

/-- C1 (evaluation at the failing input): on the ranges `(0, 10)` and `(2, 3)`,
the second lying inside the first, `merge` returns the single range `(0, 5)`:
register 7 is covered by the input and not by the output. -/
theorem merge_drops_registers :
    merge [⟨0, 10⟩, ⟨2, 3⟩] = some [⟨0, 5⟩] ∧
      (∀ r ∈ [(⟨0, 10⟩ : Index), ⟨2, 3⟩], r.address + r.quantity < u16) ∧
      coveredBy [⟨0, 10⟩, ⟨2, 3⟩] 7 ∧ ¬ coveredBy [⟨0, 5⟩] 7 := by
  decide

/-- C2 (evaluation at the failing input): the ranges `(5, 10)`, `(5, 0)`,
`(6, 3)` form a non-empty list without overflow, and `merge` returns them
unchanged, although `(5, 10)` and `(6, 3)` intersect: the overlapping ranges
are not combined. -/
theorem merge_zero_quantity_not_disjoint :
    ([(⟨5, 10⟩ : Index), ⟨5, 0⟩, ⟨6, 3⟩] ≠ [] ∧
      ∀ r ∈ [(⟨5, 10⟩ : Index), ⟨5, 0⟩, ⟨6, 3⟩], r.address + r.quantity < u16) ∧
      ¬ MergeSortedDisjoint [⟨5, 10⟩, ⟨5, 0⟩, ⟨6, 3⟩] := by
  refine ⟨by decide, ?_⟩
  rintro ⟨out, hout, -, hdis⟩
  have hm : merge [⟨5, 10⟩, ⟨5, 0⟩, ⟨6, 3⟩] = some [⟨5, 10⟩, ⟨5, 0⟩, ⟨6, 3⟩] := by decide
  rw [hm] at hout
  cases hout
  have h := (List.pairwise_cons.1 hdis).1 ⟨6, 3⟩ (by simp)
  exact absurd h.1 (by decide)

/-- Where `merge` does keep its ranges apart: for every non-empty list of index
ranges of at least one register each, whose ceilings do not overflow 16 bits,
`merge` returns a list with non-decreasing addresses no two of whose elements
intersect. -/
theorem merge_sorted_disjoint (idx : List Index) (hne : idx ≠ [])
    (hp : ∀ r ∈ idx, 1 ≤ r.quantity ∧ r.address + r.quantity < u16) :
    MergeSortedDisjoint idx := by
  obtain ⟨out, hout, hap, hprop⟩ := merge_apart idx hne hp
  refine ⟨out, hout, ?_, ?_⟩
  · refine List.Pairwise.imp ?_ hap
    intro a b hab
    omega
  · refine List.Pairwise.imp_of_mem ?_ hap
    intro a b ha hb hab
    have h1 := ceil_of_lt (hprop a ha).2
    have h2 := ceil_of_lt (hprop b hb).2
    have h3 := (hprop b hb).1
    simp only [intersect, h1, h2, Bool.not_eq_false', Bool.or_eq_true, decide_eq_true_eq]
    omega

/-- The ranges of the example in the doc comment of `merge` come out sorted
and apart. -/
theorem merge_sorted_disjoint_witness :
    ([(⟨0, 4⟩ : Index), ⟨3, 3⟩, ⟨8, 2⟩] ≠ [] ∧
      ∀ r ∈ [(⟨0, 4⟩ : Index), ⟨3, 3⟩, ⟨8, 2⟩], 1 ≤ r.quantity ∧ r.address + r.quantity < u16) ∧
      MergeSortedDisjoint [⟨0, 4⟩, ⟨3, 3⟩, ⟨8, 2⟩] :=
  ⟨by decide, merge_sorted_disjoint _ (by decide) (by decide)⟩

/-! ## Theorems: collect -/

theorem Flow.holds_imp {σ ε : Type} {Q R : σ → Prop} (h : ∀ s, Q s → R s) :
    ∀ {f : Flow σ ε}, f.Holds Q → f.Holds R
  | .ok s, hf => h s hf
  | .err s _, hf => h s hf
  | .panic, _ => trivial

theorem Flow.okHolds_imp {σ ε : Type} {Q R : σ → Prop} (h : ∀ s, Q s → R s) :
    ∀ {f : Flow σ ε}, f.OkHolds Q → f.OkHolds R
  | .ok s, hf => h s hf
  | .err _ _, _ => trivial
  | .panic, _ => trivial

theorem addedFrom_refl (r : Index) (src pts : List Point) : AddedFrom r src pts pts :=
  ⟨[], by simp, List.nil_sublist _, by simp⟩

/-- A contiguous list of points without overflow spans exactly the sum of its
quantities: `Points.index` covers each of its points. -/
theorem contiguous_span : ∀ (ps : List Point) (p0 : Point),
    List.Chain (fun p q => p.address + p.quantity = q.address) p0 ps →
    (∀ p ∈ p0 :: ps, p.address + p.quantity < u16) →
    p0.address + Points.quantity (p0 :: ps) < u16 ∧
      ∀ p ∈ p0 :: ps, p0.address ≤ p.address ∧
        p.address + p.quantity ≤ p0.address + Points.quantity (p0 :: ps) := by
  intro ps
  induction ps with
  | nil =>
    intro p0 _ hno
    have h0 := hno p0 (List.mem_cons_self _ _)
    have hq : Points.quantity [p0] = p0.quantity := by
      simp only [Points.quantity, Nat.add_zero]
      apply Nat.mod_eq_of_lt
      omega
    rw [hq]
    refine ⟨h0, ?_⟩
    intro p hp
    rw [List.mem_singleton] at hp
    subst hp
    omega
  | cons p1 rest ih =>
    intro p0 hch hno
    rw [List.chain_cons] at hch
    obtain ⟨h01, hch1⟩ := hch
    obtain ⟨hlt, hb⟩ := ih p1 hch1 (fun p hp => hno p (List.mem_cons_of_mem _ hp))
    have hq : Points.quantity (p0 :: p1 :: rest) =
        p0.quantity + Points.quantity (p1 :: rest) := by
      show (p0.quantity + Points.quantity (p1 :: rest)) % u16 = _
      apply Nat.mod_eq_of_lt
      omega
    rw [hq]
    refine ⟨by omega, ?_⟩
    intro p hp
    rcases List.mem_cons.1 hp with h | h
    · subst h
      omega
    · have := hb p h
      omega

theorem collectPoints_added (idx : Index) (hidx : idx.address + idx.quantity < u16) :
    ∀ (ps pts : List Point), Points.NoOverflow ps →
      (collectPoints idx ps pts).Holds (AddedFrom idx ps pts) := by
  intro ps
  induction ps with
  | nil =>
    intro pts _
    exact addedFrom_refl _ _ _
  | cons p ps ih =>
    intro pts hno
    have hps : Points.NoOverflow ps := fun q hq => hno q (List.mem_cons_of_mem _ hq)
    have hp := hno p (List.mem_cons_self _ _)
    simp only [collectPoints]
    split
    · split
      · exact addedFrom_refl _ _ _
      · rename_i hc
        have hin : p.Within idx := by
          have hcp : ceil p.index = p.address + p.quantity := ceil_of_lt hp
          simp only [Bool.or_eq_true, decide_eq_true_eq, not_or, ceil_of_lt hidx, hcp] at hc
          unfold Point.Within
          omega
        refine Flow.holds_imp ?_ (ih (pts ++ [p]) hps)
        rintro s ⟨added, hs, hsub, hw⟩
        refine ⟨p :: added, by simp [hs], hsub.cons₂ p, ?_⟩
        intro q hq
        rcases List.mem_cons.1 hq with h | h
        · subst h; exact hin
        · exact hw q h
    · refine Flow.holds_imp ?_ (ih pts hps)
      rintro s ⟨added, hs, hsub, hw⟩
      exact ⟨added, hs, hsub.cons p, hw⟩

theorem addedFrom_left {r : Index} {src pts s : List Point} (src2 : List Point)
    (h : AddedFrom r src pts s) : AddedFrom r (src ++ src2) pts s := by
  obtain ⟨added, hs, hsub, hw⟩ := h
  exact ⟨added, hs, hsub.trans (List.sublist_append_left _ _), hw⟩

theorem addedFrom_right {r : Index} {src pts s : List Point} (src1 : List Point)
    (h : AddedFrom r src pts s) : AddedFrom r (src1 ++ src) pts s := by
  obtain ⟨added, hs, hsub, hw⟩ := h
  exact ⟨added, hs, hsub.trans (List.sublist_append_right _ _), hw⟩

theorem addedFrom_append {r : Index} {src1 src2 pts s1 s2 : List Point}
    (h1 : AddedFrom r src1 pts s1) (h2 : AddedFrom r src2 s1 s2) :
    AddedFrom r (src1 ++ src2) pts s2 := by
  obtain ⟨a1, hs1, hsub1, hw1⟩ := h1
  obtain ⟨a2, hs2, hsub2, hw2⟩ := h2
  refine ⟨a1 ++ a2, by simp [hs2, hs1], hsub1.append hsub2, ?_⟩
  intro p hp
  rcases List.mem_append.1 hp with h | h
  · exact hw1 p h
  · exact hw2 p h

theorem collectGroup_added (idx : Index) (hidx : idx.address + idx.quantity < u16)
    (g : Group) (pts : List Point)
    (hc : Points.Contiguous g.points) (hno : Points.NoOverflow g.points) :
    (collectGroup idx g pts).Holds (AddedFrom idx g.points pts) := by
  unfold collectGroup
  cases hps : g.points with
  | nil => simp [Points.index, Points.address, Group.address, hps, Flow.Holds]
  | cons p0 ps =>
    rw [hps] at hc hno
    have hspan := contiguous_span ps p0 hc hno
    simp only [Points.index, Points.address, Group.address, hps]
    have hcg : ceil ⟨p0.address, Points.quantity (p0 :: ps)⟩ =
        p0.address + Points.quantity (p0 :: ps) := ceil_of_lt hspan.1
    rw [hcg, ceil_of_lt hidx]
    split
    · exact addedFrom_refl _ _ _
    · split
      · rename_i h2
        simp only [Bool.and_eq_true, decide_eq_true_eq] at h2
        refine ⟨p0 :: ps, rfl, List.Sublist.refl _, ?_⟩
        intro p hp
        have := hspan.2 p hp
        unfold Point.Within
        omega
      · split
        · exact addedFrom_refl _ _ _
        · exact collectPoints_added idx hidx (p0 :: ps) pts hno

mutual
theorem iterate_added (idx : Index) (hidx : idx.address + idx.quantity < u16) :
    ∀ (g : Group) (pts : List Point),
      (∀ g1 ∈ Group.subtree g, Points.Contiguous g1.points ∧ Points.NoOverflow g1.points) →
      (iterate (collectGroup idx) g pts).Holds (AddedFrom idx (Group.flat g) pts)
  | .mk n a ps gs, pts, h => by
    have hroot := h (.mk n a ps gs) (by simp [Group.subtree])
    have hcb := collectGroup_added idx hidx (.mk n a ps gs) pts hroot.1 hroot.2
    have hsub : ∀ g1 ∈ Groups.subtree gs,
        Points.Contiguous g1.points ∧ Points.NoOverflow g1.points :=
      fun g1 hg1 => h g1 (by simp [Group.subtree, hg1])
    simp only [iterate, Group.flat]
    cases hcall : collectGroup idx (.mk n a ps gs) pts with
    | panic => trivial
    | err s1 e =>
      rw [hcall] at hcb
      exact addedFrom_left _ hcb
    | ok s1 =>
      rw [hcall] at hcb
      refine Flow.holds_imp ?_ (iterateGroups_added idx hidx gs s1 hsub)
      intro s hs
      exact addedFrom_append hcb hs
theorem iterateGroups_added (idx : Index) (hidx : idx.address + idx.quantity < u16) :
    ∀ (gs : List Group) (pts : List Point),
      (∀ g1 ∈ Groups.subtree gs, Points.Contiguous g1.points ∧ Points.NoOverflow g1.points) →
      (iterateGroups (collectGroup idx) gs pts).Holds (AddedFrom idx (Groups.flat gs) pts)
  | [], pts, _ => by
    simp only [iterateGroups, Groups.flat]
    exact addedFrom_refl _ _ _
  | g :: gs, pts, h => by
    have hg : ∀ g1 ∈ Group.subtree g,
        Points.Contiguous g1.points ∧ Points.NoOverflow g1.points :=
      fun g1 hg1 => h g1 (by simp [Groups.subtree, hg1])
    have hgs : ∀ g1 ∈ Groups.subtree gs,
        Points.Contiguous g1.points ∧ Points.NoOverflow g1.points :=
      fun g1 hg1 => h g1 (by simp [Groups.subtree, hg1])
    have h1 := iterate_added idx hidx g pts hg
    simp only [iterateGroups, Groups.flat]
    cases hcall : iterate (collectGroup idx) g pts with
    | panic => trivial
    | err s1 e =>
      rw [hcall] at h1
      refine Flow.holds_imp ?_ (iterateGroups_added idx hidx gs s1 hgs)
      intro s hs
      exact addedFrom_append h1 hs
    | ok s1 =>
      rw [hcall] at h1
      refine Flow.holds_imp ?_ (iterateGroups_added idx hidx gs s1 hgs)
      intro s hs
      exact addedFrom_append h1 hs
end

theorem collectModels_added (idx : Index) (hidx : idx.address + idx.quantity < u16) :
    ∀ (ms : List Group) (pts : List Point),
      (∀ g1 ∈ Groups.subtree ms, Points.Contiguous g1.points ∧ Points.NoOverflow g1.points) →
      (collectModels idx ms pts).Holds (AddedFrom idx (Groups.flat ms) pts) := by
  intro ms
  induction ms with
  | nil =>
    intro pts _
    exact addedFrom_refl _ _ _
  | cons m ms ih =>
    intro pts h
    have hm : ∀ g1 ∈ Group.subtree m,
        Points.Contiguous g1.points ∧ Points.NoOverflow g1.points :=
      fun g1 hg1 => h g1 (by simp [Groups.subtree, hg1])
    have hms : ∀ g1 ∈ Groups.subtree ms,
        Points.Contiguous g1.points ∧ Points.NoOverflow g1.points :=
      fun g1 hg1 => h g1 (by simp [Groups.subtree, hg1])
    simp only [collectModels, Groups.flat]
    cases m.index with
    | none => trivial
    | some mi =>
      simp only
      split
      · exact Flow.holds_imp (fun s hs => addedFrom_right _ hs) (ih pts hms)
      · have h1 := iterate_added idx hidx m pts hm
        cases hcall : iterate (collectGroup idx) m pts with
        | panic => trivial
        | err s1 e =>
          rw [hcall] at h1
          exact addedFrom_left _ h1
        | ok s1 =>
          rw [hcall] at h1
          exact Flow.holds_imp (fun s hs => addedFrom_append h1 hs) (ih s1 hms)

theorem collectRanges_pieces (d : List Group)
    (hd : ∀ g1 ∈ Groups.subtree d, Points.Contiguous g1.points ∧ Points.NoOverflow g1.points) :
    ∀ (ranges : List Index) (pts : List Point),
      (∀ r ∈ ranges, r.address + r.quantity < u16) →
      (collectRanges d ranges pts).OkHolds (Pieces d ranges pts) := by
  intro ranges
  induction ranges with
  | nil =>
    intro pts _
    exact ⟨[], by simp, List.Forall₂.nil⟩
  | cons r rest ih =>
    intro pts hr
    have h1 := collectModels_added r (hr r (List.mem_cons_self _ _)) d pts hd
    have hrest : ∀ r1 ∈ rest, r1.address + r1.quantity < u16 :=
      fun r1 h => hr r1 (List.mem_cons_of_mem _ h)
    simp only [collectRanges]
    cases hcall : collectModels r d pts with
    | panic => trivial
    | err s1 e => trivial
    | ok s1 =>
      rw [hcall] at h1
      obtain ⟨added, hs, hsub, hw⟩ := h1
      refine Flow.okHolds_imp ?_ (ih s1 hrest)
      rintro s ⟨pieces, hs2, hf⟩
      exact ⟨added :: pieces, by simp [hs2, hs], List.Forall₂.cons ⟨hsub, hw⟩ hf⟩

theorem merge_singleton (r : Index) : merge [r] = some [r] := by
  cases r
  simp [merge, sortByAddress, mergeLoop]

theorem collect_ok_pieces (d : List Group) (idx merged : List Index) (pts : List Point)
    (hd : ∀ g1 ∈ Groups.subtree d, Points.Contiguous g1.points ∧ Points.NoOverflow g1.points)
    (hm : merge idx = some merged) (hno : ∀ r ∈ merged, r.address + r.quantity < u16)
    (h : collect d idx = .ok pts) : Pieces d merged [] pts := by
  unfold collect at h
  rw [hm] at h
  simp only at h
  have hp := collectRanges_pieces d hd merged [] hno
  cases hcall : collectRanges d merged [] with
  | panic => rw [hcall] at h; cases h
  | err s e => rw [hcall] at h; cases h
  | ok s =>
    rw [hcall] at h hp
    simp only at h
    split at h
    · cases h
    · cases h
      exact hp

/-- C3 (evaluation at the failing input): every group of `wrapModel` holds its
immediate points contiguously and the range `(0, 1)` does not overflow, yet
`collect` succeeds and returns, with `ID`, the point `X` of the register 65535,
which lies outside the range: the ceiling of the sub-group wraps around to 0,
so the range counts as covering the whole group. -/
theorem collect_wrapped_group_outside :
    ((∀ g ∈ Groups.subtree [wrapModel], Points.Contiguous g.points) ∧
      (⟨0, 1⟩ : Index).address + (⟨0, 1⟩ : Index).quantity < u16) ∧
    collect [wrapModel] [⟨0, 1⟩] = .ok [⟨"ID", 0, 1, false⟩, ⟨"X", 65535, 1, false⟩] ∧
    ¬ ∀ p ∈ [(⟨"ID", 0, 1, false⟩ : Point), ⟨"X", 65535, 1, false⟩],
        0 ≤ p.address ∧ p.address + p.quantity ≤ 0 + 1 := by
  refine ⟨by decide, by decide, ?_⟩
  intro h
  have h1 := (h ⟨"X", 65535, 1, false⟩ (by simp)).2
  exact absurd h1 (by decide)

/-- Where `collect` does stay inside the range: for every device whose groups
hold their immediate points contiguously and without 16-bit overflow, and every
index range `r` without overflow, every point that a successful
`collect(device, r)` returns lies inside `r`. -/
theorem collect_within (d : List Group) (r : Index) (pts : List Point)
    (hd : ∀ g ∈ Groups.subtree d, Points.Contiguous g.points ∧ Points.NoOverflow g.points)
    (hr : r.address + r.quantity < u16)
    (h : collect d [r] = .ok pts) :
    ∀ p ∈ pts, r.address ≤ p.address ∧ p.address + p.quantity ≤ r.address + r.quantity := by
  have hp := collect_ok_pieces d [r] [r] pts hd (merge_singleton r)
    (by intro r1 h1; rw [List.mem_singleton] at h1; subst h1; exact hr) h
  obtain ⟨pieces, hs, hf⟩ := hp
  cases hf with
  | cons h1 h2 =>
    cases h2
    intro p hp
    simp only [List.nil_append, List.flatten_cons, List.flatten_nil, List.append_nil] at hs
    subst hs
    exact h1.2 p hp

/-- On the sample model the range `(0, 1)` covers no group whole: `collect`
goes through the points of the root group one by one and returns `ID` alone. -/
theorem collect_within_witness :
    (∀ g ∈ Groups.subtree [sampleModel],
        Points.Contiguous g.points ∧ Points.NoOverflow g.points) ∧
      collect [sampleModel] [⟨0, 1⟩] = .ok [⟨"ID", 0, 1, false⟩] ∧
      ∀ p ∈ [(⟨"ID", 0, 1, false⟩ : Point)],
        0 ≤ p.address ∧ p.address + p.quantity ≤ 0 + 1 :=
  ⟨by decide, by decide,
    collect_within [sampleModel] ⟨0, 1⟩ _ (by decide) (by decide) (by decide)⟩

/-- C4 (evaluation at the failing input): the range `(0, 3)` covers `A` and not
`B`, the two points of the atomic sub-group of the sample model; `collect`
returns the points of the root group and no error. -/
theorem collect_atomic_subgroup_partial :
    collect [sampleModel] [⟨0, 3⟩] = .ok [⟨"ID", 0, 1, false⟩, ⟨"L", 1, 1, false⟩] := by
  decide

/-- C5 (evaluation at the failing input): on the empty list of index ranges
`collect` panics, for every device. -/
theorem collect_no_ranges_panics (d : List Group) : collect d [] = .panic := by
  rfl

mutual
theorem mem_flat_of_mem_subtree (p : Point) :
    ∀ (g g1 : Group), g1 ∈ Group.subtree g → p ∈ g1.points → p ∈ Group.flat g
  | .mk n a ps gs, g1, hg, hp => by
    simp only [Group.subtree, List.mem_cons] at hg
    simp only [Group.flat, List.mem_append]
    rcases hg with h | h
    · subst h
      exact Or.inl hp
    · exact Or.inr (mem_flats_of_mem_subtree p gs g1 h hp)
theorem mem_flats_of_mem_subtree (p : Point) :
    ∀ (gs : List Group) (g1 : Group), g1 ∈ Groups.subtree gs → p ∈ g1.points →
      p ∈ Groups.flat gs
  | [], g1, hg, _ => by
    simp [Groups.subtree] at hg
  | g :: gs, g1, hg, hp => by
    simp only [Groups.subtree, List.mem_append] at hg
    simp only [Groups.flat, List.mem_append]
    rcases hg with h | h
    · exact Or.inl (mem_flat_of_mem_subtree p g g1 h hp)
    · exact Or.inr (mem_flats_of_mem_subtree p gs g1 h hp)
end

theorem pieces_mem (d : List Group) : ∀ (ranges : List Index) (pieces : List (List Point)),
    List.Forall₂ (fun r piece => piece.Sublist (Groups.flat d) ∧ ∀ p ∈ piece, p.Within r)
      ranges pieces →
    ∀ q ∈ pieces.flatten, ∃ r ∈ ranges, q.Within r := by
  intro ranges pieces hf
  induction hf with
  | nil => intro q hq; simp at hq
  | cons h1 _ ih =>
    intro q hq
    rw [List.flatten_cons, List.mem_append] at hq
    rcases hq with h | h
    · exact ⟨_, List.mem_cons_self _ _, h1.2 q h⟩
    · obtain ⟨r, hr, hw⟩ := ih q h
      exact ⟨r, List.mem_cons_of_mem _ hr, hw⟩

theorem pieces_ascending (d : List Group)
    (hasc : (Groups.flat d).Pairwise (fun p q => p.address + p.quantity ≤ q.address))
    (hq : ∀ p ∈ Groups.flat d, 1 ≤ p.quantity) :
    ∀ (ranges : List Index) (pieces : List (List Point)),
    List.Forall₂ (fun r piece => piece.Sublist (Groups.flat d) ∧ ∀ p ∈ piece, p.Within r)
      ranges pieces →
    Apart ranges → pieces.flatten.Pairwise (fun p q => p.address < q.address) := by
  intro ranges pieces hf
  induction hf with
  | nil => intro _; simp
  | @cons r piece ranges pieces h1 h2 ih =>
    intro hap
    have hap2 := List.pairwise_cons.1 hap
    rw [List.flatten_cons, List.pairwise_append]
    refine ⟨?_, ih hap2.2, ?_⟩
    · have hpw := List.Pairwise.sublist h1.1 hasc
      refine List.Pairwise.imp_of_mem ?_ hpw
      intro a b ha _ hab
      have := hq a (h1.1.subset ha)
      omega
    · intro a ha b hb
      obtain ⟨r1, hr1, hw1⟩ := pieces_mem d ranges pieces h2 b hb
      have hw := h1.2 a ha
      have h3 := hap2.1 r1 hr1
      have h4 := hq a (h1.1.subset ha)
      unfold Point.Within at hw hw1
      omega

/-- C6 (evaluation at the failing input): the sample model is well formed and
the list of ranges `(0, 4)`, `(0, 0)`, `(1, 1)` is not empty, yet `collect`
succeeds and returns the point `L` twice, so the returned points are neither
strictly ascending nor distinct.  So it does on the ranges `(0, 4)`,
`(1, 65535)`, `(2, 2)`, all of quantity >= 1, the second with a ceiling that
overflows: the points `A` and `B` are returned twice. -/
theorem collect_zero_quantity_range_repeats :
    ((∀ g ∈ Groups.subtree [sampleModel], Points.Contiguous g.points) ∧
      Points.Ascending (Groups.flat [sampleModel]) ∧
      (∀ p ∈ Groups.flat [sampleModel], 1 ≤ p.quantity ∧ p.address + p.quantity < u16) ∧
      [(⟨0, 4⟩ : Index), ⟨0, 0⟩, ⟨1, 1⟩] ≠ []) ∧
    collect [sampleModel] [⟨0, 4⟩, ⟨0, 0⟩, ⟨1, 1⟩] =
      .ok [⟨"ID", 0, 1, false⟩, ⟨"L", 1, 1, false⟩, ⟨"A", 2, 1, true⟩, ⟨"B", 3, 1, true⟩,
        ⟨"L", 1, 1, false⟩] ∧
    ¬ List.Pairwise (fun p q : Point => p.address < q.address)
        [⟨"ID", 0, 1, false⟩, ⟨"L", 1, 1, false⟩, ⟨"A", 2, 1, true⟩, ⟨"B", 3, 1, true⟩,
          ⟨"L", 1, 1, false⟩] ∧
    ¬ List.Nodup [(⟨"ID", 0, 1, false⟩ : Point), ⟨"L", 1, 1, false⟩, ⟨"A", 2, 1, true⟩,
        ⟨"B", 3, 1, true⟩, ⟨"L", 1, 1, false⟩] ∧
    collect [sampleModel] [⟨0, 4⟩, ⟨1, 65535⟩, ⟨2, 2⟩] =
      .ok [⟨"ID", 0, 1, false⟩, ⟨"L", 1, 1, false⟩, ⟨"A", 2, 1, true⟩, ⟨"B", 3, 1, true⟩,
        ⟨"A", 2, 1, true⟩, ⟨"B", 3, 1, true⟩] := by
  refine ⟨by decide, by decide, ?_, ?_, by decide⟩
  · intro h
    have h1 := (List.pairwise_cons.1 (List.pairwise_cons.1 h).2).1 ⟨"L", 1, 1, false⟩ (by simp)
    exact absurd h1 (by decide)
  · intro h
    have h1 := (List.pairwise_cons.1 (List.pairwise_cons.1 h).2).1 ⟨"L", 1, 1, false⟩ (by simp)
    exact h1 rfl

/-- Where `collect` does return every point once: for every well-formed device
(every group holds its immediate points contiguously, the points of the device
in pre-order are ascending, each of quantity >= 1 and without 16-bit overflow)
and every non-empty list of index ranges each of quantity >= 1 and without
16-bit overflow, the points a successful `collect` returns are in strictly
ascending address order, so none is returned twice. -/
theorem collect_strictly_ascending (d : List Group) (idx : List Index) (pts : List Point)
    (hd : ∀ g ∈ Groups.subtree d, Points.Contiguous g.points)
    (hasc : Points.Ascending (Groups.flat d))
    (hq : ∀ p ∈ Groups.flat d, 1 ≤ p.quantity ∧ p.address + p.quantity < u16)
    (hne : idx ≠ [])
    (hidx : ∀ r ∈ idx, 1 ≤ r.quantity ∧ r.address + r.quantity < u16)
    (h : collect d idx = .ok pts) :
    pts.Pairwise (fun p q => p.address < q.address) ∧ pts.Nodup := by
  obtain ⟨merged, hm, hap, hprop⟩ := merge_apart idx hne hidx
  have hd2 : ∀ g1 ∈ Groups.subtree d,
      Points.Contiguous g1.points ∧ Points.NoOverflow g1.points := by
    intro g1 hg1
    refine ⟨hd g1 hg1, ?_⟩
    intro p hp
    exact (hq p (mem_flats_of_mem_subtree p d g1 hg1 hp)).2
  obtain ⟨pieces, hs, hf⟩ :=
    collect_ok_pieces d idx merged pts hd2 hm (fun r hr => (hprop r hr).2) h
  have hpw := pieces_ascending d (List.chain'_iff_pairwise.1 hasc) (fun p hp => (hq p hp).1)
    merged pieces hf hap
  rw [List.nil_append] at hs
  subst hs
  refine ⟨hpw, ?_⟩
  refine List.Pairwise.imp ?_ hpw
  intro a b hab heq
  subst heq
  exact Nat.lt_irrefl _ hab

/-- On the sample model and the ranges `(0, 2)`, `(2, 2)` the points come out
in strictly ascending order. -/
theorem collect_strictly_ascending_witness :
    ((∀ g ∈ Groups.subtree [sampleModel], Points.Contiguous g.points) ∧
      Points.Ascending (Groups.flat [sampleModel]) ∧
      (∀ p ∈ Groups.flat [sampleModel], 1 ≤ p.quantity ∧ p.address + p.quantity < u16) ∧
      [(⟨0, 2⟩ : Index), ⟨2, 2⟩] ≠ [] ∧
      (∀ r ∈ [(⟨0, 2⟩ : Index), ⟨2, 2⟩], 1 ≤ r.quantity ∧ r.address + r.quantity < u16) ∧
      collect [sampleModel] [⟨0, 2⟩, ⟨2, 2⟩] =
        .ok [⟨"ID", 0, 1, false⟩, ⟨"L", 1, 1, false⟩, ⟨"A", 2, 1, true⟩, ⟨"B", 3, 1, true⟩]) ∧
    (List.Pairwise (fun p q : Point => p.address < q.address)
        [⟨"ID", 0, 1, false⟩, ⟨"L", 1, 1, false⟩, ⟨"A", 2, 1, true⟩, ⟨"B", 3, 1, true⟩] ∧
      List.Nodup [(⟨"ID", 0, 1, false⟩ : Point), ⟨"L", 1, 1, false⟩, ⟨"A", 2, 1, true⟩,
        ⟨"B", 3, 1, true⟩]) :=
  ⟨by decide, collect_strictly_ascending [sampleModel] [⟨0, 2⟩, ⟨2, 2⟩] _
    (by decide) (by decide) (by decide) (by decide) (by decide) (by decide)⟩

/-! ## Theorems: execute -/

/-- When the inner loop stops at once on a run that starts at `j`, the run is
empty, `j` does not move and the outer loop never ends (for a `cmd` that does
not fail). -/
theorem executeLoop_stuck {σ ε : Type} (limit : Nat) (pts : List Point)
    (cmd : σ → List Point → σ × Option ε) (j : Nat) (hj : j < pts.length)
    (hadv : advance limit pts j j (pts.drop j) = some j)
    (hcmd : ∀ s r, (cmd s r).2 = none) :
    ∀ (fuel : Nat) (calls : List (List Point × Option ε)) (s : σ),
      (executeLoop limit pts cmd fuel j j calls s).result = .running := by
  intro fuel
  induction fuel with
  | zero => intro calls s; rfl
  | succ fuel ih =>
    intro calls s
    have h2 : ¬ pts.length < j := by omega
    have h3 : ¬ j < j := by omega
    simp only [executeLoop, hj, h2, h3, hadv, if_true, if_false]
    have hc := hcmd s (List.drop j (List.take j pts))
    cases hres : cmd s (List.drop j (List.take j pts)) with
    | mk s1 e =>
      rw [hres] at hc
      simp only at hc
      subst hc
      exact ih _ s1

/-- C8 (evaluation at the failing input): on two points with a gap between them
and the limit 125, `execute` calls `cmd` on the first point and then on the
empty run again and again; it never returns, whatever the number of
iterations. -/
theorem execute_gap_empty_runs :
    (∀ fuel, (execute fuel 125 gapPoints okCmd ()).result = .running) ∧
      (execute 3 125 gapPoints okCmd ()).calls =
        [([⟨"P0", 0, 1, false⟩], none), ([], none), ([], none)] := by
  refine ⟨?_, by decide⟩
  intro fuel
  cases fuel with
  | zero => rfl
  | succ fuel =>
    have h := executeLoop_stuck 125 gapPoints okCmd 1 (by decide) (by decide)
      (fun _ _ => rfl) fuel [([⟨"P0", 0, 1, false⟩], none)] ()
    exact h

theorem span_append (a b : List Point) : span (a ++ b) = span a + span b := by
  simp [span]

theorem span_take_succ (pts : List Point) (k : Nat) (hk : k < pts.length) :
    span (pts.take (k + 1)) = span (pts.take k) + pts[k].quantity := by
  rw [List.take_succ, List.getElem?_eq_getElem hk, span_append]
  simp [span]

theorem take_append_run (pts : List Point) (j i : Nat) (hji : j ≤ i) :
    pts.take j ++ (pts.take i).drop j = pts.take i := by
  have h := List.take_append_drop j (pts.take i)
  rw [List.take_take, Nat.min_eq_left hji] at h
  exact h

theorem run_append_drop (pts : List Point) (j i : Nat) (hji : j ≤ i) (hi : i ≤ pts.length) :
    (pts.take i).drop j ++ pts.drop i = pts.drop j := by
  have h : j ≤ (pts.take i).length := by
    rw [List.length_take]; omega
  rw [← List.drop_append_of_le_length h, List.take_append_drop]

theorem span_run (pts : List Point) (j i : Nat) (hji : j ≤ i) :
    span ((pts.take i).drop j) = span (pts.take i) - span (pts.take j) := by
  have h := congrArg span (take_append_run pts j i hji)
  rw [span_append] at h
  omega

/-- In a contiguous list the address of the point at position `k` is the
address of the first point plus the span of the `k` points before it. -/
theorem contiguous_address (pts : List Point) (hc : Points.Contiguous pts) (h0 : 0 < pts.length) :
    ∀ (k : Nat) (hk : k < pts.length),
      pts[k].address = pts[0].address + span (pts.take k) := by
  intro k
  induction k with
  | zero => intro _; simp [span]
  | succ k ih =>
    intro hk
    have hk1 : k < pts.length := by omega
    have hlink := (List.chain'_iff_get.1 hc) k (by omega)
    simp only [List.get_eq_getElem] at hlink
    rw [span_take_succ pts k hk1, ← hlink, ih hk1]
    omega

theorem span_take_mono (pts : List Point) (j i : Nat) (hji : j ≤ i) :
    span (pts.take j) ≤ span (pts.take i) := by
  have h := congrArg span (take_append_run pts j i hji)
  rw [span_append] at h
  omega

/-- In a contiguous list without overflow, the ceiling of the point at
position `k` and the span from position `j` that `execute` computes. -/
theorem contiguous_check (pts : List Point) (hc : Points.Contiguous pts)
    (hno : Points.NoOverflow pts) (j k : Nat) (hjk : j ≤ k) (hk : k < pts.length) :
    ceil pts[k].index = pts[0].address + span (pts.take (k + 1)) ∧
      sub16 (ceil pts[k].index) pts[j].address =
        span (pts.take (k + 1)) - span (pts.take j) := by
  have h0 : 0 < pts.length := by omega
  have hak := contiguous_address pts hc h0 k hk
  have haj := contiguous_address pts hc h0 j (by omega)
  have hov := hno pts[k] (List.getElem_mem _)
  have hs := span_take_succ pts k hk
  have hmono := span_take_mono pts j k hjk
  have hceil : ceil pts[k].index = pts[k].address + pts[k].quantity := ceil_of_lt hov
  refine ⟨by rw [hceil]; omega, ?_⟩
  rw [hceil, sub16_of_le (by omega) hov]
  omega

theorem advance_contiguous (limit : Nat) (pts : List Point) (hc : Points.Contiguous pts)
    (hno : Points.NoOverflow pts) (j : Nat) (hj : j < pts.length) :
    ∀ (rest : List Point) (i : Nat), rest = pts.drop i → j ≤ i → 1 ≤ i → i ≤ pts.length →
      ∃ i1, advance limit pts j i rest = some i1 ∧ i ≤ i1 ∧ i1 ≤ pts.length ∧
        (i < i1 → span (pts.take i1) - span (pts.take j) ≤ limit) ∧
        (i1 < pts.length → limit < span (pts.take (i1 + 1)) - span (pts.take j)) := by
  intro rest
  induction rest with
  | nil =>
    intro i hrest _ _ hil
    have hlen : pts.length ≤ i := List.drop_eq_nil_iff.1 hrest.symm
    refine ⟨i, rfl, Nat.le_refl _, hil, ?_, ?_⟩
    · intro h; omega
    · intro h; omega
  | cons p rest ih =>
    intro i hrest hji h1 hil
    have hi : i < pts.length := by
      rcases Nat.lt_or_ge i pts.length with h | h
      · exact h
      · rw [List.drop_eq_nil_iff.2 h] at hrest
        cases hrest
    rw [List.drop_eq_getElem_cons hi] at hrest
    injection hrest with hp hrest2
    have hprev : pts[i - 1]? = some pts[i - 1] := List.getElem?_eq_getElem (by omega)
    have hfirst : pts[j]? = some pts[j] := List.getElem?_eq_getElem hj
    have hck := contiguous_check pts hc hno j i hji hi
    have hckp := contiguous_check pts hc hno (i - 1) (i - 1) (Nat.le_refl _) (by omega)
    have hai := contiguous_address pts hc (by omega) i hi
    have hsub : i - 1 + 1 = i := by omega
    rw [hsub] at hckp
    simp only [advance, hprev, hfirst]
    subst hp
    have hlinked : ceil pts[i - 1].index = pts[i].address := by rw [hckp.1, hai]
    by_cases hover : sub16 (ceil pts[i].index) pts[j].address > limit
    · refine ⟨i, ?_, Nat.le_refl _, hil, ?_, ?_⟩
      · simp [hlinked, hover]
      · intro h; omega
      · intro _
        rw [hck.2] at hover
        exact hover
    · obtain ⟨i1, hadv, hle, hle2, hin, hout⟩ := ih (i + 1) hrest2 (by omega) (by omega) (by omega)
      refine ⟨i1, ?_, by omega, hle2, ?_, hout⟩
      · simp [hlinked, hover, hadv]
      · intro _
        rcases Nat.lt_or_ge (i + 1) i1 with h | h
        · exact hin h
        · have : i1 = i + 1 := by omega
          subst this
          rw [hck.2] at hover
          omega

/-- One run of the inner loop on a contiguous list whose points fit the limit:
the run is not empty, within the limit and maximal. -/
theorem advance_run (limit : Nat) (pts : List Point) (hc : Points.Contiguous pts)
    (hno : Points.NoOverflow pts) (hlim : ∀ p ∈ pts, p.quantity ≤ limit)
    (i j : Nat) (hj : j < pts.length) (hstate : i = j ∧ 1 ≤ j ∨ j = 0 ∧ i = 1) :
    ∃ i1, advance limit pts j i (pts.drop i) = some i1 ∧ j < i1 ∧ i1 ≤ pts.length ∧
      span (pts.take i1) - span (pts.take j) ≤ limit ∧
      (i1 < pts.length → limit < span (pts.take (i1 + 1)) - span (pts.take j)) := by
  have hqj : span (pts.take (j + 1)) - span (pts.take j) ≤ limit := by
    have h1 := span_take_succ pts j hj
    have h2 := hlim pts[j] (List.getElem_mem _)
    omega
  obtain ⟨i1, hadv, hle, hle2, hin, hout⟩ :=
    advance_contiguous limit pts hc hno j hj (pts.drop i) i rfl (by omega) (by omega) (by omega)
  refine ⟨i1, hadv, ?_, hle2, ?_, hout⟩
  · rcases hstate with ⟨h1, _⟩ | ⟨h1, h2⟩
    · subst h1
      rcases Nat.lt_or_ge i i1 with h | h
      · exact h
      · have hi1 : i1 = i := by omega
        subst hi1
        have := hout hj
        omega
    · omega
  · rcases Nat.lt_or_ge i i1 with h | h
    · exact hin h
    · rcases hstate with ⟨h1, _⟩ | ⟨h1, h2⟩
      · subst h1
        have hi1 : i1 = i := by omega
        subst hi1
        have := hout hj
        omega
      · have hi1 : i1 = j + 1 := by omega
        subst hi1
        exact hqj

theorem executeLoop_spec {σ ε : Type} (limit : Nat) (pts : List Point)
    (cmd : σ → List Point → σ × Option ε) (hc : Points.Contiguous pts)
    (hno : Points.NoOverflow pts) (hlim : ∀ p ∈ pts, p.quantity ≤ limit) :
    ∀ (fuel i j : Nat) (calls : List (List Point × Option ε)) (s : σ),
      pts.length - j < fuel → j ≤ pts.length → (i = j ∧ 1 ≤ j ∨ j = 0 ∧ i = 1) →
      ∃ entries s1 res,
        executeLoop limit pts cmd fuel i j calls s = ⟨calls ++ entries, s1, res⟩ ∧
          ExecSpec limit pts cmd j entries res := by
  intro fuel
  induction fuel with
  | zero => intro i j calls s h; omega
  | succ fuel ih =>
    intro i j calls s hfuel hjl hstate
    by_cases hj : j < pts.length
    · obtain ⟨i1, hadv, hji1, hi1l, hfit, hmax⟩ :=
        advance_run limit pts hc hno hlim i j hj hstate
      have h2 : ¬ pts.length < i := by omega
      have h3 : ¬ i1 < j := by omega
      simp only [executeLoop, hj, h2, h3, hadv, if_true, if_false]
      have hrun_ne : (pts.take i1).drop j ≠ [] := by
        intro h
        have := congrArg List.length h
        simp only [List.length_drop, List.length_take, List.length_nil] at this
        omega
      have hrun_span : span ((pts.take i1).drop j) ≤ limit := by
        rw [span_run pts j i1 (by omega)]
        exact hfit
      cases hres : cmd s ((pts.take i1).drop j) with
      | mk s1 e =>
        cases e with
        | some e =>
          refine ⟨[((pts.take i1).drop j, some e)], s1, _, rfl, ?_, ?_, ?_, ?_⟩
          · intro c hc1
            rw [List.mem_singleton] at hc1
            subst hc1
            exact ⟨hrun_ne, hrun_span, s, by rw [hres]⟩
          · simp
          · refine ⟨pts.drop i1, ?_⟩
            simp only [List.map_cons, List.map_nil, List.flatten_cons, List.flatten_nil,
              List.append_nil]
            exact run_append_drop pts j i1 (by omega) hi1l
          · exact Or.inr ⟨[], (pts.take i1).drop j, e, by simp, by simp, by simp⟩
        | none =>
          obtain ⟨entries, s2, res, heq, hrec, hchain, ⟨tail, htail⟩, hfin⟩ :=
            ih i1 i1 (calls ++ [((pts.take i1).drop j, none)]) s1 (by omega) hi1l
              (Or.inl ⟨rfl, by omega⟩)
          refine ⟨((pts.take i1).drop j, none) :: entries, s2, res, ?_, ?_, ?_, ?_, ?_⟩
          · simp only
            rw [heq, List.append_assoc, List.singleton_append]
          · intro c hc1
            rcases List.mem_cons.1 hc1 with h | h
            · subst h
              exact ⟨hrun_ne, hrun_span, s, by rw [hres]⟩
            · exact hrec c h
          · rw [List.map_cons, List.chain'_cons']
            refine ⟨?_, hchain⟩
            intro y hy p hp
            cases entries with
            | nil => simp at hy
            | cons c rest =>
              simp only [List.map_cons, List.head?_cons, Option.mem_def, Option.some.injEq] at hy
              subst hy
              have hcne := (hrec c (List.mem_cons_self _ _)).1
              cases hc1 : c.1 with
              | nil => exact absurd hc1 hcne
              | cons q qs =>
                rw [hc1] at hp
                simp only [List.head?_cons, Option.some.injEq] at hp
                subst hp
                simp only [List.map_cons, List.flatten_cons, hc1, List.cons_append] at htail
                have hi1 : i1 < pts.length := by
                  rcases Nat.lt_or_ge i1 pts.length with h | h
                  · exact h
                  · rw [List.drop_eq_nil_iff.2 h] at htail
                    cases htail
                rw [List.drop_eq_getElem_cons hi1] at htail
                injection htail with hq _
                rw [span_append, span_run pts j i1 (by omega)]
                have h5 := hmax hi1
                have h6 := span_take_succ pts i1 hi1
                have h7 := span_take_mono pts j i1 (by omega)
                have h8 : span [q] = q.quantity := by simp [span]
                rw [h8, hq]
                omega
          · refine ⟨tail, ?_⟩
            rw [List.map_cons, List.flatten_cons, List.append_assoc, htail]
            exact run_append_drop pts j i1 (by omega) hi1l
          · rcases hfin with ⟨hnone, hflat, hres2⟩ | ⟨pre, r, e, hent, hnone, hres2⟩
            · refine Or.inl ⟨?_, ?_, hres2⟩
              · intro c hc1
                rcases List.mem_cons.1 hc1 with h | h
                · subst h; rfl
                · exact hnone c h
              · rw [List.map_cons, List.flatten_cons, hflat]
                exact run_append_drop pts j i1 (by omega) hi1l
            · refine Or.inr ⟨((pts.take i1).drop j, none) :: pre, r, e, ?_, ?_, ?_⟩
              · rw [hent, List.cons_append]
              · intro c hc1
                rcases List.mem_cons.1 hc1 with h | h
                · subst h; rfl
                · exact hnone c h
              · rw [hres2, List.map_cons, List.flatten_cons, ← List.append_assoc,
                  take_append_run pts j i1 (by omega)]
    · have hjeq : j = pts.length := by omega
      refine ⟨[], s, .returned pts none, ?_, ?_, ?_, ?_, ?_⟩
      · simp only [executeLoop, hj, if_false, List.append_nil]
      · intro c hc1; cases hc1
      · simp
      · exact ⟨[], by simp [hjeq]⟩
      · exact Or.inl ⟨fun c hc1 => absurd hc1 (List.not_mem_nil c), by simp [hjeq], rfl⟩

/-- The first failed call of a record is where the record says it is. -/
theorem first_error_unique {α β : Type} :
    ∀ (pre pre1 : List (α × Option β)) (x x1 : α) (e e1 : β) (post : List (α × Option β)),
      pre ++ (x, some e) :: post = pre1 ++ [(x1, some e1)] → (∀ c ∈ pre1, c.2 = none) →
      pre = pre1 ∧ x = x1 ∧ e = e1 ∧ post = [] := by
  intro pre
  induction pre with
  | nil =>
    intro pre1 x x1 e e1 post heq hnone
    cases pre1 with
    | nil =>
      simp only [List.nil_append, List.cons.injEq, Prod.mk.injEq, Option.some.injEq] at heq
      exact ⟨rfl, heq.1.1, heq.1.2, heq.2⟩
    | cons c t =>
      simp only [List.nil_append, List.cons_append, List.cons.injEq] at heq
      have := hnone c (List.mem_cons_self _ _)
      rw [← heq.1] at this
      cases this
  | cons a pre ih =>
    intro pre1 x x1 e e1 post heq hnone
    cases pre1 with
    | nil =>
      simp only [List.cons_append, List.nil_append, List.cons.injEq] at heq
      have := congrArg List.length heq.2
      simp at this
    | cons c t =>
      simp only [List.cons_append, List.cons.injEq] at heq
      obtain ⟨h1, h2, h3, h4⟩ := ih t x x1 e e1 post heq.2
        (fun c1 hc1 => hnone c1 (List.mem_cons_of_mem _ hc1))
      exact ⟨by rw [heq.1, h1], h2, h3, h4⟩

set_option maxRecDepth 100000 in
/-- C7: for every limit and every non-empty address-contiguous list of points
without overflow, each of quantity at most the limit, `execute` (given a `cmd`
that does not fail, and fuel for more iterations than there are points) calls
`cmd` on non-empty runs whose concatenation in order is the input, each run
spans at most `limit` registers and cannot take the first point of the next
run within the limit, and it returns the input without error.  In particular
126 contiguous single-register points with the limit 125 give exactly two
calls, of the first 125 points and of the last point. -/
theorem execute_contiguous_runs :
    (∀ (σ ε : Type) (limit : Nat) (pts : List Point) (cmd : σ → List Point → σ × Option ε)
        (s : σ) (fuel : Nat),
        pts ≠ [] → Points.Contiguous pts → Points.NoOverflow pts →
        (∀ p ∈ pts, p.quantity ≤ limit) → (∀ s r, (cmd s r).2 = none) →
        pts.length < fuel →
        ∃ runs : List (List Point),
          (execute fuel limit pts cmd s).calls = runs.map (fun r => (r, none)) ∧
          (execute fuel limit pts cmd s).result = .returned pts none ∧
          runs.flatten = pts ∧
          (∀ r ∈ runs, r ≠ [] ∧ span r ≤ limit) ∧
          List.Chain' (Maximal limit) runs) ∧
    (execute 127 125 (unitPoints 126) okCmd ()).calls =
        [((unitPoints 126).take 125, none), ((unitPoints 126).drop 125, none)] ∧
      ((unitPoints 126).take 125).length = 125 ∧ ((unitPoints 126).drop 125).length = 1 := by
  refine ⟨?_, ?_, ?_, ?_⟩
  · intro σ ε limit pts cmd s fuel _ hc hno hlim hcmd hfuel
    obtain ⟨entries, s1, res, heq, hrec, hchain, _, hfin⟩ :=
      executeLoop_spec limit pts cmd hc hno hlim fuel 1 0 [] s (by omega) (by omega)
        (Or.inr ⟨rfl, rfl⟩)
    have hex : execute fuel limit pts cmd s = ⟨entries, s1, res⟩ := by
      unfold execute
      rw [heq, List.nil_append]
    rcases hfin with ⟨hnone, hflat, hres⟩ | ⟨pre, r, e, hent, _, _⟩
    · refine ⟨entries.map Prod.fst, ?_, ?_, ?_, ?_, hchain⟩
      · rw [hex]
        simp only [List.map_map]
        symm
        calc List.map ((fun r => (r, (none : Option ε))) ∘ Prod.fst) entries
            = List.map id entries := by
              apply List.map_congr_left
              intro c hc1
              have := hnone c hc1
              rcases c with ⟨c1, c2⟩
              simp only at this
              subst this
              rfl
          _ = entries := List.map_id _
      · rw [hex]; exact hres
      · rw [hflat]; rfl
      · intro r hr
        obtain ⟨c, hc1, hc2⟩ := List.mem_map.1 hr
        subst hc2
        exact ⟨(hrec c hc1).1, (hrec c hc1).2.1⟩
    · exfalso
      obtain ⟨s2, hs2⟩ := (hrec (r, some e) (by rw [hent]; simp)).2.2
      rw [hcmd s2 r] at hs2
      cases hs2
  · decide
  · decide
  · decide

/-- C7, applied to three single-register points with the limit 2: the runs
are the first two points and the last one. -/
theorem execute_contiguous_runs_witness :
    (unitPoints 3 ≠ [] ∧ Points.Contiguous (unitPoints 3) ∧ Points.NoOverflow (unitPoints 3) ∧
      (∀ p ∈ unitPoints 3, p.quantity ≤ 2) ∧ (∀ s r, (okCmd s r).2 = none) ∧
      (unitPoints 3).length < 4) ∧
    ∃ runs : List (List Point),
      (execute 4 2 (unitPoints 3) okCmd ()).calls = runs.map (fun r => (r, none)) ∧
      (execute 4 2 (unitPoints 3) okCmd ()).result = .returned (unitPoints 3) none ∧
      runs.flatten = unitPoints 3 ∧
      (∀ r ∈ runs, r ≠ [] ∧ span r ≤ 2) ∧
      List.Chain' (Maximal 2) runs :=
  ⟨⟨by decide, by decide, by decide, by decide, fun _ _ => rfl, by decide⟩,
    execute_contiguous_runs.1 Unit Err 2 (unitPoints 3) okCmd () 4 (by decide) (by decide)
      (by decide) (by decide) (fun _ _ => rfl) (by decide)⟩

/-- C9 (evaluation at the failing input): the list `widePoints` (a point of
one register at address 0, then a point of 126 registers at address 1) is
contiguous and `okCmd` never fails, yet with the limit 125 `execute` does not
return the input list: it does not return at all, whatever the number of
iterations, and after the first point it calls `cmd` on the empty run only, so
the wide point is never handed to `cmd`. -/
theorem execute_wide_point_never_returns :
    (Points.Contiguous widePoints ∧ Points.NoOverflow widePoints ∧
      ∀ s r, (okCmd s r).2 = none) ∧
    (∀ fuel, (execute fuel 125 widePoints okCmd ()).result = .running) ∧
    (∀ fuel, (execute fuel 125 widePoints okCmd ()).result ≠ .returned widePoints none) ∧
    (execute 3 125 widePoints okCmd ()).calls =
      [([⟨"P0", 0, 1, false⟩], none), ([], none), ([], none)] := by
  have hrun : ∀ fuel, (execute fuel 125 widePoints okCmd ()).result = .running := by
    intro fuel
    cases fuel with
    | zero => rfl
    | succ fuel =>
      exact executeLoop_stuck 125 widePoints okCmd 1 (by decide) (by decide)
        (fun _ _ => rfl) fuel [([⟨"P0", 0, 1, false⟩], none)] ()
  refine ⟨⟨by decide, by decide, fun _ _ => rfl⟩, hrun, ?_, by decide⟩
  intro fuel h
  rw [hrun fuel] at h
  cases h

/-- Where `execute` does stop at the first failure: for every limit, every
contiguous point list without
overflow each of whose points has quantity at most the limit, and every `cmd`
(with fuel for more iterations than there are points): if `cmd` never fails,
or failed on no call, `execute` returns the whole input list and no error; if
a call of `cmd` fails on some run, it is the last call, the calls before it
did not fail, and `execute` returns that error together with exactly the
points of the runs before it, which with the failed run are a prefix of the
input.  Every recorded call is a call of `cmd` with the error it returned. -/
theorem execute_stops_at_failure {σ ε : Type} (limit : Nat) (pts : List Point)
    (cmd : σ → List Point → σ × Option ε) (s : σ) (fuel : Nat)
    (hc : Points.Contiguous pts) (hno : Points.NoOverflow pts)
    (hlim : ∀ p ∈ pts, p.quantity ≤ limit) (hfuel : pts.length < fuel) :
    ((∀ s r, (cmd s r).2 = none) →
        (execute fuel limit pts cmd s).result = .returned pts none) ∧
    ((∀ c ∈ (execute fuel limit pts cmd s).calls, c.2 = none) →
        (execute fuel limit pts cmd s).result = .returned pts none) ∧
    (∀ pre r e post, (execute fuel limit pts cmd s).calls = pre ++ (r, some e) :: post →
        post = [] ∧ (∀ c ∈ pre, c.2 = none) ∧
        (execute fuel limit pts cmd s).result =
          .returned (pre.map Prod.fst).flatten (some e) ∧
        ((pre.map Prod.fst).flatten ++ r).IsPrefix pts) ∧
    (∀ c ∈ (execute fuel limit pts cmd s).calls, ∃ s1, (cmd s1 c.1).2 = c.2) := by
  obtain ⟨entries, s1, res, heq, hrec, _, ⟨tail, htail⟩, hfin⟩ :=
    executeLoop_spec limit pts cmd hc hno hlim fuel 1 0 [] s (by omega) (by omega)
      (Or.inr ⟨rfl, rfl⟩)
  have hex : execute fuel limit pts cmd s = ⟨entries, s1, res⟩ := by
    unfold execute
    rw [heq, List.nil_append]
  rw [hex]
  simp only
  refine ⟨?_, ?_, ?_, fun c hc1 => (hrec c hc1).2.2⟩
  · intro hcmd
    rcases hfin with ⟨_, _, hres⟩ | ⟨pre, r, e, hent, _, _⟩
    · exact hres
    · exfalso
      obtain ⟨s2, hs2⟩ := (hrec (r, some e) (by rw [hent]; simp)).2.2
      rw [hcmd s2 r] at hs2
      cases hs2
  · intro hnone
    rcases hfin with ⟨_, _, hres⟩ | ⟨pre, r, e, hent, _, _⟩
    · exact hres
    · exfalso
      have := hnone (r, some e) (by rw [hent]; simp)
      cases this
  · intro pre r e post hcalls
    rcases hfin with ⟨hnone, _, _⟩ | ⟨pre1, r1, e1, hent, hnone, hres⟩
    · exfalso
      have := hnone (r, some e) (by rw [hcalls]; simp)
      cases this
    · rw [hent] at hcalls
      obtain ⟨h1, h2, h3, h4⟩ := first_error_unique pre pre1 r r1 e e1 post hcalls.symm hnone
      subst h1 h2 h3 h4
      refine ⟨rfl, hnone, ?_, ?_⟩
      · rw [hres]; simp
      · refine ⟨tail, ?_⟩
        rw [hent] at htail
        simpa using htail

/-- On three single-register points with the limit 2 and a command that fails
on the run starting at address 2, `execute` returns the first two points and
the error. -/
theorem execute_stops_at_failure_witness :
    (Points.Contiguous (unitPoints 3) ∧ Points.NoOverflow (unitPoints 3) ∧
      (∀ p ∈ unitPoints 3, p.quantity ≤ 2) ∧ (unitPoints 3).length < 4 ∧
      (execute 4 2 (unitPoints 3) (failAt 2) ()).calls =
        [] ++ (unitPoints 2, none) :: ((unitPoints 3).drop 2, some (.command 1)) :: []) ∧
    (execute 4 2 (unitPoints 3) (failAt 2) ()).result =
      .returned (unitPoints 2) (some (.command 1)) := by
  have h := (execute_stops_at_failure 2 (unitPoints 3) (failAt 2) () 4 (by decide) (by decide)
    (by decide) (by decide)).2.2.1 [(unitPoints 2, none)] ((unitPoints 3).drop 2) (.command 1) []
    (by decide)
  exact ⟨⟨by decide, by decide, by decide, by decide, by decide⟩, h.2.2.1⟩

/-! ## Theorems: Client.Write -/

theorem collect_ok_length (d : List Group) (idx : List Index) (pts : List Point)
    (h : collect d idx = .ok pts) : pts.length ≠ 0 := by
  unfold collect at h
  cases hm : merge idx with
  | none => rw [hm] at h; cases h
  | some merged =>
    rw [hm] at h
    simp only at h
    cases hcall : collectRanges d merged [] with
    | panic => rw [hcall] at h; cases h
    | err s e => rw [hcall] at h; cases h
    | ok s =>
      rw [hcall] at h
      simp only at h
      split at h
      · cases h
      · rename_i hlen
        cases h
        exact hlen

/-- C10 (what the code does): when `collect` succeeds and none of the collected
points is writable, `Client.Write` calls `cmd` on no run (it issues no write)
and returns the empty list of points with a `nil` error, not the error `no
writable points`: the test `len(pts) == 0` is made on the collected slice,
which is never empty, not on the writable points `pts[:i]`. -/
theorem write_without_writable_points {σ : Type} (d : List Group) (idx : List Index)
    (pts : List Point) (cmd : σ → List Point → σ × Option Err) (s : σ) (fuel : Nat)
    (h : collect d idx = .ok pts) (hw : ∀ p ∈ pts, p.writable = false) :
    (Client.Write (fuel + 1) d idx cmd s).calls = [] ∧
      (Client.Write (fuel + 1) d idx cmd s).result = .returned [] none := by
  have hlen := collect_ok_length d idx pts h
  have hfilter : pts.filter (fun p => p.writable) = [] := by
    rw [List.filter_eq_nil_iff]
    intro p hp
    rw [hw p hp]
    simp
  unfold Client.Write
  rw [h]
  simp only [hlen, if_false, hfilter]
  exact ⟨rfl, rfl⟩

/-- C10, applied to the sample model and the range `(0, 2)`, which selects the
read-only points `ID` and `L`. -/
theorem write_without_writable_points_witness :
    (collect [sampleModel] [⟨0, 2⟩] = .ok [⟨"ID", 0, 1, false⟩, ⟨"L", 1, 1, false⟩] ∧
      ∀ p ∈ [(⟨"ID", 0, 1, false⟩ : Point), ⟨"L", 1, 1, false⟩], p.writable = false) ∧
    (Client.Write 3 [sampleModel] [⟨0, 2⟩] okCmd ()).calls = [] ∧
      (Client.Write 3 [sampleModel] [⟨0, 2⟩] okCmd ()).result = .returned [] none :=
  ⟨⟨by decide, by decide⟩,
    write_without_writable_points [sampleModel] [⟨0, 2⟩]
      [⟨"ID", 0, 1, false⟩, ⟨"L", 1, 1, false⟩] okCmd () 2 (by decide) (by decide)⟩

/-! ## Theorems: encoding of the integer-backed points -/

theorem beBytes_length : ∀ (n v : Nat), (beBytes n v).length = n := by
  intro n
  induction n with
  | zero => intro v; rfl
  | succ n ih => intro v; simp [beBytes, ih]

theorem foldl_beBytes : ∀ (n v acc : Nat),
    (beBytes n v).foldl (fun a b => a * 256 + b) acc = acc * 256 ^ n + v % 256 ^ n := by
  intro n
  induction n with
  | zero => intro v acc; simp [beBytes, Nat.mod_one]
  | succ n ih =>
    intro v acc
    simp only [beBytes, List.foldl_cons, ih]
    have h : v % 256 ^ (n + 1) = v % 256 ^ n + 256 ^ n * (v / 256 ^ n % 256) := by
      rw [pow_succ, Nat.mod_mul]
    rw [h, pow_succ]
    ring

theorem beValue_beBytes (n v : Nat) : beValue (beBytes n v) = v % 256 ^ n := by
  unfold beValue
  rw [foldl_beBytes]
  simp

theorem getUint_putUint (n v : Nat) (buf : List Nat) (hb : n ≤ buf.length) :
    ∃ out, putUint n buf v = some out ∧ out.length = buf.length ∧
      out.take n = beBytes n v ∧ out.drop n = buf.drop n ∧
      getUint n out = some (v % 256 ^ n) ∧ getUint n (out.take n) = some (v % 256 ^ n) := by
  have hlen : (beBytes n v ++ buf.drop n).length = buf.length := by
    rw [List.length_append, beBytes_length, List.length_drop]
    omega
  have htake : (beBytes n v ++ buf.drop n).take n = beBytes n v := by
    rw [List.take_append_of_le_length (by rw [beBytes_length])]
    exact List.take_of_length_le (by rw [beBytes_length])
  refine ⟨beBytes n v ++ buf.drop n, ?_, hlen, htake, ?_, ?_, ?_⟩
  · unfold putUint
    rw [if_neg (by omega)]
  · rw [List.drop_append_of_le_length (by rw [beBytes_length])]
    rw [List.drop_of_length_le (by rw [beBytes_length]), List.nil_append]
  · unfold getUint
    rw [if_neg (by rw [hlen]; omega), htake, beValue_beBytes]
  · unfold getUint
    rw [htake, if_neg (by rw [beBytes_length]; omega),
      List.take_of_length_le (by rw [beBytes_length]), beValue_beBytes]

/-- The conversions `uintN` and `intN` are inverse on the values of a type. -/
theorem decode_value (k : IntKind) (v : Int) (hv : k.InRange v) :
    (if k.signed then toSigned (16 * k.quantity)
          (toUnsigned (16 * k.quantity) v % 256 ^ (2 * k.quantity))
        else ((toUnsigned (16 * k.quantity) v % 256 ^ (2 * k.quantity) : Nat) : Int)) = v := by
  cases k <;>
    simp only [IntKind.InRange, IntKind.signed, IntKind.quantity, if_true, if_false,
      Bool.false_eq_true] at hv ⊢ <;>
    simp only [toSigned, toUnsigned] <;>
    norm_num at hv ⊢ <;>
    omega

/-- C11: for every integer-backed point variant, every value `v` of its type
and every buffer with room for the registers of the point, `encode` writes
exactly `2 * Quantity()` bytes, the big-endian representation of `v`, leaves
the length and the rest of the buffer untouched, and `decode` of those bytes
(alone or followed by the rest of the buffer) makes `Get()` return `v`. -/
theorem int_encode_decode (k : IntKind) (v : Int) (buf : List Nat)
    (hv : k.InRange v) (hb : 2 * k.quantity ≤ buf.length) :
    ∃ out, k.encode v buf = some out ∧ out.length = buf.length ∧
      out.take (2 * k.quantity) =
        beBytes (2 * k.quantity) (toUnsigned (16 * k.quantity) v) ∧
      out.drop (2 * k.quantity) = buf.drop (2 * k.quantity) ∧
      k.decode out = some v ∧ k.decode (out.take (2 * k.quantity)) = some v := by
  obtain ⟨out, hput, hlen, htake, hdrop, hget, hget2⟩ :=
    getUint_putUint (2 * k.quantity) (toUnsigned (16 * k.quantity) v) buf hb
  have hval := decode_value k v hv
  refine ⟨out, hput, hlen, htake, hdrop, ?_, ?_⟩
  · unfold IntKind.decode
    rw [hget]
    simp only
    rw [hval]
  · unfold IntKind.decode
    rw [hget2]
    simp only
    rw [hval]

/-- C11, applied to an `int16` point holding -2 and a buffer of three bytes:
the bytes written are `0xFF 0xFE`. -/
theorem int_encode_decode_witness :
    (IntKind.int16.InRange (-2) ∧ 2 * IntKind.int16.quantity ≤ [1, 2, 3].length) ∧
    ∃ out, IntKind.int16.encode (-2) [1, 2, 3] = some out ∧ out.length = [1, 2, 3].length ∧
      out.take (2 * IntKind.int16.quantity) =
        beBytes (2 * IntKind.int16.quantity) (toUnsigned (16 * IntKind.int16.quantity) (-2)) ∧
      out.drop (2 * IntKind.int16.quantity) = [1, 2, 3].drop (2 * IntKind.int16.quantity) ∧
      IntKind.int16.decode out = some (-2) ∧
      IntKind.int16.decode (out.take (2 * IntKind.int16.quantity)) = some (-2) :=
  ⟨⟨by simp [IntKind.InRange, IntKind.signed, IntKind.quantity], by decide⟩,
    int_encode_decode IntKind.int16 (-2) [1, 2, 3]
      (by simp [IntKind.InRange, IntKind.signed, IntKind.quantity]) (by decide)⟩

/-! ## Theorems: string and sunssf -/

/-- C12 (evaluation at the failing input): a string point of size 4 (capacity
8 bytes) instantiated with the empty value returns the empty string after
`Set("abc")`; in general `Set` never changes the length of what `Get` returns,
which stays the length of the initial value. -/
theorem string_set_keeps_length :
    (TString.ofDef 8 4 []).Quantity = 4 ∧
    ((TString.ofDef 8 4 []).Set [97, 98, 99]).Get = [] ∧
    ((TString.ofDef 8 4 [120, 121]).Set [97, 98, 99]).Get = [97, 98] ∧
    ∀ (t : TString) (v : List Nat), ((t.Set v).Get).length = (t.Get).length := by
  refine ⟨by decide, by decide, by decide, ?_⟩
  intro t v
  simp only [TString.Get, TString.Set, copyBytes, List.length_take, List.length_append,
    List.length_drop]
  omega

/-- C13: for every `sunssf` point and every `int16` value `v`, `set(v)` returns
no error and stores `v` if and only if `-10 <= v <= 10`, otherwise it returns
an error and leaves the stored value unchanged; `decode` of a buffer that
starts with the register holding `v` is `set(v)`. -/
theorem sunssf_set_bounds (data v : Int) :
    (((Sunssf.set data v).2 = false ∧ (Sunssf.set data v).1 = v) ↔ (-10 ≤ v ∧ v ≤ 10)) ∧
    (¬ (-10 ≤ v ∧ v ≤ 10) → (Sunssf.set data v).2 = true ∧ (Sunssf.set data v).1 = data) ∧
    (-(2 : Int) ^ 15 ≤ v ∧ v < (2 : Int) ^ 15 →
      ∀ rest : List Nat,
        Sunssf.decode data (beBytes 2 (toUnsigned 16 v) ++ rest) = some (Sunssf.set data v)) := by
  refine ⟨?_, ?_, ?_⟩
  · unfold Sunssf.set
    constructor
    · intro h
      by_contra hc
      rw [if_pos (by omega)] at h
      simp at h
    · intro h
      rw [if_neg (by omega)]
      exact ⟨rfl, rfl⟩
  · intro h
    unfold Sunssf.set
    rw [if_pos (by omega)]
    exact ⟨rfl, rfl⟩
  · intro hv rest
    have hk : IntKind.int16.InRange v := by
      simp only [IntKind.InRange, IntKind.signed, IntKind.quantity, if_true]
      norm_num
      norm_num at hv
      exact hv
    have hval := decode_value IntKind.int16 v hk
    simp only [IntKind.signed, IntKind.quantity, if_true] at hval
    unfold Sunssf.decode getUint
    rw [if_neg (by rw [List.length_append, beBytes_length]; omega)]
    rw [List.take_append_of_le_length (by rw [beBytes_length]),
      List.take_of_length_le (by rw [beBytes_length]), beValue_beBytes]
    simp only
    norm_num at hval ⊢
    rw [hval]

/-- C13, applied to the value -10 and a buffer that starts with its register
`0xFFF6`: `decode` stores -10 and returns no error. -/
theorem sunssf_set_bounds_witness :
    (-(2 : Int) ^ 15 ≤ -10 ∧ (-10 : Int) < (2 : Int) ^ 15) ∧
    Sunssf.decode 3 (beBytes 2 (toUnsigned 16 (-10)) ++ [7]) = some (Sunssf.set 3 (-10)) ∧
    beBytes 2 (toUnsigned 16 (-10)) = [255, 246] ∧ Sunssf.set 3 (-10) = (-10, false) ∧
    Sunssf.set 3 11 = (3, true) ∧ Sunssf.set 3 (-11) = (3, true) :=
  ⟨by norm_num, (sunssf_set_bounds 3 (-10)).2.2 (by norm_num) [7], by decide, by decide,
    by decide, by decide⟩

/-! ## Theorems: float64 -/

theorem log2Loop_spec : ∀ (fuel n : Nat), n ≤ fuel → 0 < n →
    2 ^ log2Loop fuel n ≤ n ∧ n < 2 ^ (log2Loop fuel n + 1) := by
  intro fuel
  induction fuel with
  | zero => intro n h1 h2; omega
  | succ fuel ih =>
    intro n h1 h2
    simp only [log2Loop]
    split
    · simp only [pow_zero, zero_add, pow_one]
      omega
    · have h3 := ih (n / 2) (by omega) (by omega)
      generalize log2Loop fuel (n / 2) = k at h3 ⊢
      have e1 : 2 ^ (k + 1) = 2 * 2 ^ k := by ring
      have e2 : 2 ^ (k + 1 + 1) = 4 * 2 ^ k := by ring
      rw [e1] at h3
      rw [e1, e2]
      generalize 2 ^ k = P at h3 ⊢
      omega

theorem log2_spec (n : Nat) (h : 0 < n) : 2 ^ log2 n ≤ n ∧ n < 2 ^ (log2 n + 1) :=
  log2Loop_spec n n (Nat.le_refl n) h

/-- The quotient the rounding takes: `n / d / 2 ^ e` as a fraction of naturals. -/
theorem scaled_eq (n d : Nat) (e : Int) (hd : 0 < d) :
    ((n * 2 ^ (-e).toNat : Nat) : ℚ) / ((d * 2 ^ e.toNat : Nat) : ℚ) =
      (n : ℚ) / d * (2 : ℚ) ^ (-e) := by
  have hd0 : (d : ℚ) ≠ 0 := by exact_mod_cast hd.ne'
  rcases le_total 0 e with h | h
  · obtain ⟨k, rfl⟩ := Int.eq_ofNat_of_zero_le h
    simp only [Int.toNat_ofNat, Nat.cast_mul, Nat.cast_pow, Nat.cast_ofNat, zpow_neg, zpow_natCast]
    have : (-(k : Int)).toNat = 0 := by omega
    rw [this]
    field_simp
  · obtain ⟨k, hk⟩ := Int.eq_ofNat_of_zero_le (Int.neg_nonneg_of_nonpos h)
    have h1 : e.toNat = 0 := by omega
    rw [hk, h1]
    simp only [Int.toNat_ofNat, Nat.cast_mul, Nat.cast_pow, Nat.cast_ofNat, zpow_natCast, pow_zero,
      mul_one]
    field_simp

theorem quot_lt_iff (n d : Nat) (e : Int) (K : Nat) (hd : 0 < d) :
    n * 2 ^ (-e).toNat / (d * 2 ^ e.toNat) < K ↔ (n : ℚ) / d * (2 : ℚ) ^ (-e) < K := by
  have hden : 0 < d * 2 ^ e.toNat := Nat.mul_pos hd (pow_pos (by norm_num) _)
  rw [Nat.div_lt_iff_lt_mul hden, ← scaled_eq n d e hd]
  have hden2 : (0 : ℚ) < ((d * 2 ^ e.toNat : Nat) : ℚ) := by exact_mod_cast hden
  rw [div_lt_iff₀ hden2]
  exact_mod_cast Iff.rfl

theorem exponent_spec (n d : Nat) (hn : 0 < n) (hd : 0 < d) :
    -1074 ≤ Float64.exponent n d ∧
    (n : ℚ) / d * (2 : ℚ) ^ (-(Float64.exponent n d)) < 2 ^ 53 ∧
    (Float64.exponent n d = -1074 ∨
      (2 : ℚ) ^ 52 ≤ (n : ℚ) / d * (2 : ℚ) ^ (-(Float64.exponent n d))) := by
  obtain ⟨ha1, ha2⟩ := log2_spec n hn
  obtain ⟨hb1, hb2⟩ := log2_spec d hd
  have hd0 : (0 : ℚ) < d := by exact_mod_cast hd
  have hn0 : (0 : ℚ) < n := by exact_mod_cast hn
  have hx0 : (0 : ℚ) < (n : ℚ) / d := div_pos hn0 hd0
  have two0 : (2 : ℚ) ≠ 0 := two_ne_zero
  have ha1q : (2 : ℚ) ^ (log2 n : Int) ≤ n := by
    rw [zpow_natCast]; exact_mod_cast ha1
  have ha2q : (n : ℚ) < (2 : ℚ) ^ ((log2 n : Int) + 1) := by
    rw [show ((log2 n : Int) + 1) = ((log2 n + 1 : Nat) : Int) by push_cast; rfl, zpow_natCast]
    exact_mod_cast ha2
  have hb1q : (2 : ℚ) ^ (log2 d : Int) ≤ d := by
    rw [zpow_natCast]; exact_mod_cast hb1
  have hb2q : (d : ℚ) < (2 : ℚ) ^ ((log2 d : Int) + 1) := by
    rw [show ((log2 d : Int) + 1) = ((log2 d + 1 : Nat) : Int) by push_cast; rfl, zpow_natCast]
    exact_mod_cast hb2
  obtain ⟨a, ha⟩ : ∃ a : Int, a = (log2 n : Int) := ⟨_, rfl⟩
  obtain ⟨b, hb⟩ : ∃ b : Int, b = (log2 d : Int) := ⟨_, rfl⟩
  rw [← ha] at ha1q ha2q
  rw [← hb] at hb1q hb2q
  -- bounds of the number at the first exponent
  have hpos : ∀ k : Int, (0 : ℚ) < (2 : ℚ) ^ k := fun k => zpow_pos (by norm_num) k
  have hlo : (2 : ℚ) ^ 51 < (n : ℚ) / d * (2 : ℚ) ^ (-(a - b - 52)) := by
    have h1 : (2 : ℚ) ^ a / (2 : ℚ) ^ (b + 1) < (n : ℚ) / d := by
      rw [div_lt_div_iff₀ (hpos _) hd0]
      calc (2 : ℚ) ^ a * d < (2 : ℚ) ^ a * (2 : ℚ) ^ (b + 1) :=
            mul_lt_mul_of_pos_left hb2q (hpos _)
        _ ≤ n * (2 : ℚ) ^ (b + 1) := mul_le_mul_of_nonneg_right ha1q (hpos _).le
    have h2 : (2 : ℚ) ^ 51 = (2 : ℚ) ^ a / (2 : ℚ) ^ (b + 1) * (2 : ℚ) ^ (-(a - b - 52)) := by
      rw [← zpow_sub₀ two0, ← zpow_add₀ two0]
      have : a - (b + 1) + -(a - b - 52) = (51 : Int) := by ring
      rw [this]
      norm_num
    rw [h2]
    exact mul_lt_mul_of_pos_right h1 (hpos _)
  have hhi : (n : ℚ) / d * (2 : ℚ) ^ (-(a - b - 52)) < (2 : ℚ) ^ 53 := by
    have h1 : (n : ℚ) / d < (2 : ℚ) ^ (a + 1) / (2 : ℚ) ^ b := by
      rw [div_lt_div_iff₀ hd0 (hpos _)]
      calc (n : ℚ) * (2 : ℚ) ^ b < (2 : ℚ) ^ (a + 1) * (2 : ℚ) ^ b :=
            mul_lt_mul_of_pos_right ha2q (hpos _)
        _ ≤ (2 : ℚ) ^ (a + 1) * d := mul_le_mul_of_nonneg_left hb1q (hpos _).le
    have h2 : (2 : ℚ) ^ 53 = (2 : ℚ) ^ (a + 1) / (2 : ℚ) ^ b * (2 : ℚ) ^ (-(a - b - 52)) := by
      rw [← zpow_sub₀ two0, ← zpow_add₀ two0]
      have : a + 1 - b + -(a - b - 52) = (53 : Int) := by ring
      rw [this]
      norm_num
    rw [h2]
    exact mul_lt_mul_of_pos_right h1 (hpos _)
  -- the second exponent
  have h2 : ∃ e2 : Int,
      (if n * 2 ^ (-(a - b - 52)).toNat / (d * 2 ^ (a - b - 52).toNat) < 2 ^ 52
        then a - b - 52 - 1 else a - b - 52) = e2 ∧
      (2 : ℚ) ^ 52 ≤ (n : ℚ) / d * (2 : ℚ) ^ (-e2) ∧
      (n : ℚ) / d * (2 : ℚ) ^ (-e2) < 2 ^ 53 := by
    by_cases hq : n * 2 ^ (-(a - b - 52)).toNat / (d * 2 ^ (a - b - 52).toNat) < 2 ^ 52
    · refine ⟨a - b - 52 - 1, by rw [if_pos hq], ?_, ?_⟩
      all_goals
        have hq2 := (quot_lt_iff n d (a - b - 52) (2 ^ 52) hd).1 hq
        have he : (2 : ℚ) ^ (-(a - b - 52 - 1)) = (2 : ℚ) ^ (-(a - b - 52)) * 2 := by
          rw [show -(a - b - 52 - 1) = -(a - b - 52) + 1 by ring, zpow_add₀ two0, zpow_one]
        rw [he, ← mul_assoc]
        push_cast at hq2
        linarith
    · refine ⟨a - b - 52, by rw [if_neg hq], ?_, hhi⟩
      have hq2 := mt (quot_lt_iff n d (a - b - 52) (2 ^ 52) hd).2 hq
      push_cast at hq2
      linarith
  obtain ⟨e2, he2, hlo2, hhi2⟩ := h2
  have hexp : Float64.exponent n d = max e2 (-1074) := by
    simp only [Float64.exponent, ← ha, ← hb, he2]
  rw [hexp]
  rcases le_total e2 (-1074) with h | h
  · rw [max_eq_right h]
    refine ⟨le_refl _, ?_, Or.inl rfl⟩
    have hle : (2 : ℚ) ^ (-(-1074 : Int)) ≤ (2 : ℚ) ^ (-e2) :=
      zpow_le_zpow_right₀ (by norm_num) (by omega)
    calc (n : ℚ) / d * (2 : ℚ) ^ (-(-1074 : Int)) ≤ (n : ℚ) / d * (2 : ℚ) ^ (-e2) :=
          mul_le_mul_of_nonneg_left hle hx0.le
      _ < 2 ^ 53 := hhi2
  · rw [max_eq_left h]
    exact ⟨h, hhi2, Or.inr hlo2⟩

theorem nearest_exact (Q den : Nat) (hden : 0 < den) : Float64.nearest (Q * den) den = Q := by
  simp only [Float64.nearest, Nat.mul_div_cancel _ hden, Nat.mul_mod_left, Nat.mul_zero, hden,
    if_true]

/-- The rounding leaves a number unchanged that a `float64` holds: `M * 2 ^ E`
with `M < 2 ^ 53` and `-1074 ≤ E ≤ 971`. -/
theorem round_exact (s : Bool) (n d M : Nat) (E : Int) (hn : 0 < n) (hd : 0 < d)
    (hM : M < 2 ^ 53) (hE1 : -1074 ≤ E) (hE2 : E ≤ 971)
    (hx : (n : ℚ) / d = (M : ℚ) * (2 : ℚ) ^ E) :
    ∃ m e, Float64.round s n d = .finite s m e ∧ (m : ℚ) * (2 : ℚ) ^ e = (n : ℚ) / d ∧
      0 < m := by
  obtain ⟨h1, h2, h3⟩ := exponent_spec n d hn hd
  have two0 : (2 : ℚ) ≠ 0 := two_ne_zero
  have hd0 : (0 : ℚ) < d := by exact_mod_cast hd
  have hn0 : (0 : ℚ) < n := by exact_mod_cast hn
  have hx0 : (0 : ℚ) < (n : ℚ) / d := div_pos hn0 hd0
  have hpos : ∀ k : Int, (0 : ℚ) < (2 : ℚ) ^ k := fun k => zpow_pos (by norm_num) k
  have hMq : (M : ℚ) < 2 ^ 53 := by exact_mod_cast hM
  obtain ⟨e, he⟩ : ∃ e : Int, e = Float64.exponent n d := ⟨_, rfl⟩
  rw [← he] at h1 h2 h3
  have hscaled : (n : ℚ) / d * (2 : ℚ) ^ (-e) = (M : ℚ) * (2 : ℚ) ^ (E - e) := by
    rw [hx, mul_assoc, ← zpow_add₀ two0, sub_eq_add_neg]
  have heE : e ≤ E := by
    rcases h3 with h3 | h3
    · omega
    · by_contra hcon
      have hle : (2 : ℚ) ^ (E - e) ≤ (2 : ℚ) ^ (-1 : Int) :=
        zpow_le_zpow_right₀ (by norm_num) (by omega)
      rw [hscaled] at h3
      have h4 : (M : ℚ) * (2 : ℚ) ^ (E - e) ≤ (M : ℚ) * (2 : ℚ) ^ (-1 : Int) :=
        mul_le_mul_of_nonneg_left hle (by positivity)
      have h5 : (2 : ℚ) ^ (-1 : Int) = 1 / 2 := by norm_num
      rw [h5] at h4
      linarith
  obtain ⟨k, hk⟩ := Int.eq_ofNat_of_zero_le (sub_nonneg.2 heE)
  have hQ : ((M * 2 ^ k : Nat) : ℚ) = (n : ℚ) / d * (2 : ℚ) ^ (-e) := by
    rw [hscaled, hk]
    push_cast
    rw [zpow_natCast]
  have hden : 0 < d * 2 ^ e.toNat := Nat.mul_pos hd (pow_pos (by norm_num) _)
  have hdenq : (0 : ℚ) < ((d * 2 ^ e.toNat : Nat) : ℚ) := by exact_mod_cast hden
  have hnum : n * 2 ^ (-e).toNat = M * 2 ^ k * (d * 2 ^ e.toNat) := by
    have h := scaled_eq n d e hd
    rw [← hQ, div_eq_iff hdenq.ne'] at h
    exact_mod_cast h
  have hQlt : M * 2 ^ k < 2 ^ 53 := by
    have : ((M * 2 ^ k : Nat) : ℚ) < 2 ^ 53 := by rw [hQ]; exact h2
    exact_mod_cast this
  have hQpos : 0 < M * 2 ^ k := by
    have : (0 : ℚ) < ((M * 2 ^ k : Nat) : ℚ) := by
      rw [hQ]
      exact mul_pos hx0 (hpos _)
    exact_mod_cast this
  refine ⟨M * 2 ^ k, e, ?_, ?_, hQpos⟩
  · have hne : ¬ (971 : Int) < e := by omega
    simp only [Float64.round, hn.ne', if_false, ← he, hnum, nearest_exact _ _ hden, hQlt.ne, hne]
  · rw [hQ, mul_assoc, ← zpow_add₀ two0, neg_add_cancel, zpow_zero, mul_one]

theorem pow_quot (N : Nat) (g : Int) :
    ((N * 2 ^ g.toNat : Nat) : ℚ) / ((2 ^ (-g).toNat : Nat) : ℚ) = (N : ℚ) * (2 : ℚ) ^ g := by
  rcases le_total 0 g with h | h
  · obtain ⟨k, rfl⟩ := Int.eq_ofNat_of_zero_le h
    have : (-(k : Int)).toNat = 0 := by omega
    rw [this]
    simp only [Int.toNat_ofNat, Nat.cast_mul, Nat.cast_pow, Nat.cast_ofNat, zpow_natCast, pow_zero,
      Nat.cast_one, div_one]
  · obtain ⟨k, hk⟩ := Int.eq_ofNat_of_zero_le (Int.neg_nonneg_of_nonpos h)
    have h1 : g.toNat = 0 := by omega
    have h2 : g = -(k : Int) := by omega
    rw [hk, h1, h2]
    simp only [Int.toNat_ofNat, Nat.cast_mul, Nat.cast_pow, Nat.cast_ofNat, zpow_neg, zpow_natCast,
      pow_zero, mul_one]
    rw [div_eq_mul_inv]

/-- The product of two `float64` is exact when a `float64` holds it. -/
theorem mul_exact (s t : Bool) (m k : Nat) (e f : Int) (M : Nat) (E : Int)
    (hm : 0 < m) (hk : 0 < k) (hM : M < 2 ^ 53) (hE1 : -1074 ≤ E) (hE2 : E ≤ 971)
    (hx : (m : ℚ) * (2 : ℚ) ^ e * ((k : ℚ) * (2 : ℚ) ^ f) = (M : ℚ) * (2 : ℚ) ^ E) :
    ∃ m1 e1, (Float64.finite s m e).mul (.finite t k f) = .finite (s != t) m1 e1 ∧
      (m1 : ℚ) * (2 : ℚ) ^ e1 = (m : ℚ) * (2 : ℚ) ^ e * ((k : ℚ) * (2 : ℚ) ^ f) ∧ 0 < m1 := by
  have two0 : (2 : ℚ) ≠ 0 := two_ne_zero
  have hq : ((m * k * 2 ^ (e + f).toNat : Nat) : ℚ) / ((2 ^ (-(e + f)).toNat : Nat) : ℚ) =
      (m : ℚ) * (2 : ℚ) ^ e * ((k : ℚ) * (2 : ℚ) ^ f) := by
    rw [pow_quot, zpow_add₀ two0]
    push_cast
    ring
  obtain ⟨m1, e1, h1, h2, h3⟩ := round_exact (s != t) (m * k * 2 ^ (e + f).toNat)
    (2 ^ (-(e + f)).toNat) M E
    (Nat.mul_pos (Nat.mul_pos hm hk) (pow_pos (by norm_num) _)) (pow_pos (by norm_num) _)
    hM hE1 hE2 (by rw [hq, hx])
  exact ⟨m1, e1, by simp only [Float64.mul, h1], by rw [h2, hq], h3⟩

theorem ofInt_exact (v : Int) (hv0 : v ≠ 0) (hv : v.natAbs < 2 ^ 53) :
    ∃ m e, Float64.ofInt v = .finite (decide (v < 0)) m e ∧
      (m : ℚ) * (2 : ℚ) ^ e = (v.natAbs : ℚ) ∧ 0 < m := by
  obtain ⟨m, e, h1, h2, h3⟩ := round_exact (decide (v < 0)) v.natAbs 1 v.natAbs 0
    (Int.natAbs_pos.2 hv0) (by norm_num) hv (by norm_num) (by norm_num) (by simp)
  exact ⟨m, e, h1, by rw [h2]; simp, h3⟩

theorem lit_exact (k : Nat) (hk : k ≤ 22) :
    ∃ m e, Float64.lit 1 (k : Int) = .finite false m e ∧
      (m : ℚ) * (2 : ℚ) ^ e = (10 : ℚ) ^ k ∧ 0 < m := by
  have h5 : 5 ^ k < 2 ^ 53 :=
    lt_of_le_of_lt (Nat.pow_le_pow_right (by norm_num) hk) (by norm_num)
  have hneg : (-(k : Int)).toNat = 0 := by omega
  obtain ⟨m, e, h1, h2, h3⟩ := round_exact false (1 * 10 ^ k) (10 ^ 0) (5 ^ k) (k : Int)
    (by positivity) (by norm_num) h5 (by omega) (by omega)
    (by
      push_cast
      rw [zpow_natCast, ← mul_pow]
      norm_num)
  refine ⟨m, e, ?_, ?_, h3⟩
  · simp only [Float64.lit, Int.toNat_ofNat, hneg]
    exact h1
  · rw [h2]
    push_cast
    norm_num

theorem pow10_exact (k : Nat) (hk : k ≤ 22) :
    ∃ m e, math.Pow10 (k : Int) = .finite false m e ∧
      (m : ℚ) * (2 : ℚ) ^ e = (10 : ℚ) ^ k ∧ 0 < m := by
  obtain ⟨m0, e0, h1, h2, h3⟩ := lit_exact 0 (by norm_num)
  obtain ⟨m1, e1, g1, g2, g3⟩ := lit_exact k hk
  have h5 : 5 ^ k < 2 ^ 53 :=
    lt_of_le_of_lt (Nat.pow_le_pow_right (by norm_num) hk) (by norm_num)
  obtain ⟨m2, e2, f1, f2, f3⟩ := mul_exact false false m0 m1 e0 e1 (5 ^ k) (k : Int) h3 g3 h5
    (by omega) (by omega)
    (by
      rw [h2, g2]
      push_cast
      rw [zpow_natCast, ← mul_pow]
      norm_num)
  have hc : (0 : Int) ≤ (k : Int) ∧ (k : Int) ≤ 308 := by omega
  have hdiv : k / 32 = 0 := by omega
  have hmod : k % 32 = k := by omega
  refine ⟨m2, e2, ?_, ?_, f3⟩
  · simp only [math.Pow10, hc, and_self, if_true, Int.toNat_ofNat, hdiv, hmod,
      math.pow10postab32, math.pow10tab, Nat.mul_zero]
    rw [h1, g1]
    exact f1
  · rw [f2, h2, g2]
    norm_num

/-- With a factor from 0 to 22 and a product below `2 ^ 53` the `float64`
product of `Value()` is the number `raw * 10 ^ k` itself. -/
theorem value_exact (raw : Int) (k : Nat) (hk : k ≤ 22) (h : raw.natAbs * 10 ^ k < 2 ^ 53) :
    ((Float64.ofInt raw).mul (math.Pow10 (k : Int))).toRat = some ((raw : ℚ) * (10 : ℚ) ^ k) := by
  obtain ⟨m1, e1, g1, g2, g3⟩ := pow10_exact k hk
  by_cases h0 : raw = 0
  · subst h0
    rw [g1]
    simp [Float64.ofInt, Float64.round, Float64.mul, Float64.toRat]
  · have hraw : raw.natAbs < 2 ^ 53 :=
      lt_of_le_of_lt (Nat.le_mul_of_pos_right _ (by positivity)) h
    obtain ⟨m0, e0, h1, h2, h3⟩ := ofInt_exact raw h0 hraw
    obtain ⟨m2, e2, f1, f2, f3⟩ := mul_exact (decide (raw < 0)) false m0 m1 e0 e1
      (raw.natAbs * 10 ^ k) 0 h3 g3 h (by norm_num) (by norm_num)
      (by rw [h2, g2]; push_cast; ring)
    rw [h1, g1, f1]
    simp only [Float64.toRat, Option.some.injEq]
    rw [mul_assoc, f2, h2, g2]
    rcases lt_or_gt_of_ne h0 with hneg | hpos
    · have habs : (raw.natAbs : Int) = -raw := by omega
      have habs2 : (raw.natAbs : ℚ) = -(raw : ℚ) := by
        have h6 := congrArg (Int.cast : Int → ℚ) habs
        rw [Int.cast_natCast, Int.cast_neg] at h6
        exact h6
      simp only [hneg, decide_True, Bool.bne_false, if_true, habs2]
      ring
    · have habs : (raw.natAbs : Int) = raw := by omega
      have habs2 : (raw.natAbs : ℚ) = (raw : ℚ) := by
        have h6 := congrArg (Int.cast : Int → ℚ) habs
        rw [Int.cast_natCast] at h6
        exact h6
      have hn : ¬ raw < 0 := by omega
      simp only [hn, decide_False, Bool.bne_false, if_false, habs2, Bool.false_eq_true]
      ring

/-! ## Theorems: scale -/

/-- C14 (what the code does): for a point instantiated from a definition whose
`sf` is an integer literal `k`, as a `float64` (JSON) or as a Go `int`,
`Factor()` returns 0, whatever `k` is: the type switch of `factor` has a case
for `int16` only. -/
theorem factor_literal_is_zero (grow : Nat → Nat) (d : PointDef) (adr : Nat) (o : GroupIface)
    (p : TPoint) (root : TGroup) (fuel : Nat) (k : Int)
    (hsf : d.sf = .float64 k ∨ d.sf = .int k) (hp : d.Instance grow adr o = some p) :
    p.Factor root fuel = .returned 0 p.scale := by
  unfold PointDef.Instance at hp
  cases hv : Variant.ofTag d.type with
  | none => rw [hv] at hp; cases hp
  | some v =>
    rw [hv] at hp
    simp only [Option.some.injEq] at hp
    subst hp
    unfold TPoint.Factor
    simp only
    split
    · rcases hsf with h | h <;> rw [h] <;> rfl
    · rfl

/-- C14, applied to the point `D` of the sample model, whose `sf` is the
literal -2: `Factor()` returns 0. -/
theorem factor_literal_is_zero_witness :
    ((pointDef "D" "int16" (.float64 5) (.float64 (-2))).sf = .float64 (-2) ∧
      scaleModel.pointAt [] 4 =
        (pointDef "D" "int16" (.float64 5) (.float64 (-2))).Instance id 40006 (some (some []))) ∧
    ∃ p, scaleModel.pointAt [] 4 = some p ∧ p.name = "D" ∧
      p.Factor scaleModel 5 = .returned 0 (.dyn (.float64 (-2))) := by
  refine ⟨⟨rfl, by decide⟩, ?_⟩
  have h := factor_literal_is_zero id (pointDef "D" "int16" (.float64 5) (.float64 (-2)))
    40006 (some (some [])) ⟨"D", false, false, 40006, some (some []), .int16, .int 5,
      .dyn (.float64 (-2)), []⟩ scaleModel 5 (-2) (Or.inl rfl) (by decide)
  exact ⟨_, by decide, rfl, h⟩

theorem findSunssf_first (sf : String) (s : TPoint) (post : List TPoint)
    (hname : s.name = sf) (hs : s.isSunssf = true) :
    ∀ (pre : List TPoint) (i : Nat),
      (∀ q ∈ pre, (decide (q.name = sf) && q.isSunssf) = false) →
      findSunssf sf (pre ++ s :: post) i = some (i + pre.length, s.int) := by
  intro pre
  induction pre with
  | nil =>
    intro i _
    simp [findSunssf, hname, hs]
  | cons q pre ih =>
    intro i hpre
    have hq := hpre q (List.mem_cons_self _ _)
    have h := ih (i + 1) (fun r hr => hpre r (List.mem_cons_of_mem _ hr))
    simp only [List.cons_append, findSunssf, hq, Bool.false_eq_true, if_false]
    show findSunssf sf (pre ++ s :: post) (i + 1) = _
    rw [h]
    simp only [List.length_cons]
    congr 2
    omega

/-- C15 (evaluation at the failing input): in the model
`scaleDef.Instance(40002, nil)` the point `B` lies in the sub-group and its
`sf` names the `sunssf` point `A_SF` (value -2) of the root group; `Factor()`
panics, and so does `Factor()` of the point `C`, whose `sf` names a point that
no group has.  The sub-group, like every group `Instance` builds, has the nil
pointer as `origin`, and `Origin()` returns it as an interface that is not
nil. -/
theorem factor_ancestor_panics :
    ∃ m b c asf sub,
      scaleDef.Instance (ε := Unit) id 40002 none = .ok m ∧
      m.deref [0] = some sub ∧ sub.origin = none ∧
      m.pointAt [0] 0 = some b ∧ b.name = "B" ∧ b.variant = .int16 ∧
      b.scale = .dyn (.str "A_SF") ∧ b.origin = some (some [0]) ∧
      m.pointAt [] 2 = some asf ∧ asf.name = "A_SF" ∧ asf.variant = .sunssf ∧ asf.int = -2 ∧
      m.pointAt [0] 1 = some c ∧ c.scale = .dyn (.str "X_SF") ∧
      (∀ fuel, b.Factor m (fuel + 2) = .panic) ∧
      (∀ fuel, c.Factor m (fuel + 2) = .panic) := by
  refine ⟨scaleModel,
    ⟨"B", false, false, 40007, some (some [0]), .int16, .int 1234, .dyn (.str "A_SF"), []⟩,
    ⟨"C", false, false, 40008, some (some [0]), .int16, .int 1, .dyn (.str "X_SF"), []⟩,
    ⟨"A_SF", false, false, 40004, some (some []), .sunssf, .int (-2), .dyn .null, []⟩,
    (scaleModel.deref [0]).getD scaleModel,
    rfl, rfl, rfl, by decide, rfl, rfl, rfl, rfl, by decide, rfl, rfl, rfl, by decide, rfl,
    ?_, ?_⟩
  · intro fuel
    rfl
  · intro fuel
    rfl

set_option maxRecDepth 100000 in
/-- C16 as stated fails: in the model `tenthsDef.Instance(40002, nil)` the
`int16` point `A` (value 3) is scaled by the `sunssf` point `A_SF` (value -1)
of its group; `Factor()` returns -1, and `Value()` returns the `float64`
`5404319552844596 * 2 ^ -54` (0.30000000000000004, bits 0x3FD3333333333334),
which is not the number `3 * 10 ^ -1`, and not the `float64` nearest to it
either (the constant `0.3`). -/
theorem value_not_scaled_exactly :
    ∃ a asf,
      tenthsDef.Instance (ε := Unit) id 40002 none = .ok tenthsModel ∧
      tenthsModel.pointAt [] 3 = some a ∧ a.name = "A" ∧ a.variant = .int16 ∧ a.int = 3 ∧
      a.scale = .dyn (.str "A_SF") ∧ a.origin = some (some []) ∧
      tenthsModel.pointAt [] 2 = some asf ∧ asf.name = "A_SF" ∧ asf.variant = .sunssf ∧
      asf.int = -1 ∧
      a.Factor tenthsModel 1 = .returned (-1) (.sunssf [] 2) ∧
      a.Value tenthsModel 1 =
        .returned (.finite false 5404319552844596 (-54)) (.sunssf [] 2) ∧
      (Float64.finite false 5404319552844596 (-54)).bits = some 0x3FD3333333333334 ∧
      (Float64.finite false 5404319552844596 (-54)).toRat ≠
        some ((3 : ℚ) * (10 : ℚ) ^ (-1 : Int)) ∧
      Float64.lit 3 (-1) = .finite false 5404319552844595 (-54) ∧
      Float64.finite false 5404319552844596 (-54) ≠ Float64.lit 3 (-1) := by
  refine ⟨⟨"A", false, false, 40005, some (some []), .int16, .int 3, .dyn (.str "A_SF"), []⟩,
    ⟨"A_SF", false, false, 40004, some (some []), .sunssf, .int (-1), .dyn .null, []⟩,
    rfl, by decide, rfl, rfl, rfl, rfl, rfl, by decide, rfl, rfl, rfl, by decide, by decide,
    by decide, ?_, by decide, by decide⟩
  simp only [Float64.toRat, ne_eq, Option.some.injEq]
  norm_num

set_option maxRecDepth 100000 in
/-- C16 (amended): for every scalable point `p` whose `sf` is a string that
names a `sunssf` point `s` of the group of `p` (the first point of that name in
the group whose type has `Get() int16`), the first call of `Factor()` returns
the value of `s` and stores `s` in the scale; every later call, in whatever
state `root2` the model then is, returns the value that the point at the place
of `s` then has.  `Value()` is the `float64` product of `float64(raw)` and
`math.Pow10` of that factor, on the first call and on every later call; it is
the number `raw * 10 ^ Factor()` itself when the factor is from 0 to 22 and
that number is below `2 ^ 53` in absolute value.  In the sample model, with
`A_SF = -2` and `A = 1234`, `Factor()` is -2 and `Value()` is the `float64`
12.34 (the constant `12.34`, bits 0x4028AE147AE147AE). -/
theorem factor_same_group :
    (∀ (root : TGroup) (p s : TPoint) (path : List Nat) (g : TGroup) (sf : String)
        (pre post : List TPoint) (fuel : Nat),
        p.scale = .dyn (.str sf) → p.origin = some (some path) →
        root.deref path = some g → g.points = pre ++ s :: post →
        s.name = sf → s.variant = .sunssf →
        (∀ q ∈ pre, (decide (q.name = sf) && q.isSunssf) = false) →
        p.Factor root (fuel + 1) = .returned s.int (.sunssf path pre.length) ∧
        (∀ (root2 : TGroup) (s2 : TPoint) (fuel2 : Nat),
          root2.pointAt path pre.length = some s2 →
          factor root2 fuel2 (.sunssf path pre.length) p =
            .returned s2.int (.sunssf path pre.length)) ∧
        p.Value root (fuel + 1) =
          .returned ((Float64.ofInt p.int).mul (math.Pow10 s.int)) (.sunssf path pre.length) ∧
        (∀ (root2 : TGroup) (s2 : TPoint) (fuel2 : Nat),
          root2.pointAt path pre.length = some s2 →
          TPoint.Value root2 fuel2 { p with scale := .sunssf path pre.length } =
            .returned ((Float64.ofInt p.int).mul (math.Pow10 s2.int))
              (.sunssf path pre.length)) ∧
        (∀ k : Nat, s.int = (k : Int) → k ≤ 22 → p.int.natAbs * 10 ^ k < 2 ^ 53 →
          ((Float64.ofInt p.int).mul (math.Pow10 s.int)).toRat =
            some ((p.int : ℚ) * (10 : ℚ) ^ k))) ∧
    (∃ a asf,
      scaleModel.pointAt [] 3 = some a ∧ a.name = "A" ∧ a.int = 1234 ∧
      a.scale = .dyn (.str "A_SF") ∧
      scaleModel.pointAt [] 2 = some asf ∧ asf.name = "A_SF" ∧ asf.variant = .sunssf ∧
      asf.int = -2 ∧
      a.Factor scaleModel 1 = .returned (-2) (.sunssf [] 2) ∧
      factor scaleModel 0 (.sunssf [] 2) a = .returned (-2) (.sunssf [] 2) ∧
      a.Value scaleModel 1 = .returned (Float64.lit 1234 (-2)) (.sunssf [] 2) ∧
      Float64.lit 1234 (-2) = .finite false 6946802425218990 (-49) ∧
      (Float64.lit 1234 (-2)).bits = some 0x4028AE147AE147AE) := by
  constructor
  · intro root p s path g sf pre post fuel hscale horigin hg hpts hname hvar hpre
    have hs : s.isSunssf = true := by simp [TPoint.isSunssf, hvar]
    have hfac : p.Factor root (fuel + 1) = .returned s.int (.sunssf path pre.length) := by
      unfold TPoint.Factor factor
      rw [hscale]
      simp only [factorWalk, horigin, hg, hpts]
      rw [findSunssf_first sf s post hname hs pre 0 hpre]
      simp
    have hlater : ∀ (root2 : TGroup) (s2 : TPoint) (fuel2 : Nat),
        root2.pointAt path pre.length = some s2 →
        factor root2 fuel2 (.sunssf path pre.length) p =
          .returned s2.int (.sunssf path pre.length) := by
      intro root2 s2 fuel2 h2
      unfold factor
      simp only [h2]
    refine ⟨hfac, hlater, ?_, ?_, ?_⟩
    · unfold TPoint.Value
      rw [hfac]
    · intro root2 s2 fuel2 h2
      unfold TPoint.Value TPoint.Factor factor
      simp only [h2, TPoint.int]
    · intro k hk hk22 hlt
      rw [hk]
      exact value_exact p.int k hk22 hlt
  · refine ⟨⟨"A", false, false, 40005, some (some []), .int16, .int 1234,
        .dyn (.str "A_SF"), []⟩,
      ⟨"A_SF", false, false, 40004, some (some []), .sunssf, .int (-2), .dyn .null, []⟩,
      by decide, rfl, rfl, rfl, by decide, rfl, rfl, rfl, by decide, by decide, by decide,
      by decide, by decide⟩

set_option maxRecDepth 100000 in
/-- C16 (amended), applied to the point `A` of the sample model and the scale
factor `A_SF` of its group: `Factor()` returns -2 and `Value()` the `float64`
product of 1234 and `math.Pow10(-2)`, which is the `float64` 12.34; and to the
point `A` of the model `hundredsDef.Instance(40002, nil)`, where `A_SF` is 2:
`Value()` is the number 123400. -/
theorem factor_same_group_witness :
    ((⟨"A", false, false, 40005, some (some []), .int16, .int 1234,
        .dyn (.str "A_SF"), []⟩ : TPoint).scale = .dyn (.str "A_SF") ∧
      scaleModel.deref [] = some scaleModel ∧
      hundredsDef.Instance (ε := Unit) id 40002 none = .ok hundredsModel ∧
      hundredsModel.deref [] = some hundredsModel ∧
      hundredsModel.pointAt [] 3 =
        some ⟨"A", false, false, 40005, some (some []), .int16, .int 1234,
          .dyn (.str "A_SF"), []⟩ ∧
      hundredsModel.pointAt [] 2 =
        some ⟨"A_SF", false, false, 40004, some (some []), .sunssf, .int 2, .dyn .null, []⟩) ∧
    (⟨"A", false, false, 40005, some (some []), .int16, .int 1234,
        .dyn (.str "A_SF"), []⟩ : TPoint).Factor scaleModel 1 =
      .returned (-2) (.sunssf [] 2) ∧
    (⟨"A", false, false, 40005, some (some []), .int16, .int 1234,
        .dyn (.str "A_SF"), []⟩ : TPoint).Value scaleModel 1 =
      .returned ((Float64.ofInt 1234).mul (math.Pow10 (-2))) (.sunssf [] 2) ∧
    (Float64.ofInt 1234).mul (math.Pow10 (-2)) = Float64.lit 1234 (-2) ∧
    (⟨"A", false, false, 40005, some (some []), .int16, .int 1234,
        .dyn (.str "A_SF"), []⟩ : TPoint).Value hundredsModel 1 =
      .returned ((Float64.ofInt 1234).mul (math.Pow10 2)) (.sunssf [] 2) ∧
    ((Float64.ofInt 1234).mul (math.Pow10 2)).toRat = some ((1234 : ℚ) * (10 : ℚ) ^ 2) :=
  have h := factor_same_group.1 scaleModel
      ⟨"A", false, false, 40005, some (some []), .int16, .int 1234, .dyn (.str "A_SF"), []⟩
      ⟨"A_SF", false, false, 40004, some (some []), .sunssf, .int (-2), .dyn .null, []⟩
      [] scaleModel "A_SF"
      [⟨"ID", false, false, 40002, some (some []), .uint16, .int 7, .dyn .null, []⟩,
        ⟨"L", false, false, 40003, some (some []), .uint16, .int 5, .dyn .null, []⟩]
      [⟨"A", false, false, 40005, some (some []), .int16, .int 1234, .dyn (.str "A_SF"), []⟩,
        ⟨"D", false, false, 40006, some (some []), .int16, .int 5, .dyn (.float64 (-2)), []⟩]
      0 rfl rfl rfl (by decide) rfl rfl (by decide)
  have g := factor_same_group.1 hundredsModel
      ⟨"A", false, false, 40005, some (some []), .int16, .int 1234, .dyn (.str "A_SF"), []⟩
      ⟨"A_SF", false, false, 40004, some (some []), .sunssf, .int 2, .dyn .null, []⟩
      [] hundredsModel "A_SF"
      [⟨"ID", false, false, 40002, some (some []), .uint16, .int 7, .dyn .null, []⟩,
        ⟨"L", false, false, 40003, some (some []), .uint16, .int 2, .dyn .null, []⟩]
      [⟨"A", false, false, 40005, some (some []), .int16, .int 1234, .dyn (.str "A_SF"), []⟩]
      0 rfl rfl rfl (by decide) rfl rfl (by decide)
  ⟨⟨rfl, rfl, rfl, rfl, by decide, by decide⟩, h.1, h.2.2.1, by decide, g.2.2.1,
    g.2.2.2.2 2 rfl (by decide) (by decide)⟩

/-! ## Theorems: Verify -/

/-- C19 (evaluation at the failing input): the sub-group of
`brokenSubgroupModel` has a name with a blank, and it and its point lie at
the address 7 where the rolling address is 2; the callback of `Verify`
returns an error for it, yet `Verify` returns no error. -/
theorem verify_ignores_subgroup_errors :
    validName "bad name" = false ∧
    verifyGroup (.mk "bad name" false [⟨"X", 7, 1, false⟩] []) 2 = .err 2 .notContinuous ∧
    verifyGroup (.mk "bad name" false [⟨"X", 2, 1, false⟩] []) 2 = .err 2 .invalidName ∧
    Verify brokenSubgroupModel = .valid := by
  decide

/-- C20 (evaluation at the failing input): on a model with a sub-group without
points, and on a model whose root group has no points, `Verify` panics: it
does not return the error `missingPoints`. -/
theorem verify_empty_group_panics :
    Verify emptySubgroupModel = .panic ∧ Verify emptyRootModel = .panic ∧
    ∀ (name : String) (atomic : Bool) (gs : List Group) (adr : Nat),
      verifyGroup (.mk name atomic [] gs) adr = .panic := by
  refine ⟨by decide, by decide, ?_⟩
  intro name atomic gs adr
  rfl

/-! ## Theorems: ModelDef.Instance -/

theorem laid_append : ∀ (xs ys : List Point) (a b c : Nat),
    Laid a xs b → Laid b ys c → Laid a (xs ++ ys) c := by
  intro xs
  induction xs with
  | nil =>
    intro ys a b c h1 h2
    simp only [Laid] at h1
    subst h1
    exact h2
  | cons x xs ih =>
    intro ys a b c h1 h2
    simp only [Laid, List.cons_append] at h1 ⊢
    exact ⟨h1.1, ih ys _ b c h1.2 h2⟩

theorem toGroups_append : ∀ (a b : List TGroup),
    TGroups.toGroups (a ++ b) = TGroups.toGroups a ++ TGroups.toGroups b := by
  intro a
  induction a with
  | nil => intro b; simp [TGroups.toGroups]
  | cons x a ih => intro b; simp [TGroups.toGroups, ih]

theorem groups_flat_append : ∀ (a b : List Group),
    Groups.flat (a ++ b) = Groups.flat a ++ Groups.flat b := by
  intro a
  induction a with
  | nil => intro b; simp [Groups.flat]
  | cons x a ih => intro b; simp [Groups.flat, ih]

theorem pointDef_instance (grow : Nat → Nat) (d : PointDef) (adr : Nat) (o : GroupIface)
    (hrec : (Variant.ofTag d.type).isSome = true) :
    ∃ p, d.Instance grow adr o = some p ∧ p.address = adr ∧ p.name = d.name ∧
      Variant.ofTag d.type = some p.variant := by
  unfold PointDef.Instance
  cases hv : Variant.ofTag d.type with
  | none => rw [hv] at hrec; cases hrec
  | some v => exact ⟨_, rfl, rfl, rfl, rfl⟩

theorem instPoint_spec (grow : Nat → Nat) (d : PointDef) (o : GroupIface)
    (hrec : (Variant.ofTag d.type).isSome = true) :
    ∀ (c : Nat) (pts : List TPoint) (adr : Nat),
      ∃ pts1 adr1, instPoint grow d o c pts adr = some (pts ++ pts1, adr1) ∧
        Laid adr (pts1.map TPoint.toPoint) adr1 ∧ pts1.length = c ∧
        ∀ p ∈ pts1, p.name = d.name ∧ Variant.ofTag d.type = some p.variant := by
  intro c
  induction c with
  | zero =>
    intro pts adr
    exact ⟨[], adr, by simp [instPoint], by simp [Laid], rfl, by simp⟩
  | succ c ih =>
    intro pts adr
    obtain ⟨p, hp, hadr, hname, hvar⟩ := pointDef_instance grow d adr o hrec
    obtain ⟨pts1, adr1, hinst, hlaid, hlen, hall⟩ :=
      ih (pts ++ [p]) ((p.address + p.quantity) % u16)
    refine ⟨p :: pts1, adr1, ?_, ?_, by simp [hlen], ?_⟩
    · simp only [instPoint, hp, hinst, List.append_assoc, List.singleton_append]
    · simp only [List.map_cons, Laid, TPoint.toPoint]
      rw [hadr] at hlaid
      exact ⟨hadr, hlaid⟩
    · intro q hq
      rcases List.mem_cons.1 hq with h | h
      · subst h; exact ⟨hname, hvar⟩
      · exact hall q h

theorem count_of_literal (pts : List TPoint) (c : Dyn) (n : Nat)
    (h : literalCount c = some n) : count pts c = n := by
  cases c <;> simp [literalCount, count] at h ⊢ <;> exact h

theorem instPoints_spec (grow : Nat → Nat) (root : Option (List TPoint)) (o : GroupIface) :
    ∀ (defs : List PointDef) (pts : List TPoint) (adr : Nat),
      defs.all (fun pd => (Variant.ofTag pd.type).isSome) = true →
      ∃ pts1 adr1, instPoints grow root o defs pts adr = some (pts ++ pts1, adr1) ∧
        Laid adr (pts1.map TPoint.toPoint) adr1 ∧
        (∀ p ∈ pts1, ∃ d ∈ defs, p.name = d.name ∧ Variant.ofTag d.type = some p.variant) ∧
        (∀ d ∈ defs, ∀ n, literalCount d.count = some (n + 1) →
          ∃ p ∈ pts1, p.name = d.name) := by
  intro defs
  induction defs with
  | nil =>
    intro pts adr _
    exact ⟨[], adr, by simp [instPoints], by simp [Laid], by simp, by simp⟩
  | cons d ds ih =>
    intro pts adr hrec
    simp only [List.all_cons, Bool.and_eq_true] at hrec
    obtain ⟨ptsA, adrA, hA, hlaidA, hlenA, hallA⟩ :=
      instPoint_spec grow d o hrec.1 (count (root.getD pts) d.count) pts adr
    obtain ⟨ptsB, adrB, hB, hlaidB, hallB, hexB⟩ := ih (pts ++ ptsA) adrA hrec.2
    refine ⟨ptsA ++ ptsB, adrB, ?_, ?_, ?_, ?_⟩
    · simp only [instPoints, hA, hB, List.append_assoc]
    · rw [List.map_append]
      exact laid_append _ _ _ _ _ hlaidA hlaidB
    · intro p hp
      rcases List.mem_append.1 hp with h | h
      · exact ⟨d, List.mem_cons_self _ _, hallA p h⟩
      · obtain ⟨d1, hd1, h1⟩ := hallB p h
        exact ⟨d1, List.mem_cons_of_mem _ hd1, h1⟩
    · intro d1 hd1 n hn
      rcases List.mem_cons.1 hd1 with h | h
      · subst h
        rw [count_of_literal _ _ _ hn] at hlenA
        cases ptsA with
        | nil => simp at hlenA
        | cons q qs =>
          exact ⟨q, by simp, (hallA q (List.mem_cons_self _ _)).1⟩
      · obtain ⟨q, hq, hqn⟩ := hexB d1 h n hn
        exact ⟨q, List.mem_append_right _ hq, hqn⟩

theorem instRepeat_spec {ε : Type} (step : List Nat → Nat → Result ε (TGroup × Nat))
    (path : List Nat)
    (hstep : ∀ p a, ∃ x a1, step p a = .ok (x, a1) ∧ Laid a (Group.flat x.toGroup) a1) :
    ∀ (c : Nat) (gs : List TGroup) (adr : Nat),
      ∃ gs1 adr1, instRepeat step path c gs adr = .ok (gs ++ gs1, adr1) ∧
        Laid adr (Groups.flat (TGroups.toGroups gs1)) adr1 := by
  intro c
  induction c with
  | zero =>
    intro gs adr
    exact ⟨[], adr, by simp [instRepeat], by simp [TGroups.toGroups, Groups.flat, Laid]⟩
  | succ c ih =>
    intro gs adr
    obtain ⟨x, a1, hx, hlaidx⟩ := hstep (path ++ [gs.length]) adr
    obtain ⟨gs1, adr1, hrep, hlaid⟩ := ih (gs ++ [x]) a1
    refine ⟨x :: gs1, adr1, ?_, ?_⟩
    · simp only [instRepeat, hx, hrep, List.append_assoc, List.singleton_append]
    · simp only [TGroups.toGroups, Groups.flat]
      exact laid_append _ _ _ _ _ hlaidx hlaid

mutual
theorem instGroup_spec {ε : Type} (grow : Nat → Nat) :
    ∀ (d : GroupDef) (path : List Nat) (root : Option (List TPoint)) (adr : Nat),
      d.recognised = true →
      ∃ g adr2, instGroup (ε := ε) grow none d path root adr = .ok (g, adr2) ∧
        Laid adr (Group.flat g.toGroup) adr2
  | .mk name atomic c pdefs gdefs, path, root, adr, hrec => by
    simp only [GroupDef.recognised, Bool.and_eq_true] at hrec
    obtain ⟨pts, adr1, hpts, hlaid1, _, _⟩ :=
      instPoints_spec grow root (some (some path)) pdefs [] adr hrec.1
    obtain ⟨gs, adr2, hgs, hlaid2⟩ :=
      instGroups_spec (ε := ε) grow gdefs path (root.getD pts) [] adr1 hrec.2
    rw [List.nil_append] at hpts hgs
    refine ⟨.mk name atomic none pts gs, adr2, ?_, ?_⟩
    · simp only [instGroup, hpts, runCallback, hgs]
    · simp only [TGroup.toGroup, Group.flat]
      exact laid_append _ _ _ _ _ hlaid1 hlaid2
theorem instGroups_spec {ε : Type} (grow : Nat → Nat) :
    ∀ (ds : List GroupDef) (path : List Nat) (root : List TPoint) (gs : List TGroup)
      (adr : Nat),
      GroupDefs.recognised ds = true →
      ∃ gs1 adr2, instGroups (ε := ε) grow none ds path root gs adr = .ok (gs ++ gs1, adr2) ∧
        Laid adr (Groups.flat (TGroups.toGroups gs1)) adr2
  | [], path, root, gs, adr, _ => by
    exact ⟨[], adr, by simp [instGroups], by simp [TGroups.toGroups, Groups.flat, Laid]⟩
  | d :: ds, path, root, gs, adr, hrec => by
    simp only [GroupDefs.recognised, Bool.and_eq_true] at hrec
    obtain ⟨gsA, adrA, hA, hlaidA⟩ :=
      instRepeat_spec (fun p a => instGroup (ε := ε) grow none d p (some root) a) path
        (fun p a => instGroup_spec grow d p (some root) a hrec.1)
        (count root d.count) gs adr
    obtain ⟨gsB, adrB, hB, hlaidB⟩ :=
      instGroups_spec (ε := ε) grow ds path root (gs ++ gsA) adrA hrec.2
    refine ⟨gsA ++ gsB, adrB, ?_, ?_⟩
    · simp only [instGroups, hA, hB, List.append_assoc]
    · rw [toGroups_append, groups_flat_append]
      exact laid_append _ _ _ _ _ hlaidA hlaidB
end

theorem toUnsigned_natCast (n : Nat) : toUnsigned 16 (n : Int) = n % 65536 := by
  unfold toUnsigned
  norm_num
  omega

theorem setUint16_spec (name : String) (v : Nat) :
    ∀ (pts : List TPoint), (∃ p ∈ pts, p.name = name) →
      (∀ p ∈ pts, p.name = name → p.variant = .uint16) →
      ∃ pts1, setUint16 name v pts = some pts1 ∧
        pts1.map TPoint.toPoint = pts.map TPoint.toPoint ∧
        (∃ q, pts1.find? (fun p => p.name = name) = some q ∧ q.variant = .uint16 ∧
          q.int = (v : Int)) ∧
        (∀ n1, n1 ≠ name →
          pts1.find? (fun p => p.name = n1) = pts.find? (fun p => p.name = n1)) ∧
        (∀ q ∈ pts1, ∃ p ∈ pts, q.name = p.name ∧ q.variant = p.variant) := by
  intro pts
  induction pts with
  | nil =>
    intro hex _
    obtain ⟨p, hp, _⟩ := hex
    cases hp
  | cons p ps ih =>
    intro hex hall
    by_cases hn : p.name = name
    · have hv := hall p (List.mem_cons_self _ _) hn
      refine ⟨{ p with data := .int (v : Int) } :: ps, ?_, ?_, ?_, ?_, ?_⟩
      · simp only [setUint16, hn, hv, if_true]
      · simp only [List.map_cons, List.cons.injEq, and_true]
        simp only [TPoint.toPoint, TPoint.quantity, hv]
      · refine ⟨{ p with data := .int (v : Int) }, ?_, hv, rfl⟩
        simp only [List.find?_cons, hn, decide_True]
      · intro n1 hn1
        have h1 : ¬ p.name = n1 := by
          intro h
          exact hn1 (by rw [← h, hn])
        simp only [List.find?_cons, h1, decide_False]
      · intro q hq
        rcases List.mem_cons.1 hq with h | h
        · subst h
          exact ⟨p, List.mem_cons_self _ _, rfl, rfl⟩
        · exact ⟨q, List.mem_cons_of_mem _ h, rfl, rfl⟩
    · have hex2 : ∃ q ∈ ps, q.name = name := by
        obtain ⟨q, hq, hqn⟩ := hex
        rcases List.mem_cons.1 hq with h | h
        · subst h
          exact absurd hqn hn
        · exact ⟨q, h, hqn⟩
      obtain ⟨ps1, hset, hmap, ⟨q, hq1, hq2, hq3⟩, hother, hvars⟩ :=
        ih hex2 (fun q hq => hall q (List.mem_cons_of_mem _ hq))
      refine ⟨p :: ps1, ?_, ?_, ?_, ?_, ?_⟩
      · simp only [setUint16, hn, if_false, hset]
      · simp only [List.map_cons, hmap]
      · refine ⟨q, ?_, hq2, hq3⟩
        simp only [List.find?_cons, hn, decide_False]
        exact hq1
      · intro n1 hn1
        simp only [List.find?_cons]
        rw [hother n1 hn1]
      · intro r hr
        rcases List.mem_cons.1 hr with h | h
        · subst h
          exact ⟨r, List.mem_cons_self _ _, rfl, rfl⟩
        · obtain ⟨r1, hr1, h1⟩ := hvars r h
          exact ⟨r1, List.mem_cons_of_mem _ hr1, h1⟩

theorem mem_of_map_toPoint {pts pts1 : List TPoint}
    (hmap : pts1.map TPoint.toPoint = pts.map TPoint.toPoint) :
    ∀ p ∈ pts, ∃ q ∈ pts1, q.name = p.name := by
  intro p hp
  have h : p.toPoint ∈ pts1.map TPoint.toPoint := by
    rw [hmap]
    exact List.mem_map_of_mem _ hp
  obtain ⟨q, hq, hqp⟩ := List.mem_map.1 h
  exact ⟨q, hq, congrArg Point.name hqp⟩

/-- What `ModelDef.Instance` returns, with a `nil` callback, for a definition
with recognised types whose root group has `uint16` points `ID` and `L`. -/
theorem instance_core {ε : Type} (grow : Nat → Nat) (d : ModelDef) (adr : Nat)
    (name : String) (atomic : Bool) (c : Dyn) (pdefs : List PointDef) (gdefs : List GroupDef)
    (hd : d.group = .mk name atomic c pdefs gdefs)
    (hrec : d.group.recognised = true)
    (hid : HasUint16 "ID" d.group) (hl : HasUint16 "L" d.group) :
    ∃ pts gs pts2 adr1 adr2,
      d.Instance (ε := ε) grow adr none = .ok (.mk name atomic none pts2 gs) ∧
      pts2.map TPoint.toPoint = pts.map TPoint.toPoint ∧
      Laid adr (pts.map TPoint.toPoint) adr1 ∧
      Laid adr1 (Groups.flat (TGroups.toGroups gs)) adr2 ∧
      (∀ p ∈ pts, ∃ pd ∈ pdefs, p.name = pd.name) ∧
      pts ≠ [] ∧
      TGroup.id (.mk name atomic none pts2 gs) = some (toUnsigned 16 (d.id : Int)) ∧
      TGroup.length (.mk name atomic none pts2 gs) =
        some (toUnsigned 16 ((sub16 (TGroup.mk name atomic none pts2 gs).quantity 2 : Nat) : Int)) := by
  rw [hd] at hrec hid hl
  simp only [GroupDef.recognised, Bool.and_eq_true] at hrec
  obtain ⟨⟨pdI, hpdI, hnI, nI, hcI⟩, hallI⟩ := hid
  obtain ⟨⟨pdL, hpdL, hnL, nL, hcL⟩, hallL⟩ := hl
  simp only [GroupDef.points] at hpdI hallI hpdL hallL
  obtain ⟨pts, adr1, hpts, hlaid1, hfrom, hex⟩ :=
    instPoints_spec grow none (some (some [])) pdefs [] adr hrec.1
  obtain ⟨gs, adr2, hgs, hlaid2⟩ :=
    instGroups_spec (ε := ε) grow gdefs [] pts [] adr1 hrec.2
  rw [List.nil_append] at hpts hgs
  have huint : ∀ (n : String) (hall : ∀ pd ∈ pdefs, pd.name = n → pd.type = "uint16"),
      ∀ p ∈ pts, p.name = n → p.variant = .uint16 := by
    intro n hall p hp hpn
    obtain ⟨pd, hpd, h1, h2⟩ := hfrom p hp
    have ht := hall pd hpd (by rw [← h1, hpn])
    rw [ht] at h2
    have h3 : Variant.ofTag "uint16" = some Variant.uint16 := by decide
    rw [h3] at h2
    exact (Option.some.inj h2).symm
  obtain ⟨pI, hpI, hpIn⟩ := hex pdI hpdI nI hcI
  obtain ⟨pL, hpL, hpLn⟩ := hex pdL hpdL nL hcL
  obtain ⟨pts1, hset1, hmap1, ⟨q1, hq1, hq1v, hq1i⟩, hother1, hvars1⟩ :=
    setUint16_spec "ID" d.id pts ⟨pI, hpI, by rw [hpIn, hnI]⟩ (huint "ID" hallI)
  have hexL : ∃ p ∈ pts1, p.name = "L" := by
    obtain ⟨q, hq, hqn⟩ := mem_of_map_toPoint hmap1 pL hpL
    exact ⟨q, hq, by rw [hqn, hpLn, hnL]⟩
  have hallL1 : ∀ p ∈ pts1, p.name = "L" → p.variant = .uint16 := by
    intro p hp hpn
    obtain ⟨p0, hp0, h1, h2⟩ := hvars1 p hp
    rw [h2]
    exact huint "L" hallL p0 hp0 (by rw [← h1, hpn])
  obtain ⟨pts2, hset2, hmap2, ⟨q2, hq2, hq2v, hq2i⟩, hother2, _⟩ :=
    setUint16_spec "L" (sub16 (TGroup.mk name atomic none pts1 gs).quantity 2) pts1
      hexL hallL1
  have hquant : (TGroup.mk name atomic none pts2 gs).quantity =
      (TGroup.mk name atomic none pts1 gs).quantity := by
    simp only [TGroup.quantity, TGroup.toGroup, hmap2]
  refine ⟨pts, gs, pts2, adr1, adr2, ?_, by rw [hmap2, hmap1], hlaid1, hlaid2, ?_, ?_, ?_, ?_⟩
  · unfold ModelDef.Instance
    rw [hd]
    simp only [instGroup, hpts, runCallback, Option.getD_none, hgs, hset1, hset2]
  · intro p hp
    obtain ⟨pd, hpd, h1, _⟩ := hfrom p hp
    exact ⟨pd, hpd, h1⟩
  · intro h
    rw [h] at hpI
    cases hpI
  · have hfind : pts2.find? (fun p => p.name = "ID") = some q1 := by
      rw [hother2 "ID" (by decide)]
      exact hq1
    simp only [TGroup.id, TGroup.points, hfind, hq1v, if_true, hq1i]
  · simp only [TGroup.length, TGroup.points, hq2, hq2v, if_true, hq2i, hquant]

theorem verifyPoints_laid : ∀ (ps : List Point) (a b : Nat),
    Laid a ps b → (∀ p ∈ ps, validName p.name = true) → verifyPoints ps a = .ok b := by
  intro ps
  induction ps with
  | nil =>
    intro a b h _
    simp only [Laid] at h
    subst h
    rfl
  | cons p ps ih =>
    intro a b h hn
    simp only [Laid] at h
    have hp := hn p (List.mem_cons_self _ _)
    simp only [verifyPoints, h.1, ne_eq, not_true_eq_false, if_false, hp, Bool.not_true,
      Bool.false_eq_true]
    exact ih _ b h.2 (fun q hq => hn q (List.mem_cons_of_mem _ hq))

theorem verifyPoints_no_panic : ∀ (ps : List Point) (a : Nat), verifyPoints ps a ≠ .panic := by
  intro ps
  induction ps with
  | nil => intro a h; cases h
  | cons p ps ih =>
    intro a
    simp only [verifyPoints]
    split
    · intro h; cases h
    · split
      · intro h; cases h
      · exact ih _

theorem verifyGroup_no_panic (g : Group) (adr : Nat) (hne : g.points ≠ []) :
    verifyGroup g adr ≠ .panic := by
  unfold verifyGroup Group.address
  cases hps : g.points with
  | nil => exact absurd hps hne
  | cons p ps =>
    simp only [Points.address]
    split
    · intro h; cases h
    · split
      · intro h; cases h
      · split
        · intro h; cases h
        · exact verifyPoints_no_panic _ _

theorem iterateGroups_not_err {σ ε : Type} (callback : Group → σ → Flow σ ε) :
    ∀ (gs : List Group) (s s1 : σ) (e : ε), iterateGroups callback gs s ≠ .err s1 e := by
  intro gs
  induction gs with
  | nil =>
    intro s s1 e h
    simp only [iterateGroups] at h
    cases h
  | cons g gs ih =>
    intro s s1 e
    simp only [iterateGroups]
    split
    · intro h; cases h
    · exact ih _ _ _
    · exact ih _ _ _

mutual
theorem verify_iterate_no_panic :
    ∀ (g : Group) (adr : Nat), (∀ g1 ∈ Group.subtree g, g1.points ≠ []) →
      iterate verifyGroup g adr ≠ .panic
  | .mk n a ps gs, adr, h => by
    have hroot := h (.mk n a ps gs) (by simp [Group.subtree])
    have hcb := verifyGroup_no_panic (.mk n a ps gs) adr hroot
    simp only [iterate]
    cases hcall : verifyGroup (.mk n a ps gs) adr with
    | panic => exact absurd hcall hcb
    | err s1 e => intro h1; cases h1
    | ok s1 =>
      exact verify_iterateGroups_no_panic gs s1
        (fun g1 hg1 => h g1 (by simp [Group.subtree, hg1]))
theorem verify_iterateGroups_no_panic :
    ∀ (gs : List Group) (adr : Nat), (∀ g1 ∈ Groups.subtree gs, g1.points ≠ []) →
      iterateGroups verifyGroup gs adr ≠ .panic
  | [], adr, _ => by
    simp only [iterateGroups]
    intro h; cases h
  | g :: gs, adr, h => by
    have hg := verify_iterate_no_panic g adr
      (fun g1 hg1 => h g1 (by simp [Groups.subtree, hg1]))
    have hgs : ∀ adr1, iterateGroups verifyGroup gs adr1 ≠ .panic := fun adr1 =>
      verify_iterateGroups_no_panic gs adr1
        (fun g1 hg1 => h g1 (by simp [Groups.subtree, hg1]))
    simp only [iterateGroups]
    cases hcall : iterate verifyGroup g adr with
    | panic => exact absurd hcall hg
    | err s1 e => exact hgs s1
    | ok s1 => exact hgs s1
end

theorem setUint16_toPoint (name : String) (v : Nat) :
    ∀ (pts pts1 : List TPoint), setUint16 name v pts = some pts1 →
      pts1.map TPoint.toPoint = pts.map TPoint.toPoint := by
  intro pts
  induction pts with
  | nil =>
    intro pts1 h
    simp only [setUint16] at h
    cases h
  | cons p ps ih =>
    intro pts1 h
    simp only [setUint16] at h
    split at h
    · split at h
      · rename_i hv
        cases h
        simp only [List.map_cons, List.cons.injEq, and_true]
        simp only [TPoint.toPoint, TPoint.quantity, hv]
      · cases h
    · cases hrest : setUint16 name v ps with
      | none => rw [hrest] at h; cases h
      | some ps1 =>
        rw [hrest] at h
        cases h
        simp only [List.map_cons, ih ps1 hrest]

/-- C17: for every model definition with recognised point types (with literal
counts or not), every start address `adr` and a `nil` callback: in every model
that `Instance` returns, the list of the points in pre-order starts at the
address `adr` and every following point has the address of the previous point
plus its quantity, modulo `2 ^ 16`.  `Instance` returns no error; it returns a
model when the root group has `uint16` points named `ID` and `L` (it panics in
`m.ID().Set` or `m.Length().Set` when it does not return one). -/
theorem instance_layout {ε : Type} (grow : Nat → Nat) (d : ModelDef) (adr : Nat)
    (hrec : d.group.recognised = true) :
    (∀ m, d.Instance (ε := ε) grow adr none = .ok m →
        ∃ b, Laid adr (Group.flat m.toGroup) b) ∧
    (∀ e, d.Instance (ε := ε) grow adr none ≠ .error e) ∧
    (HasUint16 "ID" d.group → HasUint16 "L" d.group →
        ∃ m, d.Instance (ε := ε) grow adr none = .ok m) := by
  obtain ⟨g, adr2, hg, hlaid⟩ := instGroup_spec (ε := ε) grow d.group [] none adr hrec
  refine ⟨?_, ?_, ?_⟩
  · intro m hm
    unfold ModelDef.Instance at hm
    rw [hg] at hm
    cases g with
    | mk name atomic origin pts gs =>
      simp only at hm
      cases h1 : setUint16 "ID" d.id pts with
      | none => rw [h1] at hm; cases hm
      | some pts1 =>
        rw [h1] at hm
        simp only at hm
        cases h2 : setUint16 "L" (sub16 (TGroup.mk name atomic origin pts1 gs).quantity 2) pts1 with
        | none => rw [h2] at hm; cases hm
        | some pts2 =>
          rw [h2] at hm
          cases hm
          refine ⟨adr2, ?_⟩
          simp only [TGroup.toGroup, Group.flat] at hlaid ⊢
          rw [setUint16_toPoint _ _ _ _ h2, setUint16_toPoint _ _ _ _ h1]
          exact hlaid
  · intro e he
    unfold ModelDef.Instance at he
    rw [hg] at he
    cases g with
    | mk name atomic origin pts gs =>
      simp only at he
      cases h1 : setUint16 "ID" d.id pts with
      | none => rw [h1] at he; cases he
      | some pts1 =>
        rw [h1] at he
        simp only at he
        cases h2 : setUint16 "L" (sub16 (TGroup.mk name atomic origin pts1 gs).quantity 2) pts1 with
        | none => rw [h2] at he; cases he
        | some pts2 => rw [h2] at he; cases he
  · intro hid hl
    cases hd : d.group with
    | mk name atomic c pdefs gdefs =>
      obtain ⟨pts, gs, pts2, adr1, adr3, hinst, _⟩ :=
        instance_core (ε := ε) grow d adr name atomic c pdefs gdefs hd hrec hid hl
      exact ⟨_, hinst⟩

/-- C17, applied to the sample definition at the address 40002: `Instance`
returns the sample model; the five points of its root group lie at the
addresses 40002 to 40006, the two points of its sub-group at 40007 and 40008. -/
theorem instance_layout_witness :
    scaleDef.group.recognised = true ∧
    scaleDef.Instance (ε := Unit) id 40002 none = .ok scaleModel ∧
    (Group.flat scaleModel.toGroup).map Point.address =
      [40002, 40003, 40004, 40005, 40006, 40007, 40008] ∧
    ∃ b, Laid 40002 (Group.flat scaleModel.toGroup) b :=
  ⟨by decide, rfl, by decide,
    (instance_layout (ε := Unit) id scaleDef 40002 (by decide)).1 scaleModel rfl⟩

/-- C18 as stated fails: the definition `namelessDef` has `uint16` points `ID`
and `L` in its root group, names that consist only of letters, digits and
underscores (the name of the root group is empty), recognised types and
literal counts, and its only group has points; `Instance(0, nil)` returns a
model, on which `Verify` returns the error of an invalid name. -/
theorem verify_rejects_empty_name :
    (HasUint16 "ID" namelessDef.group ∧ HasUint16 "L" namelessDef.group ∧
      nameChars namelessDef.group.name = true ∧
      (∀ pd ∈ namelessDef.group.points, nameChars pd.name = true) ∧
      namelessDef.group.groups = [] ∧
      namelessDef.group.recognised = true ∧ namelessDef.group.literalCounts = true) ∧
    ∃ m, namelessDef.Instance (ε := Unit) id 0 none = .ok m ∧
      (∀ g ∈ Group.subtree m.toGroup, g.points ≠ []) ∧
      Verify m = .error .invalidName := by
  refine ⟨⟨?_, ?_, by decide, by decide, rfl, by decide, by decide⟩, ?_⟩
  · exact ⟨⟨pointDef "ID" "uint16" .null .null, by simp [namelessDef, GroupDef.points],
      rfl, 0, rfl⟩, by decide⟩
  · exact ⟨⟨pointDef "L" "uint16" .null .null, by simp [namelessDef, GroupDef.points],
      rfl, 0, rfl⟩, by decide⟩
  · exact ⟨(namelessDef.Instance (ε := Unit) id 0 none).model, rfl, by decide, by decide⟩

/-- C18 (amended): for every model definition whose root group has `uint16`
points named `ID` and `L`, whose identifier is a `uint16`, whose root group
and its points have names of one or more ASCII letters, digits and
underscores, and whose point types are recognised, `Instance(adr, nil)`
returns a model `m` with `m.ID = def.Id` and `m.L + 2 = m.Quantity()` (in
`uint16` arithmetic); and when every group of `m` has at least one point,
`Verify(m)` returns no error. -/
theorem instance_verifies {ε : Type} (grow : Nat → Nat) (d : ModelDef) (adr : Nat)
    (hrec : d.group.recognised = true)
    (hid : HasUint16 "ID" d.group) (hl : HasUint16 "L" d.group)
    (hidr : d.id < u16)
    (hname : validName d.group.name = true)
    (hpnames : ∀ pd ∈ d.group.points, validName pd.name = true) :
    ∃ m l, d.Instance (ε := ε) grow adr none = .ok m ∧ m.id = some d.id ∧
      m.length = some l ∧ (l + 2) % u16 = m.quantity ∧
      ((∀ g ∈ Group.subtree m.toGroup, g.points ≠ []) → Verify m = .valid) := by
  cases hd : d.group with
  | mk name atomic c pdefs gdefs =>
    obtain ⟨pts, gs, pts2, adr1, adr2, hinst, hmap, hlaid1, hlaid2, hfrom, hne, hmid, hlen⟩ :=
      instance_core (ε := ε) grow d adr name atomic c pdefs gdefs hd hrec hid hl
    rw [hd] at hname hpnames
    simp only [GroupDef.name, GroupDef.points] at hname hpnames
    have hq : (TGroup.mk name atomic none pts2 gs).quantity < 65536 := by
      simp only [TGroup.quantity, TGroup.toGroup, Group.quantity, u16]
      exact Nat.mod_lt _ (by norm_num)
    have hl16 : toUnsigned 16 ((sub16 (TGroup.mk name atomic none pts2 gs).quantity 2 : Nat) : Int)
        = sub16 (TGroup.mk name atomic none pts2 gs).quantity 2 := by
      rw [toUnsigned_natCast]
      unfold sub16 u16
      omega
    have hsum : (sub16 (TGroup.mk name atomic none pts2 gs).quantity 2 + 2) % u16 =
        (TGroup.mk name atomic none pts2 gs).quantity := by
      unfold sub16 u16
      omega
    refine ⟨_, sub16 (TGroup.mk name atomic none pts2 gs).quantity 2, hinst, ?_, ?_, hsum, ?_⟩
    · rw [hmid, toUnsigned_natCast]
      unfold u16 at hidr
      rw [Nat.mod_eq_of_lt hidr]
    · rw [hlen, hl16]
    · intro hgroups
      have hvalid : ∀ p ∈ pts.map TPoint.toPoint, validName p.name = true := by
        intro p hp
        obtain ⟨q, hq1, hq2⟩ := List.mem_map.1 hp
        obtain ⟨pd, hpd, hpn⟩ := hfrom q hq1
        rw [← hq2]
        show validName q.name = true
        rw [hpn]
        exact hpnames pd hpd
      have hvp := verifyPoints_laid _ adr adr1 hlaid1 hvalid
      have hgs := verify_iterateGroups_no_panic (TGroups.toGroups gs) adr1
        (fun g1 hg1 => hgroups g1 (by simp [TGroup.toGroup, Group.subtree, hg1]))
      have hnerr := iterateGroups_not_err verifyGroup (TGroups.toGroups gs) adr1
      unfold Verify
      rw [hlen, hl16]
      simp only [hsum, ne_eq, not_true_eq_false, if_false]
      cases hpts : pts with
      | nil => exact absurd hpts hne
      | cons p0 ps0 =>
        rw [hpts] at hlaid1 hmap hvp
        simp only [List.map_cons, Laid] at hlaid1
        simp only [List.map_cons] at hvp
        simp only [TGroup.toGroup, Group.address, Group.points, hmap, List.map_cons,
          Points.address, hlaid1.1, iterate, verifyGroup, ne_eq, not_true_eq_false, if_false,
          hname, Bool.not_true, Bool.false_eq_true, List.isEmpty_cons, Group.name, hvp]
        cases hit : iterateGroups verifyGroup (TGroups.toGroups gs) adr1 with
        | panic => exact absurd hit hgs
        | err s1 e => exact absurd hit (hnerr s1 e)
        | ok s1 => rfl

/-- C18 (amended), applied to the sample definition at the address 40002. -/
theorem instance_verifies_witness :
    (scaleDef.group.recognised = true ∧ HasUint16 "ID" scaleDef.group ∧
      HasUint16 "L" scaleDef.group ∧ scaleDef.id < u16 ∧
      validName scaleDef.group.name = true ∧
      ∀ pd ∈ scaleDef.group.points, validName pd.name = true) ∧
    ∃ m l, scaleDef.Instance (ε := Unit) id 40002 none = .ok m ∧ m.id = some scaleDef.id ∧
      m.length = some l ∧ (l + 2) % u16 = m.quantity ∧
      ((∀ g ∈ Group.subtree m.toGroup, g.points ≠ []) → Verify m = .valid) :=
  have hid : HasUint16 "ID" scaleDef.group :=
    ⟨⟨pointDef "ID" "uint16" .null .null, by simp [scaleDef, GroupDef.points], rfl, 0, rfl⟩,
      by decide⟩
  have hl : HasUint16 "L" scaleDef.group :=
    ⟨⟨pointDef "L" "uint16" .null .null, by simp [scaleDef, GroupDef.points], rfl, 0, rfl⟩,
      by decide⟩
  ⟨⟨by decide, hid, hl, by decide, by decide, by decide⟩,
    instance_verifies id scaleDef 40002 (by decide) hid hl (by decide) (by decide) (by decide)⟩

/-! ## Theorems: repeat counts -/

/-- C21 (code bug): a count given by name is looked up among the points of the
root group of the model, not among the points of the group that is being
instantiated.  In the sub-group `rep` of `nestedCountDef` the point `N` has the
value 3 and the point `V` has the count `"N"`: `V` is instantiated once.  With
the same two definitions in the root group (`flatCountDef`), `V` is
instantiated three times. -/
theorem count_name_read_from_root :
    nestedCountDef.Instance (ε := Unit) id 0 none
        = .ok (nestedCountDef.Instance (ε := Unit) id 0 none).model ∧
      ((nestedCountDef.Instance (ε := Unit) id 0 none).model.groups.map
          fun g => (g.name, names g.points, g.points.map TPoint.int))
        = [("rep", ["N", "V"], [3, 0])] ∧
      names (flatCountDef.Instance (ε := Unit) id 0 none).model.points
        = ["ID", "L", "N", "V", "V", "V"] := by
  refine ⟨rfl, by decide, by decide⟩

/-! ## Theorems: the framer -/

theorem beBytes_two (v : Nat) : beBytes 2 v = [v / 256 % 256, v % 256] := by
  simp [beBytes]

theorem buffer_split :
    ∃ z : List Nat, z.length = 252 ∧
      tcp.buffer = 0 :: 0 :: 0 :: 0 :: 0 :: 0 :: 0 :: 0 :: z :=
  ⟨List.replicate 252 0, List.length_replicate _ _, rfl⟩

/-- The ADU `encode` builds for a payload of at most 252 bytes. -/
theorem encode_ok (s : tcp) (code : Nat) (data : List Nat) (h : data.length ≤ 252) :
    s.encode code data =
      (⟨(s.transid + 1) % 2 ^ 32⟩,
        .ok ((s.transid + 1) % 2 ^ 32 % u16 / 256 % 256 :: (s.transid + 1) % 2 ^ 32 % u16 % 256
          :: 0 :: 0 :: (2 + data.length) / 256 % 256 :: (2 + data.length) % 256
          :: 0 :: code :: data)) := by
  obtain ⟨z, hz, hb⟩ := buffer_split
  have hl : (2 + data.length % u16) % u16 = 2 + data.length := by
    simp only [u16]; omega
  unfold tcp.encode
  rw [if_neg (by omega), hb, hl]
  simp only [putUint16At, putUint, beBytes_two]
  simp [copyBytes, List.take_append_eq_append_take, h, hz]
  rw [show 8 + data.length = data.length + 8 by omega]
  simp [List.take_succ_cons]

/-- C22: for a payload `d` of at most 252 bytes `encode` returns an ADU of
`8 + len(d)` bytes whose bytes 2-3 are 0, whose bytes 4-5 hold `2 + len(d)` in
big-endian order, whose byte 6 is 0, whose byte 7 is the function code and
whose bytes from 8 on are `d`; for a longer payload it returns
`ErrDataSizeExceeded`, no ADU, and leaves the transaction counter as it was. -/
theorem encode_layout (s : tcp) (c : Nat) (d : List Nat) :
    (d.length ≤ 252 →
      ∃ adu, (s.encode c d).2 = .ok adu ∧ adu.length = 8 + d.length ∧
        adu[2]? = some 0 ∧ adu[3]? = some 0 ∧
        getUint 2 (adu.drop 4) = some (2 + d.length) ∧
        adu[6]? = some 0 ∧ adu[7]? = some c ∧ adu.drop 8 = d) ∧
    (252 < d.length → s.encode c d = (s, .error .ErrDataSizeExceeded)) := by
  constructor
  · intro h
    refine ⟨_, by rw [encode_ok s c d h], ?_, ?_, ?_, ?_, ?_, ?_, ?_⟩
    · simp only [List.length_cons]; omega
    · simp
    · simp
    · simp only [getUint, List.drop, List.length_cons, List.take, beValue, List.foldl]
      rw [if_neg (by omega)]
      congr 1
      omega
    · simp
    · simp
    · simp
  · intro h
    unfold tcp.encode
    rw [if_pos h]

/-- C22, applied to the function code 3 and a payload of four bytes. -/
theorem encode_layout_witness :
    ∃ adu, ((⟨41⟩ : tcp).encode 3 [0, 10, 0, 2]).2 = .ok adu ∧ adu.length = 8 + 4 ∧
      adu[2]? = some 0 ∧ adu[3]? = some 0 ∧
      getUint 2 (adu.drop 4) = some (2 + 4) ∧
      adu[6]? = some 0 ∧ adu[7]? = some 3 ∧ adu.drop 8 = [0, 10, 0, 2] :=
  (encode_layout ⟨41⟩ 3 [0, 10, 0, 2]).1 (by decide)

/-- C23: decoding the ADU that `encode` builds for a function code below 0x80
and a payload of at most 252 bytes gives the code and the payload back, with
no error; and for an ADU of at least 9 bytes whose byte 7 is at least 0x80,
`decode` returns as error the exception whose code is byte 8. -/
theorem decode_encode (s : tcp) (c : Nat) (d adu : List Nat) (hc : c < 0x80)
    (hd : d.length ≤ 252) (h9 : 9 ≤ adu.length) (hf : 0x80 ≤ adu.getD 7 0) :
    (∃ a, (s.encode c d).2 = .ok a ∧ tcp.decode a = .ok (c, d)) ∧
      tcp.decode adu = .error (.exception (adu.getD 8 0)) := by
  constructor
  · refine ⟨_, by rw [encode_ok s c d hd], ?_⟩
    unfold tcp.decode
    rw [if_neg (by simp only [List.length_cons]; omega)]
    simp only [List.getElem?_cons_succ, List.getElem?_cons_zero, List.drop]
    rw [if_neg (by omega)]
  · obtain ⟨a0, a1, a2, a3, a4, a5, a6, a7, a8, rest, rfl⟩ :
        ∃ a0 a1 a2 a3 a4 a5 a6 a7 a8 rest,
          adu = a0 :: a1 :: a2 :: a3 :: a4 :: a5 :: a6 :: a7 :: a8 :: rest := by
      match adu, h9 with
      | a0 :: a1 :: a2 :: a3 :: a4 :: a5 :: a6 :: a7 :: a8 :: rest, _ =>
        exact ⟨a0, a1, a2, a3, a4, a5, a6, a7, a8, rest, rfl⟩
    simp only [List.getD_cons_succ, List.getD_cons_zero] at hf
    unfold tcp.decode
    rw [if_neg (by simp only [List.length_cons]; omega)]
    simp only [List.getElem?_cons_succ, List.getElem?_cons_zero, List.getD_cons_succ,
      List.getD_cons_zero]
    rw [if_pos hf]

/-- C23, applied to the function code 3 with a payload of four bytes, and to
an exception response of nine bytes with the code 2. -/
theorem decode_encode_witness :
    (∃ a, ((⟨0⟩ : tcp).encode 3 [0, 10, 0, 2]).2 = .ok a ∧
        tcp.decode a = .ok (3, [0, 10, 0, 2])) ∧
      tcp.decode [0, 1, 0, 0, 0, 3, 0, 0x83, 2] =
        .error (.exception (([0, 1, 0, 0, 0, 3, 0, 0x83, 2] : List Nat).getD 8 0)) :=
  decode_encode ⟨0⟩ 3 [0, 10, 0, 2] [0, 1, 0, 0, 0, 3, 0, 0x83, 2] (by decide) (by decide)
    (by decide) (by decide)

/-- C24: for ADUs of at least 7 bytes `verify` returns `nil` exactly when
bytes 0-3 and byte 6 agree; it returns `ErrMissmatchedTransactionId` whenever
bytes 0-1 differ, `ErrMissmatchedProtocolId` when bytes 0-1 agree and bytes
2-3 differ, and `ErrMissmatchedUnitId` when only byte 6 differs. -/
theorem verify_spec (req res : List Nat) (hq : 7 ≤ req.length) (hs : 7 ≤ res.length) :
    (tcp.verify req res = .ok () ↔ req.take 4 = res.take 4 ∧ req[6]? = res[6]?) ∧
      (req.take 2 ≠ res.take 2 → tcp.verify req res = .error .ErrMissmatchedTransactionId) ∧
      (req.take 2 = res.take 2 → req.take 4 ≠ res.take 4 →
        tcp.verify req res = .error .ErrMissmatchedProtocolId) ∧
      (req.take 4 = res.take 4 → req[6]? ≠ res[6]? →
        tcp.verify req res = .error .ErrMissmatchedUnitId) := by
  obtain ⟨a0, a1, a2, a3, a4, a5, a6, ra, rfl⟩ :
      ∃ a0 a1 a2 a3 a4 a5 a6 ra, req = a0 :: a1 :: a2 :: a3 :: a4 :: a5 :: a6 :: ra := by
    match req, hq with
    | a0 :: a1 :: a2 :: a3 :: a4 :: a5 :: a6 :: ra, _ => exact ⟨a0, a1, a2, a3, a4, a5, a6, ra, rfl⟩
  obtain ⟨b0, b1, b2, b3, b4, b5, b6, rb, rfl⟩ :
      ∃ b0 b1 b2 b3 b4 b5 b6 rb, res = b0 :: b1 :: b2 :: b3 :: b4 :: b5 :: b6 :: rb := by
    match res, hs with
    | b0 :: b1 :: b2 :: b3 :: b4 :: b5 :: b6 :: rb, _ => exact ⟨b0, b1, b2, b3, b4, b5, b6, rb, rfl⟩
  by_cases h0 : a0 = b0 <;> by_cases h1 : a1 = b1 <;> by_cases h2 : a2 = b2 <;>
    by_cases h3 : a3 = b3 <;> by_cases h6 : a6 = b6 <;>
    simp [tcp.verify, tcp.differ, tcp.either, h0, h1, h2, h3, h6]

/-- C24, applied to a request and a response that agree in the bytes 0-3
and 6: `verify` returns `nil`. -/
theorem verify_spec_witness :
    (tcp.verify [0, 1, 0, 0, 0, 6, 0, 3] [0, 1, 0, 0, 0, 5, 0, 3, 2] = .ok () ↔
        ([0, 1, 0, 0, 0, 6, 0, 3] : List Nat).take 4 = [0, 1, 0, 0, 0, 5, 0, 3, 2].take 4 ∧
          ([0, 1, 0, 0, 0, 6, 0, 3] : List Nat)[6]? = [0, 1, 0, 0, 0, 5, 0, 3, 2][6]?) ∧
      tcp.verify [0, 1, 0, 0, 0, 6, 0, 3] [0, 1, 0, 0, 0, 5, 0, 3, 2] = .ok () :=
  ⟨(verify_spec [0, 1, 0, 0, 0, 6, 0, 3] [0, 1, 0, 0, 0, 5, 0, 3, 2] (by decide) (by decide)).1,
    by decide⟩

/-- C25: for `uint16` arguments `boundCheck` returns `IllegalDataValue` if and
only if the quantity is 0 or above the limit; otherwise it returns
`IllegalDataAddress` if and only if `address + quantity - 1` exceeds 65535,
and 0 if not.  So (65535, 1, 2000) is accepted and (65535, 2, 2000) is an
illegal address. -/
theorem boundCheck_spec (address quantity limit : Nat) (ha : address < u16)
    (hq : quantity < u16) :
    (boundCheck address quantity limit = modbus.IllegalDataValue ↔
        quantity = 0 ∨ quantity > limit) ∧
      (¬(quantity = 0 ∨ quantity > limit) →
        (boundCheck address quantity limit = modbus.IllegalDataAddress ↔
          address + quantity - 1 > 65535)) ∧
      (¬(quantity = 0 ∨ quantity > limit) → ¬address + quantity - 1 > 65535 →
        boundCheck address quantity limit = 0) ∧
      boundCheck 65535 1 2000 = 0 ∧
      boundCheck 65535 2 2000 = modbus.IllegalDataAddress := by
  refine ⟨?_, fun hn => ?_, fun hn hw => ?_, by decide, by decide⟩
  all_goals
    simp only [boundCheck, sub16, u16, modbus.IllegalDataValue, modbus.IllegalDataAddress,
      show (1 : Nat) % 65536 = 1 from rfl] at *
    split_ifs <;> (try simp only [false_iff, true_iff]) <;> omega

/-- C25, applied to `(65535, 2, 2000)`: the quantity is within the limit and
the last register wraps around. -/
theorem boundCheck_spec_witness :
    (boundCheck 65535 2 2000 = modbus.IllegalDataValue ↔ 2 = 0 ∨ 2 > 2000) ∧
      (boundCheck 65535 2 2000 = modbus.IllegalDataAddress ↔ 65535 + 2 - 1 > 65535) :=
  ⟨(boundCheck_spec 65535 2 2000 (by decide) (by decide)).1,
    (boundCheck_spec 65535 2 2000 (by decide) (by decide)).2.1 (by decide)⟩

/-! ## Theorems: packed coils -/

theorem read_bit (x j : Nat) (hj : j < 8) :
    decide (((x <<< j) % 256) &&& 0x80 = 0x80) = x.testBit (7 - j) := by
  have h := Nat.and_two_pow ((x <<< j) % 256) 7
  have hm := Nat.testBit_mod_two_pow (x <<< j) 8 7
  norm_num at h hm
  rw [h, hm]
  have h7 : j ≤ 7 := by omega
  cases hx : x.testBit (7 - j) <;> simp [h7]

theorem bytesToBoolsBits_spec (x i : Nat) :
    ∀ (n j : Nat) (buf : List Bool), j + n = 8 → 8 * i + j ≤ buf.length →
      (bytesToBoolsBits x i n j buf).1.length = buf.length ∧
      (∀ k, (bytesToBoolsBits x i n j buf).1[k]? =
        if 8 * i + j ≤ k ∧ k < 8 * i + 8 ∧ k < buf.length then
          some (x.testBit (7 - (k - 8 * i)))
        else buf[k]?) ∧
      ((bytesToBoolsBits x i n j buf).2 = true → buf.length < 8 * i + 8) ∧
      ((bytesToBoolsBits x i n j buf).2 = false → 8 * i + 8 ≤ buf.length) := by
  intro n
  induction n with
  | zero =>
    intro j buf hj hlen
    refine ⟨rfl, fun k => ?_, fun h => by simp [bytesToBoolsBits] at h, fun _ => by omega⟩
    simp only [bytesToBoolsBits]
    rw [if_neg (by omega)]
  | succ n ih =>
    intro j buf hj hlen
    unfold bytesToBoolsBits
    by_cases hl : buf.length = 8 * i + j
    · rw [if_pos hl]
      refine ⟨rfl, fun k => ?_, fun _ => by omega, fun h => by simp at h⟩
      rw [if_neg (by omega)]
    · rw [if_neg hl]
      obtain ⟨h1, h2, h3, h4⟩ := ih (j + 1)
        (buf.set (8 * i + j) (decide (((x <<< j) % 256) &&& 0x80 = 0x80))) (by omega)
        (by rw [List.length_set]; omega)
      rw [List.length_set] at h1 h3 h4
      refine ⟨h1, fun k => ?_, h3, h4⟩
      rw [h2 k, List.length_set, List.getElem?_set, read_bit x j (by omega)]
      by_cases hk : 8 * i + j = k
      · subst hk
        rw [if_neg (by omega), if_pos rfl, if_pos (by omega), if_pos (by omega)]
        congr 2
        omega
      · rw [if_neg hk]
        by_cases hc : 8 * i + (j + 1) ≤ k ∧ k < 8 * i + 8 ∧ k < buf.length
        · rw [if_pos hc, if_pos (by omega)]
        · rw [if_neg hc, if_neg (by omega)]

theorem bytesToBoolsLoop_spec :
    ∀ (xs : List Nat) (i : Nat) (buf : List Bool), 8 * i ≤ buf.length →
      (bytesToBoolsLoop xs i buf).length = buf.length ∧
      ∀ k, (bytesToBoolsLoop xs i buf)[k]? =
        if 8 * i ≤ k ∧ k < 8 * (i + xs.length) ∧ k < buf.length then
          some ((xs.getD ((k - 8 * i) / 8) 0).testBit (7 - (k - 8 * i) % 8))
        else buf[k]? := by
  intro xs
  induction xs with
  | nil =>
    intro i buf _
    refine ⟨rfl, fun k => ?_⟩
    simp only [bytesToBoolsLoop, List.length_nil]
    rw [if_neg (by omega)]
  | cons x xs ih =>
    intro i buf hlen
    obtain ⟨h1, h2, h3, h4⟩ := bytesToBoolsBits_spec x i 8 0 buf rfl (by omega)
    unfold bytesToBoolsLoop
    rcases hb : bytesToBoolsBits x i 8 0 buf with ⟨b, r⟩
    rw [hb] at h1 h2 h3 h4
    simp only at h1 h2 h3 h4
    cases r with
    | true =>
      have hlt := h3 rfl
      refine ⟨h1, fun k => ?_⟩
      simp only []
      rw [h2 k]
      by_cases hc : 8 * i + 0 ≤ k ∧ k < 8 * i + 8 ∧ k < buf.length
      · rw [if_pos hc, if_pos (by simp only [List.length_cons]; omega),
          show (k - 8 * i) / 8 = 0 by omega, show (k - 8 * i) % 8 = k - 8 * i by omega]
        rfl
      · rw [if_neg hc, if_neg (by omega)]
    | false =>
      have hge := h4 rfl
      obtain ⟨g1, g2⟩ := ih (i + 1) b (by omega)
      refine ⟨by simp only []; rw [g1, h1], fun k => ?_⟩
      simp only []
      rw [g2 k, h2 k, h1]
      simp only [List.length_cons]
      by_cases hk : 8 * (i + 1) ≤ k
      · by_cases hc : k < 8 * (i + 1 + xs.length) ∧ k < buf.length
        · rw [if_pos ⟨hk, hc⟩, if_pos (by omega),
            show (k - 8 * i) / 8 = (k - 8 * (i + 1)) / 8 + 1 by omega,
            show (k - 8 * i) % 8 = (k - 8 * (i + 1)) % 8 by omega]
          rfl
        · rw [if_neg (by tauto), if_neg (by omega), if_neg (by omega)]
      · rw [if_neg (by omega)]
        by_cases hc : 8 * i + 0 ≤ k ∧ k < 8 * i + 8 ∧ k < buf.length
        · rw [if_pos hc, if_pos (by omega),
            show (k - 8 * i) / 8 = 0 by omega, show (k - 8 * i) % 8 = k - 8 * i by omega]
          rfl
        · rw [if_neg hc, if_neg (by omega)]

/-- What `bytesToBools` returns: `quantity` statuses, the status `k` being the
bit `7 - k % 8` of the byte `k / 8` (off when there is no such byte). -/
theorem bytesToBools_spec (quantity : Nat) (bytes : List Nat) :
    bytesToBools quantity bytes = (List.range quantity).map (coilAt bytes) := by
  obtain ⟨h1, h2⟩ := bytesToBoolsLoop_spec bytes 0 (List.replicate quantity false) (by omega)
  apply List.ext_getElem?
  intro k
  unfold bytesToBools
  rw [h2 k, List.getElem?_map, List.length_replicate, List.getElem?_replicate]
  by_cases hq : k < quantity
  · rw [List.getElem?_range hq, if_pos hq]
    by_cases hb : k < 8 * (0 + bytes.length)
    · rw [if_pos ⟨by omega, hb, hq⟩]
      simp [coilAt]
    · rw [if_neg (by omega)]
      have : bytes.length ≤ k / 8 := by omega
      simp [coilAt, List.getD_eq_getElem?_getD, List.getElem?_eq_none this]
  · rw [if_neg hq, if_neg (by omega), List.getElem?_eq_none (by simpa using hq)]
    rfl

theorem coilAt_set (buf : List Nat) (c b : Nat) (hb : buf[c / 8]? = some b) (k : Nat) :
    coilAt (buf.set (c / 8) (b ||| (0x80 >>> (c % 8)))) k = (coilAt buf k || decide (k = c)) := by
  have hlt : c / 8 < buf.length := by
    rcases Nat.lt_or_ge (c / 8) buf.length with h | h
    · exact h
    · rw [List.getElem?_eq_none h] at hb
      cases hb
  unfold coilAt
  rw [List.getD_eq_getElem?_getD, List.getD_eq_getElem?_getD, List.getElem?_set]
  by_cases hk : c / 8 = k / 8
  · rw [if_pos hk, if_pos hlt, ← hk, hb]
    simp only [Option.getD_some, Nat.testBit_lor]
    congr 1
    rw [Nat.testBit_shiftRight, show (128 : Nat) = 2 ^ 7 by norm_num, Nat.testBit_two_pow]
    by_cases hc : k = c
    · subst hc
      simp only [decide_True, decide_eq_true_eq]
      omega
    · simp only [hc, decide_False, decide_eq_false_iff_not]
      omega
  · rw [if_neg hk]
    have hc : k ≠ c := fun h => hk (by rw [h])
    simp [hc]

theorem coilAt_zeros (n k : Nat) : coilAt (List.replicate n 0) k = false := by
  unfold coilAt
  rw [List.getD_eq_getElem?_getD, List.getElem?_replicate]
  split_ifs <;> simp

theorem putBoolSLoop_spec :
    ∀ (xs : List Bool) (c : Nat) (buf : List Nat), c + xs.length ≤ 8 * buf.length →
      ∃ b, putBoolSLoop xs c buf = some b ∧ b.length = buf.length ∧
        ∀ k, coilAt b k = (coilAt buf k || (decide (c ≤ k) && xs.getD (k - c) false)) := by
  intro xs
  induction xs with
  | nil =>
    intro c buf _
    exact ⟨buf, rfl, rfl, fun k => by simp⟩
  | cons x xs ih =>
    intro c buf hlen
    simp only [List.length_cons] at hlen
    unfold putBoolSLoop
    cases x with
    | false =>
      obtain ⟨b, h1, h2, h3⟩ := ih (c + 1) buf (by omega)
      refine ⟨b, by simpa using h1, h2, fun k => ?_⟩
      rw [h3 k]
      congr 1
      rcases Nat.lt_trichotomy k c with h | h | h
      · simp [show ¬c + 1 ≤ k by omega, show ¬c ≤ k by omega]
      · subst h
        simp
      · obtain ⟨m, rfl⟩ : ∃ m, k = c + 1 + m := ⟨k - (c + 1), by omega⟩
        simp [show c + 1 + m - c = m + 1 by omega, show c ≤ c + 1 + m by omega]
    | true =>
      have hlt : c / 8 < buf.length := by omega
      rw [if_pos rfl, List.getElem?_eq_getElem hlt]
      obtain ⟨b, h1, h2, h3⟩ := ih (c + 1)
        (buf.set (c / 8) (buf[c / 8] ||| (0x80 >>> (c % 8)))) (by rw [List.length_set]; omega)
      rw [List.length_set] at h2
      refine ⟨b, h1, h2, fun k => ?_⟩
      rw [h3 k, coilAt_set buf c _ (List.getElem?_eq_getElem hlt) k, Bool.or_assoc]
      congr 1
      rcases Nat.lt_trichotomy k c with h | h | h
      · simp [show ¬c + 1 ≤ k by omega, show ¬c ≤ k by omega, show k ≠ c by omega]
      · subst h
        simp
      · obtain ⟨m, rfl⟩ : ∃ m, k = c + 1 + m := ⟨k - (c + 1), by omega⟩
        simp [show c + 1 + m - c = m + 1 by omega, show c ≤ c + 1 + m by omega,
          show c + 1 + m ≠ c by omega]

/-! ## Theorems: a request answered by a server -/

theorem copy_take (dst src : List Nat) (h : src.length ≤ dst.length) :
    (copyBytes dst src).take (min dst.length src.length) = src := by
  simp [copyBytes, Nat.min_eq_right h]

theorem decode_request (a0 a1 a2 a3 a4 a5 a6 c : Nat) (d : List Nat) (hc : c < 0x80) :
    tcp.decode (a0 :: a1 :: a2 :: a3 :: a4 :: a5 :: a6 :: c :: d) = .ok (c, d) := by
  unfold tcp.decode
  rw [if_neg (by simp only [List.length_cons]; omega)]
  simp only [List.getElem?_cons_succ, List.getElem?_cons_zero, List.drop]
  rw [if_neg (by omega)]

theorem decode_exception (a0 a1 a2 a3 a4 a5 a6 c e : Nat) (d : List Nat) (hc : 0x80 ≤ c) :
    tcp.decode (a0 :: a1 :: a2 :: a3 :: a4 :: a5 :: a6 :: c :: e :: d)
      = .error (.exception e) := by
  unfold tcp.decode
  rw [if_neg (by simp only [List.length_cons]; omega)]
  simp only [List.getElem?_cons_succ, List.getElem?_cons_zero]
  rw [if_pos hc]

theorem verify_same (t1 t2 p1 p2 x1 x2 y1 y2 u : Nat) (r1 r2 : List Nat) :
    tcp.verify (t1 :: t2 :: p1 :: p2 :: x1 :: x2 :: u :: r1)
      (t1 :: t2 :: p1 :: p2 :: y1 :: y2 :: u :: r2) = .ok () := by
  simp [tcp.verify, tcp.differ, tcp.either]

theorem reply_ok (s : tcp) (code t1 t2 : Nat) (data rest : List Nat)
    (h : data.length ≤ 252) :
    s.reply code data (t1 :: t2 :: rest) =
      (⟨(s.transid + 1) % 2 ^ 32⟩,
        .ok (t1 :: t2 :: 0 :: 0 :: (2 + data.length) / 256 % 256 :: (2 + data.length) % 256
          :: 0 :: code :: data)) := by
  unfold tcp.reply
  rw [encode_ok s code data h]
  simp

theorem or_flag (c : Nat) : 0x80 ≤ c ||| 0x80 := by
  have h : (c ||| 0x80).testBit 7 = true := by
    rw [Nat.testBit_or, show (0x80 : Nat) = 2 ^ 7 by norm_num, Nat.testBit_two_pow_self]
    simp
  have := Nat.testBit_implies_ge h
  norm_num at this
  exact this

/-- A request with a function code from 1 to 0x7F and at most 252 bytes,
sent to a server whose handler returns `(res, ex)` for it: the client gets
the exception `ex`, or `SlaveDeviceFailure` for a response of more than 252
bytes, or the response `res`. -/
theorem request_linked (cl srv : tcp) (h : Nat → List Nat → Option (List Nat × Nat))
    (code ex : Nat) (req res : List Nat) (hc0 : code ≠ 0) (hc : code < 0x80)
    (hl : req.length ≤ 252) (hh : h code req = some (res, ex)) :
    (modbus.Client.Request cl (modbus.linked srv h) code req).2 =
      if ex ≠ 0 then .error (.exception ex)
      else if res.length > 252 then .error (.exception modbus.SlaveDeviceFailure)
      else .ok res := by
  have hbuf : tcp.buffer.length = 260 := List.length_replicate _ _
  have hcl : ∀ a out : List Nat, a.length ≤ 260 → out.length ≤ 260 →
      (copyBytes (a ++ List.replicate (260 - a.length) 0) out).take
        (min (a ++ List.replicate (260 - a.length) 0).length out.length) = out :=
    fun a out ha ho => copy_take _ _ (by
      rw [List.length_append, List.length_replicate]; omega)
  unfold modbus.Client.Request
  rw [if_neg (by omega), encode_ok cl code req hl]
  simp only []
  have hans : ∀ adu : List Nat, adu.length ≤ 260 →
      (copyBytes tcp.buffer adu).take (min tcp.buffer.length adu.length) = adu :=
    fun adu ha => copy_take _ _ (by rw [hbuf]; exact ha)
  unfold modbus.linked modbus.Server.answer
  rw [hans _ (by simp only [List.length_cons]; omega), decode_request _ _ _ _ _ _ _ _ _ hc]
  simp only []
  rw [if_pos hc, hh]
  simp only []
  by_cases hex : ex ≠ 0
  · rw [if_pos (Or.inl hex), if_pos hex, if_pos hex, reply_ok _ _ _ _ _ _ (by simp)]
    simp only [modbus.Client.wait, modbus.Client.listener, verify_same]
    rw [hcl _ _ (by simp only [List.length_cons]; omega) (by simp),
      decode_exception _ _ _ _ _ _ _ _ _ _ (or_flag code)]
  · rw [if_neg hex, if_neg hex]
    by_cases hr : res.length > 252
    · rw [if_pos (Or.inr hr), if_pos hr, if_pos hr, reply_ok _ _ _ _ _ _ (by simp)]
      simp only [modbus.Client.wait, modbus.Client.listener, verify_same]
      rw [hcl _ _ (by simp only [List.length_cons]; omega) (by simp),
        decode_exception _ _ _ _ _ _ _ _ _ _ (or_flag code)]
    · rw [if_neg (fun h => h.elim hex hr), if_neg hr, if_neg hr,
        reply_ok _ _ _ _ _ _ (by omega)]
      simp only [modbus.Client.wait, modbus.Client.listener, verify_same]
      rw [hcl _ _ (by simp only [List.length_cons]; omega)
        (by simp only [List.length_cons]; omega), decode_request _ _ _ _ _ _ _ _ _ hc]

/-! ## Theorems: requests and responses of the coil and register functions -/

theorem unpack_of_coilAt (s : List Bool) (b : List Nat)
    (h : ∀ k, coilAt b k = s.getD k false) : bytesToBools s.length b = s := by
  rw [bytesToBools_spec]
  apply List.ext_getElem?
  intro k
  rw [List.getElem?_map]
  by_cases hk : k < s.length
  · rw [List.getElem?_range hk, List.getElem?_eq_getElem hk]
    simp only [Option.map_some', h k, List.getD_eq_getElem?_getD, List.getElem?_eq_getElem hk,
      Option.getD_some]
  · rw [List.getElem?_eq_none (by simpa using hk), List.getElem?_eq_none (by omega)]
    rfl

theorem byteCount_eq (n : Nat) (h1 : 1 ≤ n) (h2 : n ≤ 2000) :
    byteCount n = (n - 1) / 8 + 1 ∧ byteCount n ≤ 250 ∧ n ≤ 8 * byteCount n := by
  simp only [byteCount, u16]
  omega

/-- What `putBoolS` does with a zero buffer of `byteCount(len(s))` bytes: it
fills the whole buffer, the coil `k` holding the status `k`. -/
theorem putBoolS_spec (s : List Bool) (h1 : 1 ≤ s.length) (h2 : s.length ≤ 2000) :
    ∃ b, putBoolS (List.replicate (byteCount s.length) 0) s = some (b, []) ∧
      b.length = byteCount s.length ∧ (∀ k, coilAt b k = s.getD k false) ∧
      bytesToBools s.length b = s := by
  obtain ⟨e1, _, e3⟩ := byteCount_eq s.length h1 h2
  obtain ⟨b, hb, hl, hk⟩ := putBoolSLoop_spec s 0 (List.replicate (byteCount s.length) 0)
    (by rw [List.length_replicate]; omega)
  rw [List.length_replicate] at hl
  have hc : ∀ k, coilAt b k = s.getD k false := fun k => by
    rw [hk k, coilAt_zeros]
    simp
  refine ⟨b, ?_, hl, hc, unpack_of_coilAt s b hc⟩
  simp only [putBoolS, hb]
  rw [if_neg (by omega), ← e1, ← hl, List.take_length, List.drop_length]

theorem replicate_one_add (n : Nat) : List.replicate (1 + n) 0 = 0 :: List.replicate n 0 := by
  rw [Nat.add_comm]
  rfl

theorem replicate_five_add (n : Nat) :
    List.replicate (5 + n) 0 = 0 :: 0 :: 0 :: 0 :: 0 :: List.replicate n 0 := by
  rw [Nat.add_comm]
  rfl

theorem replicate_nine_add (n : Nat) :
    List.replicate (9 + n) 0
      = 0 :: 0 :: 0 :: 0 :: 0 :: 0 :: 0 :: 0 :: 0 :: List.replicate n 0 := by
  rw [Nat.add_comm]
  rfl

theorem putByteS_zeros (v : List Nat) :
    putByteS (List.replicate v.length 0) v = some (v, []) := by
  simp [putByteS, copyBytes]

theorem getUint_two (a b : Nat) (rest : List Nat) :
    getUint 2 (a :: b :: rest) = some (a * 256 + b) := by
  unfold getUint
  rw [if_neg (by simp only [List.length_cons]; omega)]
  show some ((0 * 256 + a) * 256 + b) = some (a * 256 + b)
  exact congrArg some (by omega)

theorem be_two (v : Nat) (h : v < u16) : v / 256 % 256 * 256 + v % 256 = v := by
  simp only [u16] at h
  omega

theorem putUint16_cons (a b v : Nat) (rest : List Nat) :
    putUint16 (a :: b :: rest) v = some ([v / 256 % 256, v % 256], rest) := by
  unfold putUint16 putUint
  rw [if_neg (by simp only [List.length_cons]; omega), beBytes_two]
  rfl

theorem put_address_quantity (a q : Nat) :
    put 4 [.uint16 a, .uint16 q] = some [a / 256 % 256, a % 256, q / 256 % 256, q % 256] := by
  show putLoop _ [] [0, 0, 0, 0] = _
  simp only [putLoop, modbus.Arg.put, putUint16_cons]
  rfl

theorem put_status (x : Nat) (s : List Bool) (h1 : 1 ≤ s.length) (h2 : s.length ≤ 2000) :
    ∃ b, put (1 + byteCount s.length) [.byte x, .boolS s] = some (x :: b) ∧
      b.length = byteCount s.length ∧ bytesToBools s.length b = s := by
  obtain ⟨b, hb, hl, _, hr⟩ := putBoolS_spec s h1 h2
  refine ⟨b, ?_, hl, hr⟩
  unfold put
  rw [replicate_one_add]
  simp only [putLoop, modbus.Arg.put, putByte, hb]
  simp

theorem put_write_coils (a q x : Nat) (s : List Bool) (h1 : 1 ≤ s.length)
    (h2 : s.length ≤ 2000) :
    ∃ b, put (5 + byteCount s.length) [.uint16 a, .uint16 q, .byte x, .boolS s]
        = some (a / 256 % 256 :: a % 256 :: q / 256 % 256 :: q % 256 :: x :: b) ∧
      b.length = byteCount s.length ∧ bytesToBools s.length b = s := by
  obtain ⟨b, hb, hl, _, hr⟩ := putBoolS_spec s h1 h2
  refine ⟨b, ?_, hl, hr⟩
  unfold put
  rw [replicate_five_add]
  simp only [putLoop, modbus.Arg.put, putUint16_cons, putByte, hb]
  simp

theorem put_write_registers (a q x : Nat) (v : List Nat) :
    put (5 + v.length) [.uint16 a, .uint16 q, .byte x, .byteS v]
      = some (a / 256 % 256 :: a % 256 :: q / 256 % 256 :: q % 256 :: x :: v) := by
  unfold put
  rw [replicate_five_add]
  simp only [putLoop, modbus.Arg.put, putUint16_cons, putByte, putByteS_zeros]
  simp

theorem put_read_write (ra rq wa wq x : Nat) (v : List Nat) :
    put (9 + v.length)
        [.uint16 ra, .uint16 rq, .uint16 wa, .uint16 wq, .byte x, .byteS v]
      = some (ra / 256 % 256 :: ra % 256 :: rq / 256 % 256 :: rq % 256 :: wa / 256 % 256
          :: wa % 256 :: wq / 256 % 256 :: wq % 256 :: x :: v) := by
  unfold put
  rw [replicate_nine_add]
  simp only [putLoop, modbus.Arg.put, putUint16_cons, putByte, putByteS_zeros]
  simp

theorem put_response (x : Nat) (v : List Nat) :
    put (1 + v.length) [.byte x, .byteS v] = some (x :: v) := by
  unfold put
  rw [replicate_one_add]
  simp only [putLoop, modbus.Arg.put, putByte, putByteS_zeros]
  simp

theorem boundCheck_ok (a q l : Nat) (h1 : 1 ≤ q) (h2 : q ≤ l) (h3 : a + q ≤ u16) :
    boundCheck a q l = 0 := by
  simp only [boundCheck, sub16, u16, show (1 : Nat) % 65536 = 1 from rfl] at *
  rw [if_neg (by omega), if_neg (by omega)]

/-- What the handler of function 0x01 answers when the callback returns the
statuses `s` for the address and the quantity of the request. -/
theorem handle_readCoils (h : modbus.Mux) (f : Nat → Nat → List Bool × Nat) (a : Nat)
    (s : List Bool) (h1 : 1 ≤ s.length) (h2 : s.length ≤ 2000) (hf : h.ReadCoils = some f)
    (ha : a + s.length ≤ u16) (hs : f a s.length = (s, 0)) :
    ∃ b, h.Handle 0x01
        [a / 256 % 256, a % 256, s.length / 256 % 256, s.length % 256]
          = some (byteCount s.length :: b, 0) ∧
      b.length = byteCount s.length ∧ bytesToBools s.length b = s := by
  obtain ⟨b, hb, hl, hr⟩ := put_status (byteCount s.length % 256) s h1 h2
  obtain ⟨_, e2, _⟩ := byteCount_eq s.length h1 h2
  rw [Nat.mod_eq_of_lt (by omega)] at hb
  refine ⟨b, ?_, hl, hr⟩
  have hau : a < u16 := by omega
  have hqu : s.length < u16 := by simp only [u16]; omega
  unfold modbus.Mux.Handle
  rw [if_pos rfl]
  unfold modbus.Mux.readCoils modbus.Mux.readStatus
  rw [hf]
  simp only [List.drop, getUint_two, be_two a hau, be_two s.length hqu]
  rw [if_neg (by simp), if_neg (by rw [boundCheck_ok a s.length 2000 h1 h2 ha]; simp),
    if_neg (by rw [hs]; simp), if_neg (by rw [hs]; simp), hs]
  simp only []
  rw [Nat.mod_eq_of_lt (by omega), hb]

/-- What the handler of function 0x0F answers to the request that carries the
packed statuses `b` of `s`: the callback is given the address and `s`. -/
theorem handle_writeMultipleCoils (h : modbus.Mux) (f : Nat → List Bool → Nat) (a : Nat)
    (s : List Bool) (b : List Nat) (h1 : 1 ≤ s.length) (h2 : s.length ≤ 1968)
    (hf : h.WriteMultipleCoils = some f) (ha : a + s.length ≤ u16)
    (hl : b.length = byteCount s.length) (hr : bytesToBools s.length b = s) :
    h.Handle 0x0F
        (a / 256 % 256 :: a % 256 :: s.length / 256 % 256 :: s.length % 256
          :: byteCount s.length :: b)
      = some (if f a s ≠ 0 then ([], f a s)
          else ([a / 256 % 256, a % 256, s.length / 256 % 256, s.length % 256], 0)) := by
  obtain ⟨e1, e2, _⟩ := byteCount_eq s.length h1 (by omega)
  have hau : a < u16 := by omega
  have hqu : s.length < u16 := by simp only [u16]; omega
  unfold modbus.Mux.Handle
  rw [if_neg (by decide), if_neg (by decide), if_neg (by decide), if_neg (by decide),
    if_neg (by decide), if_neg (by decide), if_pos rfl]
  unfold modbus.Mux.writeMultipleCoils
  rw [hf]
  simp only [List.drop, getUint_two, be_two a hau, be_two s.length hqu, List.length_cons,
    List.getElem?_cons_succ, List.getElem?_cons_zero]
  rw [if_neg (by omega), if_neg (by omega),
    if_neg (by rw [boundCheck_ok a s.length 1968 h1 h2 ha]; simp), hr]
  by_cases hx : f a s ≠ 0
  · rw [if_pos hx, if_pos hx]
  · rw [if_neg hx, if_neg hx]
    rfl

/-- C27: for a list `s` of 1 to 2000 statuses, `bytesToBools` gives `s` back
from the buffer of `byteCount(len(s))` bytes that `putBoolS` fills from `s`.
So, through the framer and a server, the statuses a `ReadCoils` callback of
the `Mux` returns are the statuses `Client.ReadCoils` yields, and the statuses
passed to `Client.WriteMultipleCoils` (at most 1968) are those the callback of
the `Mux` is given. -/
theorem coils_round_trip (s : List Bool) (h1 : 1 ≤ s.length) (h2 : s.length ≤ 2000) :
    (∃ b, put (byteCount s.length) [.boolS s] = some b ∧ b.length = byteCount s.length ∧
        bytesToBools s.length b = s) ∧
      (∀ (cl srv : tcp) (h : modbus.Mux) (f : Nat → Nat → List Bool × Nat) (address : Nat),
        h.ReadCoils = some f → address + s.length ≤ u16 → f address s.length = (s, 0) →
        modbus.Client.ReadCoils (modbus.served cl srv h) address s.length = .ok s) ∧
      (∀ (cl srv : tcp) (h : modbus.Mux) (f : Nat → List Bool → Nat) (address : Nat),
        h.WriteMultipleCoils = some f → s.length ≤ 1968 → address + s.length ≤ u16 →
        modbus.Client.WriteMultipleCoils (modbus.served cl srv h) address s =
          if f address s ≠ 0 then .error (.exception (f address s)) else .ok ()) := by
  obtain ⟨e1, e2, _⟩ := byteCount_eq s.length h1 h2
  refine ⟨?_, ?_, ?_⟩
  · obtain ⟨b, hb, hl, _, hr⟩ := putBoolS_spec s h1 h2
    refine ⟨b, ?_, hl, hr⟩
    simp [put, putLoop, modbus.Arg.put, hb]
  · intro cl srv h f a hf ha hs
    obtain ⟨b, hb, hl, hr⟩ := handle_readCoils h f a s h1 h2 hf ha hs
    have hreq := request_linked cl srv h.Handle 0x01 0 _ _ (by decide) (by decide)
      (by simp) hb
    rw [if_neg (by simp), if_neg (by simp only [List.length_cons]; omega)] at hreq
    unfold modbus.Client.ReadCoils modbus.Client.readStatus
    rw [if_neg (by rw [boundCheck_ok a s.length 2000 h1 h2 ha]; simp), put_address_quantity]
    simp only [modbus.served, hreq, List.length_cons, hl, List.getElem?_cons_zero, List.drop]
    rw [if_neg (by omega), if_neg (by omega), hr]
  · intro cl srv h f a hf h3 ha
    have hq : s.length % u16 = s.length := Nat.mod_eq_of_lt (by simp only [u16]; omega)
    have hau : a < u16 := by omega
    have hqu : s.length < u16 := by simp only [u16]; omega
    obtain ⟨b, hb, hl, hr⟩ := put_write_coils a s.length (byteCount s.length % 256) s h1 h2
    rw [Nat.mod_eq_of_lt (by omega)] at hb
    have hh := handle_writeMultipleCoils h f a s b h1 h3 hf ha hl hr
    unfold modbus.Client.WriteMultipleCoils
    rw [hq, if_neg (by rw [boundCheck_ok a s.length 1968 h1 h3 ha]; simp),
      Nat.mod_eq_of_lt (by omega : byteCount s.length < 256), hb]
    simp only [modbus.served]
    by_cases hx : f a s ≠ 0
    · rw [if_pos hx] at hh
      have hreq := request_linked cl srv h.Handle 0x0F _ _ _ (by decide) (by decide)
        (by simp only [List.length_cons]; omega) hh
      rw [if_pos hx] at hreq
      rw [hreq, if_pos hx]
    · rw [if_neg hx] at hh
      have hreq := request_linked cl srv h.Handle 0x0F _ _ _ (by decide) (by decide)
        (by simp only [List.length_cons]; omega) hh
      rw [if_neg (by simp), if_neg (by simp)] at hreq
      rw [hreq, if_neg hx]
      simp only [modbus.Client.echoed, getUint_two, List.drop, be_two a hau,
        be_two s.length hqu]
      simp

/-- C27, applied to the five statuses of the test of the source. -/
theorem coils_round_trip_witness :
    ∃ b, put (byteCount 5) [.boolS [true, false, true, false, true]] = some b ∧
      b.length = byteCount 5 ∧ bytesToBools 5 b = [true, false, true, false, true] :=
  (coils_round_trip [true, false, true, false, true] (by decide) (by decide)).1

/-- C26 (code bug): `putBoolS` and `bytesToBools` carry the status of the coil
`i` in the data byte `i / 8` at the bit position `7 - i % 8` counted from the
least significant bit, where the Modbus application protocol prescribes the
position `i % 8`.  One coil that is on is packed as the byte 0x80, in which the
protocol's coil 0 is off; and the response `[1, 0x01]` of a conforming device
whose coil 0 is on is read by `Client.ReadCoils` as off. -/
theorem coil_bit_order (s : List Bool) (h1 : 1 ≤ s.length) (h2 : s.length ≤ 2000) :
    (∃ b, put (byteCount s.length) [.boolS s] = some b ∧
        ∀ i, i < s.length → coilAt b i = s.getD i false) ∧
      (∀ bytes, bytesToBools s.length bytes = (List.range s.length).map (coilAt bytes)) ∧
      put (byteCount 1) [.boolS [true]] = some [0x80] ∧
      modbusCoil [0x80] 0 = false ∧
      modbusCoil [0x01] 0 = true ∧
      modbus.Client.ReadCoils (fun _ _ => .ok [1, 0x01]) 0 1 = .ok [false] := by
  refine ⟨?_, fun bytes => bytesToBools_spec _ _, by decide, by decide, by decide, by decide⟩
  obtain ⟨b, hb, _, hc, _⟩ := putBoolS_spec s h1 h2
  exact ⟨b, by simp [put, putLoop, modbus.Arg.put, hb], fun i _ => hc i⟩

/-- C26, applied to two statuses, the first one on: the byte is 0x80. -/
theorem coil_bit_order_witness :
    (∃ b, put (byteCount 2) [.boolS [true, false]] = some b ∧
        ∀ i, i < 2 → coilAt b i = [true, false].getD i false) ∧
      put (byteCount 2) [.boolS [true, false]] = some [0x80] :=
  ⟨(coil_bit_order [true, false] (by decide) (by decide)).1, by decide⟩

/-- What the handler of function 0x17 answers to the request the client
builds: the read quantity is compared with the byte count of the values to
write. -/
theorem handle_readWrite (h : modbus.Mux) (f : Nat → Nat → Nat → List Nat → List Nat × Nat)
    (ra rq wa : Nat) (v : List Nat) (hf : h.ReadWriteMultipleRegisters = some f)
    (hr1 : 1 ≤ rq) (hr2 : rq ≤ 125) (hra : ra + rq ≤ u16) (hv : v.length % 2 = 0)
    (hw1 : 2 ≤ v.length) (hw2 : v.length ≤ 242) (hwa : wa + v.length / 2 ≤ u16) :
    h.Handle 0x17
        (ra / 256 % 256 :: ra % 256 :: rq / 256 % 256 :: rq % 256 :: wa / 256 % 256
          :: wa % 256 :: (v.length / 2) / 256 % 256 :: (v.length / 2) % 256 :: v.length :: v)
      = some (if rq * 2 ≠ v.length then ([], modbus.IllegalDataValue)
          else if (f ra rq wa v).2 ≠ 0 then ([], (f ra rq wa v).2)
          else if (f ra rq wa v).1.length ≠ rq * 2 then ([], modbus.SlaveDeviceFailure)
          else ((f ra rq wa v).1.length % 256 :: (f ra rq wa v).1, 0)) := by
  have h1 : ra < u16 := by omega
  have h2 : rq < u16 := by simp only [u16]; omega
  have h3 : wa < u16 := by omega
  have h4 : v.length / 2 < u16 := by simp only [u16]; omega
  unfold modbus.Mux.Handle
  rw [if_neg (by decide), if_neg (by decide), if_neg (by decide), if_neg (by decide),
    if_neg (by decide), if_neg (by decide), if_neg (by decide), if_neg (by decide), if_pos rfl]
  unfold modbus.Mux.readWriteMultipleRegisters
  rw [hf]
  simp only [List.drop, getUint_two, be_two ra h1, be_two rq h2, be_two wa h3,
    be_two (v.length / 2) h4, List.length_cons, List.getElem?_cons_succ,
    List.getElem?_cons_zero]
  rw [if_neg (by omega), Nat.mod_eq_of_lt (by simp only [u16]; omega : rq * 2 < u16)]
  by_cases hq : rq * 2 ≠ v.length
  · rw [if_pos (Or.inl hq), if_pos hq]
  · rw [if_neg (fun hn => hn.elim hq (fun hn => hn rfl)), if_neg hq,
      if_neg (by rw [boundCheck_ok ra rq 125 hr1 hr2 hra]; simp),
      if_neg (by rw [boundCheck_ok wa (v.length / 2) 121 (by omega) (by omega) hwa]; simp)]
    by_cases hx : (f ra rq wa v).2 ≠ 0
    · rw [if_pos hx, if_pos hx]
    · rw [if_neg hx, if_neg hx]
      by_cases hn : (f ra rq wa v).1.length ≠ rq * 2
      · rw [if_pos hn, if_pos hn]
      · rw [if_neg hn, if_neg hn, put_response]

/-- C28 (code bug): the handler of function 0x17 compares the read quantity
with the byte count of the values to write (`rQuantity*2 != uint16(req[8])`).
For a read quantity from 1 to 125 and values of 1 to 121 registers, the
addresses not wrapping: when `rQuantity` differs from `len(values)/2`, the
handler answers the payload the client builds with `IllegalDataValue` without
calling the callback, and `Client.ReadWriteMultipleRegisters` returns that
exception; when they are equal, the callback is given
`(rAddress, rQuantity, wAddress, values)` and the `2*rQuantity` bytes it
returns are what the client returns. -/
theorem read_write_quantities (cl srv : tcp) (h : modbus.Mux)
    (f : Nat → Nat → Nat → List Nat → List Nat × Nat) (rAddress rQuantity wAddress : Nat)
    (values : List Nat) (hf : h.ReadWriteMultipleRegisters = some f)
    (hr1 : 1 ≤ rQuantity) (hr2 : rQuantity ≤ 125) (hra : rAddress + rQuantity ≤ u16)
    (hv : values.length % 2 = 0) (hw1 : 2 ≤ values.length) (hw2 : values.length ≤ 242)
    (hwa : wAddress + values.length / 2 ≤ u16) :
    (rQuantity ≠ values.length / 2 →
      (∃ req, put (9 + values.length)
            [.uint16 rAddress, .uint16 rQuantity, .uint16 wAddress,
              .uint16 (values.length % u16 / 2), .byte (values.length % 256), .byteS values]
            = some req ∧
          h.Handle 0x17 req = some ([], modbus.IllegalDataValue)) ∧
        modbus.Client.ReadWriteMultipleRegisters (modbus.served cl srv h) rAddress rQuantity
            wAddress values = .error (.exception modbus.IllegalDataValue)) ∧
      (rQuantity = values.length / 2 → ∀ res, f rAddress rQuantity wAddress values = (res, 0) →
        res.length = 2 * rQuantity →
        modbus.Client.ReadWriteMultipleRegisters (modbus.served cl srv h) rAddress rQuantity
            wAddress values = .ok res) := by
  have hl : values.length % u16 = values.length :=
    Nat.mod_eq_of_lt (by simp only [u16]; omega)
  have hb : values.length % 256 = values.length := Nat.mod_eq_of_lt (by omega)
  have hh := handle_readWrite h f rAddress rQuantity wAddress values hf hr1 hr2 hra hv hw1
    hw2 hwa
  have hput := put_read_write rAddress rQuantity wAddress (values.length / 2) values.length
    values
  have hcl : ∀ r, modbus.served cl srv h 0x17
        (rAddress / 256 % 256 :: rAddress % 256 :: rQuantity / 256 % 256 :: rQuantity % 256
          :: wAddress / 256 % 256 :: wAddress % 256 :: (values.length / 2) / 256 % 256
          :: (values.length / 2) % 256 :: values.length :: values) = r →
      modbus.Client.ReadWriteMultipleRegisters (modbus.served cl srv h) rAddress rQuantity
        wAddress values =
        match r with
        | .panic => .panic
        | .error e => .error e
        | .ok res =>
          match res[0]? with
          | none => .panic
          | some n =>
            if (2 * rQuantity) % u16 ≠ n then .error (.exception modbus.SlaveDeviceFailure)
            else .ok (res.drop 1) := by
    intro r hr
    unfold modbus.Client.ReadWriteMultipleRegisters
    rw [if_neg (by omega), if_neg (by rw [boundCheck_ok _ _ 125 hr1 hr2 hra]; simp), hl,
      if_neg (by rw [boundCheck_ok _ _ 121 (by omega) (by omega) hwa]; simp), hb, hput]
    simp only [hr]
  constructor
  · intro hne
    rw [if_pos (by omega)] at hh
    refine ⟨⟨_, by rw [hl, hb]; exact hput, hh⟩, ?_⟩
    have hreq := request_linked cl srv h.Handle 0x17 _ _ _ (by decide) (by decide)
      (by simp only [List.length_cons]; omega) hh
    rw [if_pos (by decide)] at hreq
    rw [hcl _ hreq]
  · intro heq res hres hlen
    rw [if_neg (by omega), hres, if_neg (by simp), if_neg (by simp only []; omega)] at hh
    have hreq := request_linked cl srv h.Handle 0x17 _ _ _ (by decide) (by decide)
      (by simp only [List.length_cons]; omega) hh
    rw [if_neg (by simp), if_neg (by simp only [List.length_cons]; omega)] at hreq
    rw [hcl _ hreq]
    simp only [List.getElem?_cons_zero, List.drop]
    rw [if_neg (by simp only [u16]; omega)]

/-- C28, applied to a read of one register with two registers to write: the
client gets `IllegalDataValue` from a handler whose callback would answer. -/
theorem read_write_quantities_witness :
    modbus.Client.ReadWriteMultipleRegisters
        (modbus.served ⟨0⟩ ⟨0⟩
          { modbus.Mux.none with
            ReadWriteMultipleRegisters := some fun _ q _ _ => (List.replicate (2 * q) 7, 0) })
        0 1 0 [0, 1, 0, 2]
      = .error (.exception modbus.IllegalDataValue) :=
  ((read_write_quantities ⟨0⟩ ⟨0⟩
    { modbus.Mux.none with
      ReadWriteMultipleRegisters := some fun _ q _ _ => (List.replicate (2 * q) 7, 0) }
    (fun _ q _ _ => (List.replicate (2 * q) 7, 0)) 0 1 0 [0, 1, 0, 2] rfl (by decide)
    (by decide) (by decide) (by decide) (by decide) (by decide) (by decide)).1 (by decide)).2

/-! ## Theorems: the limit of `WriteMultipleRegisters` -/

/-- C29 (code bug): `Client.WriteMultipleRegisters` checks the quantity
against 246 registers, where its comment gives 246 bytes.  For values of even
length from 248 to 492 bytes (124 to 246 registers) at an address that does
not wrap, the input validation passes and the call fails in `encode` with
`ErrDataSizeExceeded`, whatever the connection, instead of returning
`IllegalDataValue`.  For an odd length and for the length 0 it returns
`IllegalDataValue`. -/
theorem write_registers_limit (cl : tcp) (conn : List Nat → modbus.Exchange) (address : Nat)
    (values : List Nat) :
    (values.length % 2 = 0 → 248 ≤ values.length → values.length ≤ 492 →
        address + values.length / 2 ≤ u16 →
        modbus.Client.WriteMultipleRegisters
            (fun code req => (modbus.Client.Request cl conn code req).2) address values
          = .error .ErrDataSizeExceeded) ∧
      (values.length % 2 ≠ 0 →
        modbus.Client.WriteMultipleRegisters
            (fun code req => (modbus.Client.Request cl conn code req).2) address values
          = .error (.exception modbus.IllegalDataValue)) ∧
      (values.length = 0 →
        modbus.Client.WriteMultipleRegisters
            (fun code req => (modbus.Client.Request cl conn code req).2) address values
          = .error (.exception modbus.IllegalDataValue)) := by
  refine ⟨fun hv h1 h2 ha => ?_, fun hv => ?_, fun h0 => ?_⟩
  · have hl : values.length % u16 = values.length :=
      Nat.mod_eq_of_lt (by simp only [u16]; omega)
    unfold modbus.Client.WriteMultipleRegisters
    rw [if_neg (by omega), hl,
      if_neg (by rw [boundCheck_ok _ _ 246 (by omega) (by omega) ha]; simp),
      put_write_registers]
    simp only [modbus.Client.Request]
    rw [if_neg (by decide)]
    unfold tcp.encode
    rw [if_pos (by simp only [List.length_cons]; omega)]
  · unfold modbus.Client.WriteMultipleRegisters
    rw [if_pos hv]
  · unfold modbus.Client.WriteMultipleRegisters
    rw [if_neg (by omega), h0]
    rfl

/-- C29, applied to 248 zero bytes (124 registers) at the address 0. -/
theorem write_registers_limit_witness :
    modbus.Client.WriteMultipleRegisters
        (fun code req =>
          (modbus.Client.Request ⟨0⟩ (modbus.linked ⟨0⟩ modbus.Mux.none.Handle) code req).2)
        0 (List.replicate 248 0)
      = .error .ErrDataSizeExceeded :=
  (write_registers_limit ⟨0⟩ (modbus.linked ⟨0⟩ modbus.Mux.none.Handle) 0
    (List.replicate 248 0)).1 (by rw [List.length_replicate])
    (by rw [List.length_replicate]) (by rw [List.length_replicate]; decide)
    (by rw [List.length_replicate]; decide)

/-! ## Theorems: the marker -/

theorem readRegisters_length (code : Nat)
    (request : Nat → List Nat → Result modbus.Error (List Nat)) (a q : Nat) (res : List Nat)
    (h : modbus.Client.readRegisters code request a q = .ok res) : res.length = q * 2 := by
  unfold modbus.Client.readRegisters at h
  split at h
  · cases h
  · split at h
    · cases h
    · split at h
      · cases h
      · cases h
      · split at h
        · cases h
        · split at h
          · cases h
          · split at h
            · cases h
            · cases h
              rw [List.length_drop]
              omega

/-- One step of the loop of `mbClient.marker`: the read of the marker at
`adr` ends as the read of the two holding registers at `adr` does. -/
theorem marker_read (n : Nat) (request : Nat → List Nat → Result modbus.Error (List Nat))
    (adr : Nat) :
    ((mbClient.read (n + 2) ((marker adr).points.map TPoint.toPoint)
        (mbClient.readString request) (markerPoint adr).string).result =
      match modbus.Client.ReadHoldingRegisters request adr 2 with
      | .ok _ => .returned [⟨"SunS", adr, 2, false⟩] none
      | .error e => .returned [] (some (.error e))
      | .panic => .returned [] (some .panic)) := by
  have hp : (marker adr).points.map TPoint.toPoint = [⟨"SunS", adr, 2, false⟩] := rfl
  have hq : Points.quantity [(⟨"SunS", adr, 2, false⟩ : Point)] = 2 := rfl
  rw [hp]
  simp only [mbClient.read, execute, executeLoop, advance, List.length_cons, List.length_nil,
    List.drop, List.take, mbClient.readString, Points.address, hq]
  cases hr : modbus.Client.ReadHoldingRegisters request adr 2 with
  | panic => simp
  | error e => simp
  | ok res =>
    have hl : res.length = 4 := readRegisters_length _ _ _ _ _ hr
    have hd : (markerPoint adr).string.decode res
        = some ((markerPoint adr).string.Set (res.take 4)) := by
      unfold TString.decode
      rw [show (2 * (markerPoint adr).string.Quantity) % u16 = 4 by
        simp [markerPoint, TPoint.string, TString.Quantity, u16], if_neg (by omega)]
    simp [hd]

theorem markerLoop_spec (n : Nat) (request : Nat → List Nat → Result modbus.Error (List Nat)) :
    ∀ cands, mbClient.markerLoop (n + 2) request cands = some (firstReadable request cands)
  | [] => rfl
  | adr :: rest => by
    have ih := markerLoop_spec n request rest
    unfold mbClient.markerLoop firstReadable
    rw [marker_read]
    cases hr : modbus.Client.ReadHoldingRegisters request adr 2 with
    | panic => rfl
    | error e => exact ih
    | ok res => rfl

/-- C30 (code bug): `mbClient.marker` never compares what it reads with
`SunS`: it returns the first of the candidates 0, 40000, 50000 at which the
read of two holding registers succeeds, whatever they hold, and the error when
no read succeeds.  Against a server whose registers at 0 hold `ABCD` it
returns 0. -/
theorem marker_first_readable (fuel : Nat)
    (request : Nat → List Nat → Result modbus.Error (List Nat)) (hf : 2 ≤ fuel) :
    mbClient.marker fuel request = some (firstReadable request [0, 40000, 50000]) ∧
      modbus.Client.ReadHoldingRegisters abcdServer 0 2 = .ok [0x41, 0x42, 0x43, 0x44] ∧
      mbClient.marker fuel abcdServer = some (.ok 0) := by
  obtain ⟨n, rfl⟩ : ∃ n, fuel = n + 2 := ⟨fuel - 2, by omega⟩
  refine ⟨markerLoop_spec n request _, by decide, ?_⟩
  rw [mbClient.marker, markerLoop_spec n abcdServer]
  decide

/-- C30, applied to the server whose registers hold `ABCD`: the first
readable candidate is 0. -/
theorem marker_first_readable_witness :
    mbClient.marker 2 abcdServer = some (firstReadable abcdServer [0, 40000, 50000]) ∧
      firstReadable abcdServer [0, 40000, 50000] = .ok 0 :=
  ⟨(marker_first_readable 2 abcdServer (by decide)).1, by decide⟩

/-! ## Theorems: overlapping ranges -/

/-- C36: for ranges of at least one register that end at 65535 or below,
`intersect(a, b)` is true if and only if some register lies in both ranges;
and `intersect(a, b) = intersect(b, a)`. -/
theorem intersect_iff_common_register (a b : Index) (ha1 : 1 ≤ a.quantity)
    (ha2 : a.address + a.quantity ≤ 65535) (hb1 : 1 ≤ b.quantity)
    (hb2 : b.address + b.quantity ≤ 65535) :
    (intersect a b = true ↔ ∃ r, a.covers r ∧ b.covers r) ∧
      intersect a b = intersect b a := by
  have hca : ceil a = a.address + a.quantity := Nat.mod_eq_of_lt (by simp only [u16]; omega)
  have hcb : ceil b = b.address + b.quantity := Nat.mod_eq_of_lt (by simp only [u16]; omega)
  constructor
  · simp only [intersect, hca, hcb, Index.covers, Bool.not_eq_true', Bool.or_eq_false_iff,
      decide_eq_false_iff_not, not_le]
    constructor
    · intro h
      exact ⟨max a.address b.address, by omega⟩
    · rintro ⟨r, hr⟩
      omega
  · simp only [intersect, Bool.or_comm]

/-- C36, applied to the ranges `(0, 4)` and `(3, 3)` of the example of `merge`. -/
theorem intersect_iff_common_register_witness :
    (intersect ⟨0, 4⟩ ⟨3, 3⟩ = true ↔ ∃ r, (⟨0, 4⟩ : Index).covers r ∧ (⟨3, 3⟩ : Index).covers r) ∧
      intersect ⟨0, 4⟩ ⟨3, 3⟩ = true :=
  ⟨(intersect_iff_common_register ⟨0, 4⟩ ⟨3, 3⟩ (by decide) (by decide) (by decide)
    (by decide)).1, by decide⟩

/-! ## Theorems: transaction ids -/

theorem encodeAll_ids :
    ∀ (reqs : List (Nat × List Nat)) (s : tcp),
      transIds (s.encodeAll reqs) =
        (List.range (reqs.countP fun r => decide (r.2.length ≤ 252))).map
          fun i => (s.transid + 1 + i) % u16
  | [], _ => rfl
  | (c, d) :: rest, s => by
    by_cases h : d.length ≤ 252
    · have ih := encodeAll_ids rest ⟨(s.transid + 1) % 2 ^ 32⟩
      have hv : (s.transid + 1) % 2 ^ 32 % u16 < u16 := Nat.mod_lt _ (by decide)
      simp only [tcp.encodeAll, encode_ok s c d h, transIds, getUint_two, be_two _ hv,
        Option.getD_some, ih, List.countP_cons, h, decide_True, if_true, List.range_succ_eq_map,
        List.map_cons, List.map_map]
      refine congrArg₂ List.cons ?_ (List.map_congr_left fun i _ => ?_)
      · simp only [u16]
        omega
      · simp only [u16, Function.comp]
        omega
    · have he : s.encode c d = (s, .error .ErrDataSizeExceeded) := by
        unfold tcp.encode
        rw [if_pos (by omega)]
      simp only [tcp.encodeAll, he, transIds, List.countP_cons, h, decide_False]
      exact encodeAll_ids rest s

/-- C32: the transaction ids of the ADUs that successive calls of `encode` on
one framer return are consecutive modulo `2 ^ 16`, starting one above the
counter, whatever calls fail in between; up to 65536 successful calls carry
pairwise distinct ids; and a call that fails (a payload of more than 252
bytes) leaves the counter as it was. -/
theorem encode_transaction_ids (s : tcp) (reqs : List (Nat × List Nat)) :
    transIds (s.encodeAll reqs) =
        (List.range (reqs.countP fun r => decide (r.2.length ≤ 252))).map
          (fun i => (s.transid + 1 + i) % u16) ∧
      ((reqs.countP fun r => decide (r.2.length ≤ 252)) ≤ 65536 →
        (transIds (s.encodeAll reqs)).Nodup) ∧
      ∀ c d, 252 < List.length d → (s.encode c d).1 = s := by
  refine ⟨encodeAll_ids reqs s, fun hk => ?_, fun c d hd => ?_⟩
  · rw [encodeAll_ids reqs s]
    refine List.Nodup.map_on (fun i hi j hj hij => ?_) (List.nodup_range _)
    rw [List.mem_range] at hi hj
    simp only [u16] at hij
    omega
  · unfold tcp.encode
    rw [if_pos hd]

set_option maxRecDepth 100000 in
/-- C32, applied to three requests on a framer whose counter is 65534, the
second one too long: the ids are 65535 and 0. -/
theorem encode_transaction_ids_witness :
    transIds ((⟨65534⟩ : tcp).encodeAll [(3, [0, 0, 0, 1]), (16, List.replicate 253 0), (3, [])])
        = [65535, 0] ∧
      (transIds ((⟨65534⟩ : tcp).encodeAll
        [(3, [0, 0, 0, 1]), (16, List.replicate 253 0), (3, [])])).Nodup :=
  ⟨by decide,
    (encode_transaction_ids ⟨65534⟩ [(3, [0, 0, 0, 1]), (16, List.replicate 253 0), (3, [])]).2.1
      (by decide)⟩

/-! ## Theorems: iterate -/

mutual
theorem iterate_traced {ε : Type} (cb : Group → Option ε) :
    ∀ (g : Group) (s : List String),
      iterate (traced cb) g s =
        match cb g with
        | none => .ok (s ++ Group.reached cb g)
        | some e => .err (s ++ [g.name]) e
  | .mk n a ps gs, s => by
    unfold iterate Group.reached
    cases h : cb (.mk n a ps gs) with
    | some e => simp only [traced, h]
    | none =>
      simp only [traced, h, Group.name]
      rw [iterateGroups_traced cb gs (s ++ [n])]
      simp
theorem iterateGroups_traced {ε : Type} (cb : Group → Option ε) :
    ∀ (gs : List Group) (s : List String),
      iterateGroups (traced cb) gs s = .ok (s ++ Groups.reached cb gs)
  | [], s => by simp [iterateGroups, Groups.reached]
  | g :: gs, s => by
    unfold iterateGroups Groups.reached
    rw [iterate_traced cb g s]
    cases h : cb g with
    | some e =>
      simp only []
      rw [iterateGroups_traced cb gs (s ++ [g.name])]
      cases g with
      | mk n a ps gs1 =>
        simp only [Group.reached, h, Group.name]
        simp
    | none =>
      simp only []
      rw [iterateGroups_traced cb gs (s ++ Group.reached cb g)]
      simp
end

/-- C34 (code bug): `iterate` discards what its recursive calls return.  When
the callback returns `nil` for `g`, `iterate` returns `nil` whatever the
callback returns for the descendants, and after an error for a sub-group the
callback is still called on the later sub-groups (only the descendants of the
failing group are skipped).  On the tree `a [b [c], d]` with a callback that
fails on `b`, the callback is called on `a`, `b`, `d` and `iterate` returns
`nil`. -/
theorem iterate_drops_descendant_errors {ε : Type} (cb : Group → Option ε) (g : Group)
    (s : List String) (h : cb g = none) :
    iterate (traced cb) g s = .ok (s ++ Group.reached cb g) ∧
      iterate (traced failOnB) sampleTree [] = .ok ["a", "b", "d"] := by
  refine ⟨?_, by decide⟩
  rw [iterate_traced cb g s, h]

/-- C34, applied to the tree `a [b [c], d]` and the callback that fails on `b`. -/
theorem iterate_drops_descendant_errors_witness :
    failOnB sampleTree = none ∧
      iterate (traced failOnB) sampleTree [] = .ok ([] ++ Group.reached failOnB sampleTree) ∧
      Group.reached failOnB sampleTree = ["a", "b", "d"] :=
  ⟨by decide, (iterate_drops_descendant_errors failOnB sampleTree [] (by decide)).1, by decide⟩

/-! ## Theorems: atomic groups next to a range -/

/-- C39 (code bug): the callback of `collect` skips a group only when the
range starts above the ceiling of its points (`idx.Address() > ceil(...)`), so
for a range that starts exactly at that ceiling, behind the first point of the
group, it goes on to the test `g.Atomic()` and returns the error of atomic
groups although the range holds none of the points of the group.  For the
model whose atomic root group holds `ID@0` and `L@1` and whose sub-group holds
`X@2` and `Y@3`, `collect` fails on the range `(2, 2)`, which covers exactly
the points of the sub-group. -/
theorem collect_atomic_root_adjacent (idx gi : Index) (ga : Nat) (g : Group)
    (pts : List Point) (ha : g.atomic = true) (hi : Points.index g.points = some gi)
    (hg : g.address = some ga) (hlt : ga < idx.address) (hc : idx.address = ceil gi) :
    collectGroup idx g pts = .err pts .atomicGroup ∧
      (∀ p ∈ atomicRootModel.points, intersect ⟨2, 2⟩ p.index = false) ∧
      collect [atomicRootModel] [⟨2, 2⟩] = .error .atomicGroup := by
  refine ⟨?_, by decide, by decide⟩
  unfold collectGroup
  rw [hi, hg]
  simp only []
  rw [if_neg (by omega), ha]
  simp [show ¬idx.address ≤ ga by omega]

/-- C39, applied to the root group of the model and the range `(2, 2)`. -/
theorem collect_atomic_root_adjacent_witness :
    collectGroup ⟨2, 2⟩ atomicRootModel [] = .err [] .atomicGroup :=
  (collect_atomic_root_adjacent ⟨2, 2⟩ ⟨0, 2⟩ 0 atomicRootModel [] (by decide) (by decide)
    (by decide) (by decide) (by decide)).1

/-! ## Theorems: faults of `Instance` -/

/-- C38 (code bug): `Instance` panics on definitions it should refuse.  When
the first point definition of the root group has a type tag that is not
recognised (and no count), `PointDef.Instance` returns `nil` and `ceil` of
that point panics, for every start address and callback; so it does for the
definition `unknownTypeDef`, where the third point has the type `uint8`.  And
for the definition `headlessDef`, whose root group has no point `ID`,
`m.ID().Set` panics. -/
theorem instance_faults {ε : Type} (grow : Nat → Nat) (cb : Callback ε) (id adr : Nat)
    (name : String) (atomic : Bool) (c : Dyn) (p : PointDef) (ps : List PointDef)
    (gs : List GroupDef) (hp : Variant.ofTag p.type = none) (hc : p.count = .null) :
    ModelDef.Instance grow ⟨id, .mk name atomic c (p :: ps) gs⟩ adr cb = .panic ∧
      unknownTypeDef.Instance (ε := Unit) id 40002 none = .panic ∧
      headlessDef.Instance (ε := Unit) id 40002 none = .panic := by
  refine ⟨?_, rfl, rfl⟩
  simp [ModelDef.Instance, instGroup, instPoints, hc, count, instPoint, PointDef.Instance, hp]

/-- C38, applied to a definition whose only point has the type `uint8`. -/
theorem instance_faults_witness :
    ModelDef.Instance (ε := Unit) id ⟨7, .mk "model" false .null [pointDef "A" "uint8" .null .null] []⟩
      0 none = .panic :=
  (instance_faults id none 7 0 "model" false .null (pointDef "A" "uint8" .null .null) [] []
    (by decide) rfl).1

/-! ## Theorems: responses -/

/-- C40 (code bug): `reply` builds the response with `encode`, which leaves
the protocol id and the unit id 0, and copies only the transaction id of the
request.  For a request of at least 8 bytes and a payload of at most 252
bytes the response passes `verify` if and only if the protocol id and the
unit id of the request are 0; for a request with the unit id 1 `verify`
returns `ErrMissmatchedUnitId`. -/
theorem reply_copies_transaction_id_only (s : tcp) (code : Nat) (data req : List Nat)
    (hq : 8 ≤ req.length) (hd : data.length ≤ 252) :
    (∃ res, (s.reply code data req).2 = .ok res ∧ res.take 2 = req.take 2 ∧
        res[2]? = some 0 ∧ res[3]? = some 0 ∧ res[6]? = some 0 ∧
        (tcp.verify req res = .ok () ↔
          req[2]? = some 0 ∧ req[3]? = some 0 ∧ req[6]? = some 0)) ∧
      ∃ res, ((⟨0⟩ : tcp).reply 3 [2, 0, 7] [0, 1, 0, 0, 0, 6, 1, 3, 0, 0, 0, 1]).2 = .ok res ∧
        tcp.verify [0, 1, 0, 0, 0, 6, 1, 3, 0, 0, 0, 1] res = .error .ErrMissmatchedUnitId := by
  constructor
  · obtain ⟨t1, t2, p1, p2, l1, l2, u, f, rest, rfl⟩ :
        ∃ t1 t2 p1 p2 l1 l2 u f rest, req = t1 :: t2 :: p1 :: p2 :: l1 :: l2 :: u :: f :: rest := by
      match req, hq with
      | t1 :: t2 :: p1 :: p2 :: l1 :: l2 :: u :: f :: rest, _ =>
        exact ⟨t1, t2, p1, p2, l1, l2, u, f, rest, rfl⟩
    refine ⟨_, by rw [reply_ok s code t1 t2 data _ hd], ?_, ?_, ?_, ?_, ?_⟩
    · simp
    · simp
    · simp
    · simp
    · by_cases h2 : p1 = 0 <;> by_cases h3 : p2 = 0 <;> by_cases h6 : u = 0 <;>
        simp [tcp.verify, tcp.differ, tcp.either, h2, h3, h6]
  · exact ⟨_, by rw [reply_ok _ _ _ _ _ _ (by decide)], by decide⟩

/-- C40, applied to a request with the unit id 1 and a response payload of
three bytes. -/
theorem reply_copies_transaction_id_only_witness :
    ∃ res, ((⟨0⟩ : tcp).reply 3 [2, 0, 7] [0, 1, 0, 0, 0, 6, 1, 3, 0, 0, 0, 1]).2 = .ok res ∧
      res.take 2 = ([0, 1, 0, 0, 0, 6, 1, 3, 0, 0, 0, 1] : List Nat).take 2 ∧
      res[2]? = some 0 ∧ res[3]? = some 0 ∧ res[6]? = some 0 ∧
      (tcp.verify [0, 1, 0, 0, 0, 6, 1, 3, 0, 0, 0, 1] res = .ok () ↔
        ([0, 1, 0, 0, 0, 6, 1, 3, 0, 0, 0, 1] : List Nat)[2]? = some 0 ∧
          ([0, 1, 0, 0, 0, 6, 1, 3, 0, 0, 0, 1] : List Nat)[3]? = some 0 ∧
          ([0, 1, 0, 0, 0, 6, 1, 3, 0, 0, 0, 1] : List Nat)[6]? = some 0) :=
  (reply_copies_transaction_id_only ⟨0⟩ 3 [2, 0, 7] [0, 1, 0, 0, 0, 6, 1, 3, 0, 0, 0, 1]
    (by decide) (by decide)).1

/-- C37 (code bug): the callback of `Client.Request` indexes the received
bytes without a length check.  For every request ADU that `encode` builds,
the callback panics on each received prefix of fewer than 7 bytes of a
matching ADU (`verify` reads `res[0]` to `res[6]`), and on the 8 bytes of a
matching header followed by a function byte of 0x80 or more (`decode` reads
`adu[8]`). -/
theorem response_handling_faults (s : tcp) (c : Nat) (d : List Nat) (hd : d.length ≤ 252) :
    ∃ req, (s.encode c d).2 = .ok req ∧
      (∀ k, k < 7 → modbus.Client.listener req (req.take k) none = some .panic) ∧
      ∀ f, 0x80 ≤ f → modbus.Client.listener req (req.take 7 ++ [f]) none = some .panic := by
  refine ⟨_, by rw [encode_ok s c d hd], fun k hk => ?_, fun f hf => ?_⟩
  · interval_cases k <;> simp [modbus.Client.listener, tcp.verify, tcp.differ, tcp.either]
  · simp only [List.take, List.cons_append, List.nil_append, modbus.Client.listener,
      verify_same]
    rw [copy_take _ _ (by
      simp only [List.length_append, List.length_replicate, List.length_cons, List.length_nil]
      omega)]
    unfold tcp.decode
    rw [if_neg (by simp)]
    simp only [List.getElem?_cons_succ, List.getElem?_cons_zero]
    rw [if_pos hf]
    rfl

/-- C37, applied to the request of function 3 with a payload of four bytes. -/
theorem response_handling_faults_witness :
    ∃ req, ((⟨0⟩ : tcp).encode 3 [0, 0, 0, 2]).2 = .ok req ∧
      (∀ k, k < 7 → modbus.Client.listener req (req.take k) none = some .panic) ∧
      ∀ f, 0x80 ≤ f → modbus.Client.listener req (req.take 7 ++ [f]) none = some .panic :=
  response_handling_faults ⟨0⟩ 3 [0, 0, 0, 2] (by decide)

/-! ## Theorems: the receivers of a connection -/

theorem registered_eq_reverse (rs : List receiver) : registered rs = rs.reverse := by
  have h : ∀ (rs acc : List receiver), rs.foldl network.listen acc = rs.reverse ++ acc := by
    intro rs
    induction rs with
    | nil => intro acc; rfl
    | cons r rs ih =>
      intro acc
      simp only [List.foldl_cons, ih, network.listen, List.reverse_cons, List.append_assoc,
        List.singleton_append]
  simpa [registered] using h rs []

theorem broadcast_spec (adu : List Nat) (err : Option modbus.Error) :
    ∀ l : List receiver,
      network.broadcast adu err l = (ids l, l.filter fun r => !r.callback adu err)
  | [] => rfl
  | r :: rest => by
    unfold network.broadcast
    rw [broadcast_spec adu err rest]
    cases h : r.callback adu err <;> simp [ids, h]

/-- C35 as stated fails: after the receivers 1 and 2 were attached in that
order, `broadcast` calls the callback of 2 first (`listen` pushes to the front
of the list and `broadcast` walks it from the front). -/
theorem broadcast_not_in_registration_order :
    (network.broadcast [] none (registered [constReceiver 1 false, constReceiver 2 false])).1
      = [2, 1] := by
  decide

/-- C35 (amended): after receivers were attached by `listen` in the order
`rs`, `broadcast` calls their callbacks in the reverse of that order, the last
one attached first; afterwards the list holds exactly the receivers whose
callback returned false, in unchanged relative order. -/
theorem broadcast_reverse_registration_order (rs : List receiver) (adu : List Nat)
    (err : Option modbus.Error) :
    (network.broadcast adu err (registered rs)).1 = (ids rs).reverse ∧
      (network.broadcast adu err (registered rs)).2
        = (registered rs).filter fun r => !r.callback adu err := by
  rw [broadcast_spec, registered_eq_reverse]
  exact ⟨by simp [ids], rfl⟩

/-- C35 (amended), applied to three receivers of which the second one quits:
the calls are 3, 2, 1 and the receivers 3 and 1 stay, in that order. -/
theorem broadcast_reverse_registration_order_witness :
    (network.broadcast [] none
        (registered [constReceiver 1 false, constReceiver 2 true, constReceiver 3 false])).1
        = (ids [constReceiver 1 false, constReceiver 2 true, constReceiver 3 false]).reverse ∧
      ids (network.broadcast [] none
        (registered [constReceiver 1 false, constReceiver 2 true, constReceiver 3 false])).2
        = [3, 1] :=
  ⟨(broadcast_reverse_registration_order
      [constReceiver 1 false, constReceiver 2 true, constReceiver 3 false] [] none).1,
    by decide⟩

/-! ## Theorems: the write handler of the server -/

/-- C31 (code bug): the write callback of the server calls `collect` with the
quantity `uint16(len(values) * 2)`, four times the number of registers of the
request.  On the device with the writable point `W@4` followed by the
read-only point `R@5` and the end header, the write of the one register 4
(two bytes) collects the registers 4 to 7, that is `W`, `R` and the header,
and is refused with `IllegalDataAddress` because of the points behind `W`;
with the quantity 1, `collect` gives `W` alone. -/
theorem write_handler_quantity :
    mbServer.writeMultipleRegisters servedDevice (fun _ => true) (fun _ _ _ => false) 4 [0, 7]
        = some modbus.IllegalDataAddress ∧
      collect servedDevice [⟨4, ([0, 7] : List Nat).length * 2⟩] =
        .ok [⟨"W", 4, 1, true⟩, ⟨"R", 5, 1, false⟩, ⟨"ID", 6, 1, false⟩, ⟨"L", 7, 1, false⟩] ∧
      collect servedDevice [⟨4, ([0, 7] : List Nat).length / 2⟩] = .ok [⟨"W", 4, 1, true⟩] := by
  decide

/-! ## Theorems: the states of a bitfield -/

theorem field_bit (v b : Nat) : decide (v &&& (1 <<< b) ≠ 0) = v.testBit b := by
  rw [Nat.one_shiftLeft, Nat.and_two_pow]
  cases v.testBit b <;> simp

theorem field_getElem (bits v i : Nat) (h : i < bits) :
    (bitfieldField bits v)[i]? = some (v.testBit i) := by
  unfold bitfieldField
  rw [List.getElem?_map, List.getElem?_range h, Option.map_some', field_bit]

theorem statesLoop_none (symbols : List (Nat × String)) :
    ∀ (field : List Bool) (i j : Nat) (s : List String), field[j]? = some true →
      symbolName symbols (i + j) = none → statesLoop symbols i field s = none
  | [], _, _, _, hj, _ => by simp at hj
  | v :: rest, i, 0, s, hj, hs => by
    simp only [List.getElem?_cons_zero, Option.some.injEq] at hj
    simp only [Nat.add_zero] at hs
    simp [statesLoop, hj, hs]
  | v :: rest, i, j + 1, s, hj, hs => by
    simp only [List.getElem?_cons_succ] at hj
    have hs1 : symbolName symbols (i + 1 + j) = none := by
      rw [show i + 1 + j = i + (j + 1) by omega]
      exact hs
    unfold statesLoop
    cases v with
    | false => simpa using statesLoop_none symbols rest (i + 1) j s hj hs1
    | true =>
      cases hn : symbolName symbols i with
      | none => simp
      | some name => simpa using statesLoop_none symbols rest (i + 1) j (s ++ [name]) hj hs1

/-- C33 (code bug): `States` calls `.Name()` on `t.symbols[uint32(i)]` for
every bit that is set, and the map gives the `nil` interface for a key it does
not hold: for a bitfield point whose value is not all-ones and has a bit set
for which no symbol is defined, `States` panics.  So it does for the
`bitfield16` point with the value 1 and no symbols.  When every set bit has a
symbol the names come in ascending bit position (value 5 with the symbols of
the bits 2, 0 and 1), and the all-ones value gives no states. -/
theorem states_panics_without_symbol (t : TPoint) (i : Nat) (hb : i < t.variant.bits)
    (hv : t.int.toNat ≠ 2 ^ t.variant.bits - 1) (hset : t.int.toNat.testBit i = true)
    (hsym : symbolName t.symbols i = none) :
    t.States = none ∧
      ((bitfieldDef 1 []).Instance id 0 none).map TPoint.States = some none ∧
      ((bitfieldDef 5 [⟨"C", 2⟩, ⟨"A", 0⟩, ⟨"B", 1⟩]).Instance id 0 none).map TPoint.States
        = some (some ["A", "C"]) ∧
      ((bitfieldDef 65535 []).Instance id 0 none).map TPoint.States = some (some []) := by
  refine ⟨?_, by decide, by decide, by decide⟩
  unfold TPoint.States
  rw [if_neg (by simp [bitfieldValid, hv])]
  refine statesLoop_none _ _ 0 i [] ?_ (by rw [Nat.zero_add]; exact hsym)
  rw [field_getElem _ _ _ hb, hset]

/-- C33, applied to the `bitfield16` point with the value 1 and no symbols. -/
theorem states_panics_without_symbol_witness :
    TPoint.States ⟨"St", false, false, 0, none, .bitfield16, .int 1, .dyn .null, []⟩ = none :=
  (states_panics_without_symbol ⟨"St", false, false, 0, none, .bitfield16, .int 1, .dyn .null, []⟩
    0 (by decide) (by decide) (by decide) (by decide)).1

end SunSpec
